import Mathlib

/-!
Verification of the front-end lowering pipeline of the egg-smol repository
(src/ast/desugar.rs, src/typechecking.rs, src/graph/from_egraph.rs) against
its natural-language specification.

The Rust code is shallowly embedded: interned `Symbol`s become `String`s,
`HashSet`s become lists with insert-if-absent semantics, mutable accumulators
become explicit state threading, and `assert!`/`panic!` aborts become `Option`
failure.  The contents of `TypeInfo::default()`'s primitive registry depend on
sort-library files that are not part of the sources under verification, so the
primitive test `TypeInfo::default().is_primitive` consulted by `expr_to_ssa`
is threaded as an explicit function parameter `isPrim`.
-/

set_option maxHeartbeats 1000000
set_option linter.dupNamespace false
set_option linter.unusedVariables false
set_option linter.unnecessarySeqFocus false

namespace EggSmol

/-- Interned identifier (egg-smol `Symbol`); equality is string equality. -/
abbrev Symbol := String

/-! ### Decimal rendering of naturals

`Desugar::get_fresh` renders the counter with Rust's `{}` formatting of a
`usize`, i.e. decimal digits; Lean's `Nat.repr` does the same.  We relate
`Nat.repr` to a structurally recursive digit-list function in order to prove
injectivity, digit-ness and length facts about generated names. -/

/-- Decimal digit list of a natural number (most significant first). -/
def digitsList (n : Nat) : List Char :=
  if n < 10 then [Nat.digitChar n]
  else digitsList (n / 10) ++ [Nat.digitChar (n % 10)]
termination_by n
decreasing_by
  exact Nat.div_lt_self (by omega) (by omega)

theorem toDigitsCore_eq_digitsList (fuel : Nat) :
    ∀ n ds, n < fuel → Nat.toDigitsCore 10 fuel n ds = digitsList n ++ ds := by
  induction fuel with
  | zero => intro n ds h; omega
  | succ f ih =>
    intro n ds h
    show (if n / 10 = 0 then Nat.digitChar (n % 10) :: ds
          else Nat.toDigitsCore 10 f (n / 10) (Nat.digitChar (n % 10) :: ds)) =
        digitsList n ++ ds
    by_cases h10 : n / 10 = 0
    · have hn : n < 10 := by omega
      rw [if_pos h10, digitsList, if_pos hn, Nat.mod_eq_of_lt hn]
      rfl
    · have hn : ¬ n < 10 := by
        intro hc
        exact h10 (Nat.div_eq_of_lt hc)
      have hlt : n / 10 < f := by
        have := Nat.div_lt_self (n := n) (by omega) (by omega : 1 < 10)
        omega
      have hd : digitsList n = digitsList (n / 10) ++ [Nat.digitChar (n % 10)] := by
        rw [digitsList, if_neg hn]
      rw [if_neg h10, ih (n / 10) _ hlt, hd, List.append_assoc]
      rfl

theorem repr_eq_digitsList (n : Nat) : Nat.repr n = (digitsList n).asString := by
  show (Nat.toDigitsCore 10 (n + 1) n []).asString = (digitsList n).asString
  rw [toDigitsCore_eq_digitsList (n + 1) n [] (Nat.lt_succ_self n), List.append_nil]

/-- Decimal value of a digit character list (the digit chars of `digitsList`). -/
def parseDigits (cs : List Char) : Nat :=
  cs.foldl (fun a c => 10 * a + (c.toNat - 48)) 0

theorem parseDigits_append_singleton (cs : List Char) (c : Char) :
    parseDigits (cs ++ [c]) = 10 * parseDigits cs + (c.toNat - 48) := by
  simp [parseDigits]

theorem parseDigits_digitsList (n : Nat) : parseDigits (digitsList n) = n := by
  induction n using Nat.strong_induction_on with
  | _ n ih =>
    rw [digitsList]
    by_cases h : n < 10
    · rw [if_pos h]
      interval_cases n <;> rfl
    · rw [if_neg h, parseDigits_append_singleton,
        ih (n / 10) (Nat.div_lt_self (by omega) (by omega))]
      have hm : n % 10 < 10 := Nat.mod_lt n (by omega)
      have hval : (Nat.digitChar (n % 10)).toNat - 48 = n % 10 := by
        interval_cases h : (n % 10) <;> rfl
      rw [hval]
      omega

theorem digitsList_injective : Function.Injective digitsList := by
  intro a b h
  have := congrArg parseDigits h
  rwa [parseDigits_digitsList, parseDigits_digitsList] at this

theorem repr_injective : Function.Injective Nat.repr := by
  intro a b h
  rw [repr_eq_digitsList, repr_eq_digitsList] at h
  apply digitsList_injective
  have : ((digitsList a).asString).data = ((digitsList b).asString).data := by rw [h]
  simpa [List.asString] using this

theorem digitsList_ne_nil (n : Nat) : digitsList n ≠ [] := by
  rw [digitsList]
  by_cases h : n < 10 <;> simp [h]

theorem digitsList_all_digit (n : Nat) : ∀ c ∈ digitsList n, c.isDigit = true := by
  induction n using Nat.strong_induction_on with
  | _ n ih =>
    intro c hc
    rw [digitsList] at hc
    by_cases h : n < 10
    · rw [if_pos h] at hc
      simp only [List.mem_singleton] at hc
      subst hc
      interval_cases n <;> rfl
    · rw [if_neg h] at hc
      rcases List.mem_append.mp hc with h1 | h2
      · exact ih (n / 10) (Nat.div_lt_self (by omega) (by omega)) c h1
      · simp only [List.mem_singleton] at h2
        subst h2
        have hm : n % 10 < 10 := Nat.mod_lt n (by omega)
        interval_cases h : (n % 10) <;> rfl

theorem digit_ne_underscore {c : Char} (h : c.isDigit = true) : c ≠ '_' := by
  intro hc
  subst hc
  simp [Char.isDigit] at h

/-! ### Generated names

`Desugar::get_fresh` produces `format!("v{}{}", counter, "_".repeat(number_underscores))`. -/

/-- The name produced by the fresh-name generator for counter value `n` with
`k` underscores: `v{n}{"_" * k}`. -/
def genName (k n : Nat) : Symbol :=
  "v" ++ Nat.repr n ++ String.mk (List.replicate k '_')

theorem genName_data (k n : Nat) :
    (genName k n).data = 'v' :: (digitsList n ++ List.replicate k '_') := by
  show ("v" ++ Nat.repr n ++ String.mk (List.replicate k '_')).data = _
  rw [String.data_append, String.data_append, repr_eq_digitsList]
  simp [List.asString]

theorem genName_injective (k : Nat) : Function.Injective (genName k) := by
  intro a b h
  have hd := congrArg String.data h
  rw [genName_data, genName_data] at hd
  have h2 : digitsList a ++ List.replicate k '_' = digitsList b ++ List.replicate k '_' :=
    List.tail_eq_of_cons_eq hd
  exact digitsList_injective (List.append_cancel_right h2)

theorem genName_length (k n : Nat) :
    (genName k n).length = 1 + (digitsList n).length + k := by
  show (genName k n).data.length = _
  rw [genName_data]
  simp
  omega

theorem digitsList_length_pos (n : Nat) : 0 < (digitsList n).length :=
  List.length_pos.mpr (digitsList_ne_nil n)

theorem genName_length_ge (k n : Nat) : 2 + k ≤ (genName k n).length := by
  have := digitsList_length_pos n
  rw [genName_length]
  omega

/-! ### Surface and normalized syntax (src/ast, as used by src/ast/desugar.rs) -/

/-- Surface literal (`ast::Literal`).  The `F64` payload (an `OrderedFloat<f64>`)
is carried as its bit pattern; desugaring never computes with literal values. -/
inductive Literal where
  | Int (i : Int)
  | F64 (bits : Nat)
  | String (s : Symbol)
  | Bool (b : Bool)
  | Unit
deriving DecidableEq, Repr

/-- Surface expression (`ast::Expr` as used by desugar.rs: literal, variable or call). -/
inductive Expr where
  | Lit (l : Literal)
  | Var (v : Symbol)
  | Call (f : Symbol) (children : List Expr)

mutual

def Expr.decEq : (a b : Expr) → Decidable (a = b)
  | .Lit a, .Lit b =>
    if h : a = b then isTrue (by rw [h])
    else isFalse (fun hc => by cases hc; exact h rfl)
  | .Lit _, .Var _ => isFalse (fun hc => Expr.noConfusion hc)
  | .Lit _, .Call _ _ => isFalse (fun hc => Expr.noConfusion hc)
  | .Var _, .Lit _ => isFalse (fun hc => Expr.noConfusion hc)
  | .Var a, .Var b =>
    if h : a = b then isTrue (by rw [h])
    else isFalse (fun hc => by cases hc; exact h rfl)
  | .Var _, .Call _ _ => isFalse (fun hc => Expr.noConfusion hc)
  | .Call _ _, .Lit _ => isFalse (fun hc => Expr.noConfusion hc)
  | .Call _ _, .Var _ => isFalse (fun hc => Expr.noConfusion hc)
  | .Call f1 c1, .Call f2 c2 =>
    if h1 : f1 = f2 then
      match Expr.decEqList c1 c2 with
      | isTrue h2 => isTrue (by rw [h1, h2])
      | isFalse h2 => isFalse (fun hc => by cases hc; exact h2 rfl)
    else isFalse (fun hc => by cases hc; exact h1 rfl)

def Expr.decEqList : (a b : List Expr) → Decidable (a = b)
  | [], [] => isTrue rfl
  | [], _ :: _ => isFalse (fun hc => List.noConfusion hc)
  | _ :: _, [] => isFalse (fun hc => List.noConfusion hc)
  | a :: as, b :: bs =>
    match Expr.decEq a b, Expr.decEqList as bs with
    | isTrue h1, isTrue h2 => isTrue (by rw [h1, h2])
    | isFalse h1, _ => isFalse (fun hc => by cases hc; exact h1 rfl)
    | _, isFalse h2 => isFalse (fun hc => by cases hc; exact h2 rfl)

end

instance : DecidableEq Expr := Expr.decEq

/-- `GenericExpr::is_var` (src/ast/expr.rs). -/
def Expr.is_var : Expr → Bool
  | .Var _ => true
  | _ => false

/-- Surface fact (`ast::Fact`): an equality over a list of expressions or a
bare term assertion. -/
inductive Fact where
  | Eq (args : List Expr)
  | Fact (e : Expr)

/-- Surface action (`ast::Action`). -/
inductive Action where
  | Let (v : Symbol) (e : Expr)
  | Set (f : Symbol) (args : List Expr) (rhs : Expr)
  | SetNoTrack (f : Symbol) (args : List Expr) (rhs : Expr)
  | Delete (f : Symbol) (args : List Expr)
  | Union (lhs rhs : Expr)
  | Panic (msg : String)
  | Expr (e : Expr)

/-- Surface rule (`ast::Rule`): body facts and head actions. -/
structure Rule where
  body : List Fact
  head : List Action

/-- `ast::Rewrite`. -/
structure Rewrite where
  lhs : Expr
  rhs : Expr
  conditions : List Fact

/-- Normalized expression (`ast::NormExpr`): a call whose arguments are names. -/
inductive NormExpr where
  | Call (f : Symbol) (args : List Symbol)
deriving DecidableEq, Repr

/-- Modelled from the spec: `NormExpr::to_expr` (defined in ast/mod.rs, which is
not among the sources) maps a normalized call back to the surface expression
whose children are the argument names as variables; §4.2 calls it the
normalized call's "corresponding expression". -/
def NormExpr.to_expr : NormExpr → Expr
  | .Call f args => .Call f (args.map Expr.Var)

/-- Normalized fact (`ast::NormFact`). -/
inductive NormFact where
  | Assign (lhs : Symbol) (e : NormExpr)
  | Compute (lhs : Symbol) (e : NormExpr)
  | AssignLit (lhs : Symbol) (l : Literal)
  | ConstrainEq (a b : Symbol)
deriving DecidableEq, Repr

/-- Normalized action (`ast::NormAction`). -/
inductive NormAction where
  | Let (lhs : Symbol) (e : NormExpr)
  | LetVar (lhs rhs : Symbol)
  | LetLit (lhs : Symbol) (l : Literal)
  | Set (e : NormExpr) (rhs : Symbol)
  | Delete (e : NormExpr)
  | Union (a b : Symbol)
  | Panic (msg : String)
deriving DecidableEq, Repr

/-- Normalized rule (`ast::NormRule`). -/
structure NormRule where
  head : List NormAction
  body : List NormFact
deriving DecidableEq, Repr

/-! ### The `Desugar` state -/

/-- The `Desugar` value (desugar.rs).  The two lalrpop parsers are omitted:
they carry no state relevant to desugaring.  The `HashSet` of global variables
is a list with insert-if-absent semantics. -/
structure Desugar where
  next_fresh : Nat
  next_command_id : Nat
  number_underscores : Nat
  global_variables : List Symbol
deriving DecidableEq, Repr

/-- `Desugar::default()`: counters at zero, three underscores, no globals. -/
def Desugar.default : Desugar :=
  { next_fresh := 0, next_command_id := 0, number_underscores := 3, global_variables := [] }

/-- `Desugar::get_fresh`: increments `next_fresh` and returns
`v{old counter}{"_" * number_underscores}`. -/
def Desugar.get_fresh (d : Desugar) : Symbol × Desugar :=
  ("v" ++ Nat.repr d.next_fresh ++ String.mk (List.replicate d.number_underscores '_'),
   { d with next_fresh := d.next_fresh + 1 })

theorem get_fresh_eq_genName (d : Desugar) :
    d.get_fresh.1 = genName d.number_underscores d.next_fresh := rfl

/-- `Desugar::get_new_id`: returns the current command id and increments it. -/
def Desugar.get_new_id (d : Desugar) : Nat × Desugar :=
  (d.next_command_id, { d with next_command_id := d.next_command_id + 1 })

/-- `HashSet::insert`: returns whether the value was newly inserted, and the
updated set. -/
def hsInsert (s : List Symbol) (v : Symbol) : Bool × List Symbol :=
  if v ∈ s then (false, s) else (true, v :: s)

/-! ### Body flattener (desugar.rs `expr_to_ssa`, `flatten_equalities`, `flatten_facts`)

The Rust `expr_to_ssa` consults `TypeInfo::default().is_primitive`; that test
is threaded here as the parameter `isPrim`.  The mutable accumulators
`res`, `constraints` and `bound` are threaded explicitly; pushes append at the
right end, as in the source. -/

mutual

/-- `expr_to_ssa` (desugar.rs).  Returns the updated desugar state and
accumulators.  The `Var` arm returns before the `bound.insert(lhs_in)` step,
exactly as the early return in the source does. -/
def expr_to_ssa (isPrim : Symbol → Bool) (lhs_in : Symbol) (e : Expr) (d : Desugar)
    (res : List NormFact) (constraints : List (Symbol × Symbol)) (bound : List Symbol) :
    Desugar × List NormFact × List (Symbol × Symbol) × List Symbol :=
  match e with
  | .Var v => (d, res ++ [NormFact.ConstrainEq lhs_in v], constraints, bound)
  | .Lit l =>
    let (isNew, bound) := hsInsert bound lhs_in
    let (lhs, d, constraints) :=
      if isNew then (lhs_in, d, constraints)
      else
        let (fresh, d) := d.get_fresh
        (fresh, d, constraints ++ [(fresh, lhs_in)])
    (d, res ++ [NormFact.AssignLit lhs l], constraints, bound)
  | .Call f children =>
    let (isNew, bound) := hsInsert bound lhs_in
    let (lhs, d, constraints) :=
      if isNew then (lhs_in, d, constraints)
      else
        let (fresh, d) := d.get_fresh
        (fresh, d, constraints ++ [(fresh, lhs_in)])
    if isPrim f then
      let (new_children, d, res, constraints, bound) :=
        ssa_children_prim isPrim children d res constraints bound
      (d, res ++ [NormFact.Compute lhs (NormExpr.Call f new_children)], constraints, bound)
    else
      let (new_children, d, res, constraints, bound) :=
        ssa_children_fn isPrim children d res constraints bound
      (d, res ++ [NormFact.Assign lhs (NormExpr.Call f new_children)], constraints, bound)

/-- Child loop of the primitive arm of `expr_to_ssa`: variable children are
used as-is (not marked bound); other children are flattened to a fresh name. -/
def ssa_children_prim (isPrim : Symbol → Bool) (children : List Expr) (d : Desugar)
    (res : List NormFact) (constraints : List (Symbol × Symbol)) (bound : List Symbol) :
    List Symbol × Desugar × List NormFact × List (Symbol × Symbol) × List Symbol :=
  match children with
  | [] => ([], d, res, constraints, bound)
  | child :: rest =>
    match child with
    | .Var v =>
      let (names, d, res, constraints, bound) :=
        ssa_children_prim isPrim rest d res constraints bound
      (v :: names, d, res, constraints, bound)
    | _ =>
      let (fresh, d) := d.get_fresh
      let (d, res, constraints, bound) :=
        expr_to_ssa isPrim fresh child d res constraints bound
      let (names, d, res, constraints, bound) :=
        ssa_children_prim isPrim rest d res constraints bound
      (fresh :: names, d, res, constraints, bound)

/-- Child loop of the non-primitive arm of `expr_to_ssa`: a variable child is
marked bound on first sight, and on a repeat gets a fresh name plus a deferred
constraint; a non-variable child is flattened to a fresh pre-bound name. -/
def ssa_children_fn (isPrim : Symbol → Bool) (children : List Expr) (d : Desugar)
    (res : List NormFact) (constraints : List (Symbol × Symbol)) (bound : List Symbol) :
    List Symbol × Desugar × List NormFact × List (Symbol × Symbol) × List Symbol :=
  match children with
  | [] => ([], d, res, constraints, bound)
  | child :: rest =>
    match child with
    | .Var v =>
      let (isNew, bound) := hsInsert bound v
      if isNew then
        let (names, d, res, constraints, bound) :=
          ssa_children_fn isPrim rest d res constraints bound
        (v :: names, d, res, constraints, bound)
      else
        let (nw, d) := d.get_fresh
        let constraints := constraints ++ [(nw, v)]
        let (names, d, res, constraints, bound) :=
          ssa_children_fn isPrim rest d res constraints bound
        (nw :: names, d, res, constraints, bound)
    | _ =>
      let (fresh, d) := d.get_fresh
      let (_, bound) := hsInsert bound fresh
      let (d, res, constraints, bound) :=
        expr_to_ssa isPrim fresh child d res constraints bound
      let (names, d, res, constraints, bound) :=
        ssa_children_fn isPrim rest d res constraints bound
      (fresh :: names, d, res, constraints, bound)

end

/-- `flatten_equalities` (desugar.rs): processes the gathered `(Symbol, Expr)`
pairs in order, then appends every deferred constraint as a `ConstrainEq`. -/
def flatten_equalities_go (isPrim : Symbol → Bool) (eqs : List (Symbol × Expr)) (d : Desugar)
    (res : List NormFact) (constraints : List (Symbol × Symbol)) (bound : List Symbol) :
    Desugar × List NormFact × List (Symbol × Symbol) × List Symbol :=
  match eqs with
  | [] => (d, res, constraints, bound)
  | (lhs, rhs) :: rest =>
    if lhs ∈ d.global_variables ∨ (lhs ∈ bound ∧ ¬ rhs.is_var) then
      let (fresh, d) := d.get_fresh
      let (d, res, constraints, bound) := expr_to_ssa isPrim fresh rhs d res constraints bound
      let constraints := constraints ++ [(fresh, lhs)]
      flatten_equalities_go isPrim rest d res constraints bound
    else
      let (d, res, constraints, bound) := expr_to_ssa isPrim lhs rhs d res constraints bound
      flatten_equalities_go isPrim rest d res constraints bound

def flatten_equalities (isPrim : Symbol → Bool) (eqs : List (Symbol × Expr)) (d : Desugar) :
    List NormFact × Desugar :=
  let (d, res, constraints, _) := flatten_equalities_go isPrim eqs d [] [] []
  (res ++ constraints.map (fun p => NormFact.ConstrainEq p.1 p.2), d)

/-- Stage A of `flatten_facts` (desugar.rs): gather `(Symbol, Expr)` equalities.
The source asserts `args.len() == 2` for every `Fact::Eq`; assertion failure is
modelled as `none`. -/
def facts_to_equalities (facts : List Fact) (d : Desugar) :
    Option (List (Symbol × Expr) × Desugar) :=
  match facts with
  | [] => some ([], d)
  | Fact.Eq args :: rest =>
    match args with
    | [lhs, rhs] =>
      match lhs, rhs with
      | .Var v, rhs =>
        (facts_to_equalities rest d).map fun (eqs, d) => ((v, rhs) :: eqs, d)
      | lhs, .Var v =>
        (facts_to_equalities rest d).map fun (eqs, d) => ((v, lhs) :: eqs, d)
      | lhs, rhs =>
        let (fresh, d) := d.get_fresh
        (facts_to_equalities rest d).map fun (eqs, d) =>
          ((fresh, lhs) :: (fresh, rhs) :: eqs, d)
    | _ => none
  | Fact.Fact e :: rest =>
    let (fresh, d) := d.get_fresh
    (facts_to_equalities rest d).map fun (eqs, d) => ((fresh, e) :: eqs, d)

/-- `flatten_facts` (desugar.rs): stage A then `flatten_equalities`. -/
def flatten_facts (isPrim : Symbol → Bool) (facts : List Fact) (d : Desugar) :
    Option (List NormFact × Desugar) :=
  (facts_to_equalities facts d).map fun (eqs, d) => flatten_equalities isPrim eqs d

/-! ### Unique-name pass (desugar.rs `give_unique_names`) -/

/-- Stateful traversal of the use positions of a fact (arguments of the
normalized call, second argument of `ConstrainEq`). -/
def mapUses {σ : Type} (f : Symbol → Bool → σ → Symbol × σ) :
    List Symbol → σ → List Symbol × σ
  | [], s => ([], s)
  | a :: as, s =>
    let (a', s) := f a false s
    let (as', s) := mapUses f as s
    (a' :: as', s)

/-- Modelled from the spec: `NormFact::map_def_use` (defined in ast/mod.rs,
which is not among the sources) applies a stateful renaming to every symbol of
the fact, flagging defining positions — §4.4: "the lhs of
`Assign`/`Compute`/`AssignLit`, the first argument of `ConstrainEq`" — with
`true` and use positions with `false`. -/
def NormFact.map_def_use {σ : Type} (f : Symbol → Bool → σ → Symbol × σ) :
    NormFact → σ → NormFact × σ
  | .Assign lhs (.Call g args), s =>
    let (lhs', s) := f lhs true s
    let (args', s) := mapUses f args s
    (.Assign lhs' (.Call g args'), s)
  | .Compute lhs (.Call g args), s =>
    let (lhs', s) := f lhs true s
    let (args', s) := mapUses f args s
    (.Compute lhs' (.Call g args'), s)
  | .AssignLit lhs l, s =>
    let (lhs', s) := f lhs true s
    (.AssignLit lhs' l, s)
  | .ConstrainEq a b, s =>
    let (a', s) := f a true s
    let (b', s) := f b false s
    (.ConstrainEq a' b', s)

/-- State of the renaming closure inside `give_unique_names`. -/
structure GUNState where
  name_used : List Symbol
  immediately : List Symbol
  cons_after : List NormFact
  cons_before : List NormFact
  d : Desugar

/-- The closure passed to `map_def_use` by `give_unique_names`: keep a def name
on first sight, otherwise rename it to a fresh name linked by a `ConstrainEq`
emitted before the current fact (or after all facts, if the name was first
defined inside the same fact). -/
def gunStep (var : Symbol) (is_def : Bool) (s : GUNState) : Symbol × GUNState :=
  if is_def then
    if var ∈ s.name_used then
      let (fresh, d) := s.d.get_fresh
      if var ∈ s.immediately then
        (fresh, { s with d := d, cons_after := s.cons_after ++ [NormFact.ConstrainEq fresh var] })
      else
        (fresh, { s with d := d, cons_before := s.cons_before ++ [NormFact.ConstrainEq fresh var] })
    else
      (var, { s with name_used := var :: s.name_used, immediately := var :: s.immediately })
  else (var, s)

def give_unique_names_go (d : Desugar) (name_used : List Symbol)
    (cons_after : List NormFact) (res : List NormFact) :
    List NormFact → List NormFact × Desugar
  | [] => (res ++ cons_after, d)
  | fact :: rest =>
    let s0 : GUNState :=
      { name_used := name_used, immediately := [], cons_after := cons_after,
        cons_before := [], d := d }
    let (new_fact, s1) := fact.map_def_use gunStep s0
    give_unique_names_go s1.d s1.name_used s1.cons_after
      (res ++ s1.cons_before ++ [new_fact]) rest

/-- `give_unique_names` (desugar.rs). -/
def give_unique_names (d : Desugar) (facts : List NormFact) : List NormFact × Desugar :=
  give_unique_names_go d [] [] [] facts

/-! ### Head flattener (desugar.rs `Desugar::expr_to_flat_actions`, `flatten_actions`) -/

/-- `HashMap::get` on the memo, an association list searched front to back. -/
def memoFind (m : List (Expr × Symbol)) (e : Expr) : Option Symbol :=
  match m with
  | [] => none
  | (e', s) :: rest => if e' = e then some s else memoFind rest e

/-- `HashMap::insert` on the memo: the new binding shadows any old one. -/
def memoInsert (m : List (Expr × Symbol)) (e : Expr) (s : Symbol) : List (Expr × Symbol) :=
  (e, s) :: m

mutual

/-- `Desugar::expr_to_flat_actions` (desugar.rs): flatten an expression into
`NormAction`s, hash-consing through the shared memo. -/
def expr_to_flat_actions (e : Expr) (d : Desugar) (res : List NormAction)
    (memo : List (Expr × Symbol)) :
    Symbol × Desugar × List NormAction × List (Expr × Symbol) :=
  match memoFind memo e with
  | some existing => (existing, d, res, memo)
  | none =>
    let (value, d, res, memo) :=
      match e with
      | .Lit l =>
        let (assign, d) := d.get_fresh
        (assign, d, res ++ [NormAction.LetLit assign l], memo)
      | .Var v => (v, d, res, memo)
      | .Call f children =>
        let (assign, d) := d.get_fresh
        let (new_children, d, res, memo) := flat_children children d res memo
        let result := NormExpr.Call f new_children
        let result_expr := result.to_expr
        match memoFind memo result_expr with
        | some existing => (existing, d, res, memo)
        | none =>
          (assign, d, res ++ [NormAction.Let assign result], memoInsert memo result_expr assign)
    (value, d, res, memoInsert memo e value)

/-- Child loop of the `Call` arm of `expr_to_flat_actions`: variable children
are used directly, other children are flattened recursively. -/
def flat_children (children : List Expr) (d : Desugar) (res : List NormAction)
    (memo : List (Expr × Symbol)) :
    List Symbol × Desugar × List NormAction × List (Expr × Symbol) :=
  match children with
  | [] => ([], d, res, memo)
  | child :: rest =>
    match child with
    | .Var v =>
      let (names, d, res, memo) := flat_children rest d res memo
      (v :: names, d, res, memo)
    | _ =>
      let (name, d, res, memo) := expr_to_flat_actions child d res memo
      let (names, d, res, memo) := flat_children rest d res memo
      (name :: names, d, res, memo)

end

/-- Argument-list flattening inside `Set`/`SetNoTrack`/`Delete`: each argument
is run through `expr_to_flat_actions` in order. -/
def flat_actions_args (args : List Expr) (d : Desugar) (res : List NormAction)
    (memo : List (Expr × Symbol)) :
    List Symbol × Desugar × List NormAction × List (Expr × Symbol) :=
  match args with
  | [] => ([], d, res, memo)
  | arg :: rest =>
    let (name, d, res, memo) := expr_to_flat_actions arg d res memo
    let (names, d, res, memo) := flat_actions_args rest d res memo
    (name :: names, d, res, memo)

/-- Loop body of `flatten_actions` (desugar.rs), one surface action at a time;
`none` models the `assert_ne!(*symbol, added)` abort in the `Let` arm. -/
def flatten_actions_go (actions : List Action) (d : Desugar) (res : List NormAction)
    (memo : List (Expr × Symbol)) : Option (List NormAction × Desugar) :=
  match actions with
  | [] => some (res, d)
  | action :: rest =>
    match action with
    | .Let symbol e =>
      let (added, d, res, memo) := expr_to_flat_actions e d res memo
      if symbol = added then none
      else flatten_actions_go rest d (res ++ [NormAction.LetVar symbol added]) memo
    | .Set f args rhs =>
      let (arg_names, d, res, memo) := flat_actions_args args d res memo
      let (rhs_name, d, res, memo) := expr_to_flat_actions rhs d res memo
      flatten_actions_go rest d
        (res ++ [NormAction.Set (NormExpr.Call f arg_names) rhs_name]) memo
    | .SetNoTrack f args rhs =>
      let (arg_names, d, res, memo) := flat_actions_args args d res memo
      let (rhs_name, d, res, memo) := expr_to_flat_actions rhs d res memo
      flatten_actions_go rest d
        (res ++ [NormAction.Set (NormExpr.Call f arg_names) rhs_name]) memo
    | .Delete f args =>
      let (arg_names, d, res, memo) := flat_actions_args args d res memo
      flatten_actions_go rest d
        (res ++ [NormAction.Delete (NormExpr.Call f arg_names)]) memo
    | .Union lhs rhs =>
      let (lhs_name, d, res, memo) := expr_to_flat_actions lhs d res memo
      let (rhs_name, d, res, memo) := expr_to_flat_actions rhs d res memo
      flatten_actions_go rest d
        (res ++ [NormAction.Union lhs_name rhs_name]) memo
    | .Panic msg =>
      flatten_actions_go rest d (res ++ [NormAction.Panic msg]) memo
    | .Expr e =>
      let (_, d, res, memo) := expr_to_flat_actions e d res memo
      flatten_actions_go rest d res memo

/-- `flatten_actions` (desugar.rs): one shared memo and action buffer for the
whole head. -/
def flatten_actions (actions : List Action) (d : Desugar) :
    Option (List NormAction × Desugar) :=
  flatten_actions_go actions d [] []

/-- `flatten_rule` (desugar.rs): flatten the body, give unique names, then
flatten the head. -/
def flatten_rule (isPrim : Symbol → Bool) (rule : Rule) (d : Desugar) :
    Option (NormRule × Desugar) :=
  match flatten_facts isPrim rule.body d with
  | none => none
  | some (flat_facts, d) =>
    let (with_unique_names, d) := give_unique_names d flat_facts
    match flatten_actions rule.head d with
    | none => none
    | some (head, d) =>
      some ({ head := head, body := with_unique_names }, d)

/-! ### Seminaive transformer (desugar.rs `add_semi_naive_rule`) -/

def Action.isLet : Action → Bool
  | .Let _ _ => true
  | _ => false

/-- Head loop of `add_semi_naive_rule` (desugar.rs): returns the rewritten head
actions, the facts pushed onto the body (in head traversal order), whether any
`Set` with a call right-hand side was rewritten, and the desugar state. -/
def semi_naive_go (head : List Action) (d : Desugar) :
    List Action × List Fact × Bool × Desugar :=
  match head with
  | [] => ([], [], false, d)
  | a :: rest =>
    match a with
    | .Set f args value =>
      match value with
      | .Call _ _ =>
        let (fresh_symbol, d) := d.get_fresh
        let (restHead, restAdds, _, d) := semi_naive_go rest d
        (.Set f args (.Var fresh_symbol) :: restHead,
         Fact.Eq [Expr.Var fresh_symbol, value] :: restAdds, true, d)
      | _ =>
        let (restHead, restAdds, restFlag, d) := semi_naive_go rest d
        (a :: restHead, restAdds, restFlag, d)
    | .Let symbol e =>
      let (restHead, restAdds, restFlag, d) := semi_naive_go rest d
      (a :: restHead, Fact.Eq [Expr.Var symbol, e] :: restAdds, restFlag, d)
    | _ =>
      let (restHead, restAdds, restFlag, d) := semi_naive_go rest d
      (a :: restHead, restAdds, restFlag, d)

/-- `add_semi_naive_rule` (desugar.rs): produce the seminaive companion rule,
or nothing when no head `Set` has a call right-hand side. -/
def add_semi_naive_rule (d : Desugar) (rule : Rule) : Option (Rule × Desugar) :=
  let (newHead, adds, add_new_rule, d) := semi_naive_go rule.head d
  if add_new_rule then
    some ({ body := rule.body ++ adds,
            head := newHead.filter (fun a => ! a.isLet) }, d)
  else none

/-! ### Schedules and commands (desugar.rs) -/

/-- `ast::RunConfig` (the variant used by desugar.rs, with a limit). -/
structure RunConfig where
  ruleset : Symbol
  limit : Nat
  until_ : Option (List Fact)

inductive Schedule where
  | Saturate (s : Schedule)
  | Repeat (num : Nat) (s : Schedule)
  | Run (config : RunConfig)
  | Sequence (ss : List Schedule)

structure NormRunConfig where
  ruleset : Symbol
  limit : Nat
  until_ : Option (List NormFact)
deriving DecidableEq, Repr

inductive NormSchedule where
  | Saturate (s : NormSchedule)
  | Repeat (num : Nat) (s : NormSchedule)
  | Run (config : NormRunConfig)
  | Sequence (ss : List NormSchedule)

/-- `desugar_run_config` (desugar.rs); also the `Schedule::Run` case of
`desugar_schedule`. -/
def desugar_run_config (isPrim : Symbol → Bool) (rc : RunConfig) (d : Desugar) :
    Option (NormRunConfig × Desugar) :=
  match rc.until_ with
  | none => some ({ ruleset := rc.ruleset, limit := rc.limit, until_ := none }, d)
  | some facts =>
    (flatten_facts isPrim facts d).map fun (nf, d) =>
      ({ ruleset := rc.ruleset, limit := rc.limit, until_ := some nf }, d)

mutual

/-- `desugar_schedule` (desugar.rs). -/
def desugar_schedule (isPrim : Symbol → Bool) (s : Schedule) (d : Desugar) :
    Option (NormSchedule × Desugar) :=
  match s with
  | .Repeat num inner =>
    (desugar_schedule isPrim inner d).map fun (ns, d) => (.Repeat num ns, d)
  | .Saturate inner =>
    (desugar_schedule isPrim inner d).map fun (ns, d) => (.Saturate ns, d)
  | .Run rc =>
    (desugar_run_config isPrim rc d).map fun (nrc, d) => (.Run nrc, d)
  | .Sequence ss =>
    (desugar_schedule_list isPrim ss d).map fun (nss, d) => (.Sequence nss, d)

def desugar_schedule_list (isPrim : Symbol → Bool) (ss : List Schedule) (d : Desugar) :
    Option (List NormSchedule × Desugar) :=
  match ss with
  | [] => some ([], d)
  | s :: rest =>
    match desugar_schedule isPrim s d with
    | none => none
    | some (ns, d) =>
      (desugar_schedule_list isPrim rest d).map fun (nss, d) => (ns :: nss, d)

end

structure Schema where
  input : List Symbol
  output : Symbol

structure FunctionDecl where
  name : Symbol
  schema : Schema
  default : Option Expr
  merge : Option Expr
  merge_action : List Action
  cost : Option Nat

structure Variant where
  name : Symbol
  types : List Symbol
  cost : Option Nat

structure IdentSort where
  ident : Symbol
  sort : Symbol

/-- Surface command (`ast::Command`).  `Include` is omitted: it reads a file
and runs the parser, both outside the sources under verification.  `Sort` is a
Lean keyword, so that constructor is named `SortDecl` here. -/
inductive Command where
  | SetOption (name : Symbol) (value : Expr)
  | Function (fdecl : FunctionDecl)
  | Run (config : RunConfig)
  | Declare (name : Symbol) (sort : Symbol)
  | Datatype (name : Symbol) (variants : List Variant)
  | Rewrite (ruleset : Symbol) (rw : EggSmol.Rewrite)
  | BiRewrite (ruleset : Symbol) (rw : EggSmol.Rewrite)
  | Rule (ruleset : Symbol) (name : Symbol) (rule : EggSmol.Rule)
  | SortDecl (sort : Symbol) (presort_and_args : Option (Symbol × List Expr))
  | Define (name : Symbol) (e : Expr) (cost : Option Nat)
  | AddRuleset (name : Symbol)
  | Action (action : EggSmol.Action)
  | Simplify (e : Expr) (config : RunConfig)
  | Calc (idents : List IdentSort) (exprs : List Expr)
  | RunSchedule (sched : Schedule)
  | Extract (variants : Nat) (e : Expr)
  | Check (facts : List Fact)
  | Print (sym : Symbol) (n : Nat)
  | PrintSize (sym : Symbol)
  | Output (file : String) (exprs : List Expr)
  | Push (n : Nat)
  | Pop (n : Nat)
  | Fail (cmd : Command)
  | Input (name : Symbol) (file : String)
  | Visualize (file : String)

/-- Normalized command (`ast::NCommand`). -/
inductive NCommand where
  | SetOption (name : Symbol) (value : Expr)
  | SortDecl (sort : Symbol) (presort_and_args : Option (Symbol × List Expr))
  | Function (fdecl : FunctionDecl)
  | AddRuleset (name : Symbol)
  | NormRule (ruleset : Symbol) (name : Symbol) (rule : EggSmol.NormRule)
  | NormAction (action : EggSmol.NormAction)
  | RunSchedule (sched : NormSchedule)
  | Check (facts : List NormFact)
  | Simplify (var : Symbol) (config : NormRunConfig)
  | Extract (variants : Nat) (var : Symbol)
  | Push (n : Nat)
  | Pop (n : Nat)
  | Fail (cmd : NCommand)
  | Print (sym : Symbol) (n : Nat)
  | PrintSize (sym : Symbol)
  | Output (file : String) (exprs : List Expr)
  | Input (name : Symbol) (file : String)
  | Visualize (file : String)

structure Metadata where
  id : Nat
deriving DecidableEq, Repr

/-- `ast::NormCommand`: a normalized command with its metadata (the id). -/
structure NormCommand where
  metadata : Metadata
  command : NCommand

/-! ### Printed forms

The `Display` impls for `Rewrite` and `Rule` live in ast/mod.rs, which is not
among the sources; only the quote-replacement step (`rewrite_name`,
desugar.rs line 452) is.  The printers below are modelled from the spec:
expressions print as s-expressions (as `GenericExpr::to_sexp` in
src/ast/expr.rs does), string literals print quoted (as `Literal`'s `Display`
in src/ast/expr.rs does), and the rewrite/rule wrappers supply a surrounding
s-expression form.  No claim depends on the exact wrapper text. -/

/-- `Literal`'s printed form (src/ast/expr.rs): string literals are quoted. -/
def printLiteral : Literal → String
  | .Int i => toString i
  | .F64 bits => Nat.repr bits
  | .String s => "\"" ++ s ++ "\""
  | .Bool b => if b then "true" else "false"
  | .Unit => "()"

mutual

/-- Modelled from the spec: the s-expression printed form of an expression
(`GenericExpr::to_sexp`, src/ast/expr.rs). -/
def printExpr : Expr → String
  | .Lit l => printLiteral l
  | .Var v => v
  | .Call f children => "(" ++ f ++ printExprList children ++ ")"

def printExprList : List Expr → String
  | [] => ""
  | e :: rest => " " ++ printExpr e ++ printExprList rest

end

/-- Modelled from the spec: the printed form of a fact. -/
def printFact : Fact → String
  | .Eq args => "(= " ++ printExprList args ++ ")"
  | .Fact e => printExpr e

/-- Modelled from the spec: the printed form of an action. -/
def printAction : Action → String
  | .Let v e => "(let " ++ v ++ " " ++ printExpr e ++ ")"
  | .Set f args rhs => "(set (" ++ f ++ printExprList args ++ ") " ++ printExpr rhs ++ ")"
  | .SetNoTrack f args rhs =>
    "(set-no-track (" ++ f ++ printExprList args ++ ") " ++ printExpr rhs ++ ")"
  | .Delete f args => "(delete (" ++ f ++ printExprList args ++ "))"
  | .Union lhs rhs => "(union " ++ printExpr lhs ++ " " ++ printExpr rhs ++ ")"
  | .Panic msg => "(panic " ++ msg ++ ")"
  | .Expr e => printExpr e

def printFactList : List Fact → String
  | [] => ""
  | f :: rest => " " ++ printFact f ++ printFactList rest

def printActionList : List Action → String
  | [] => ""
  | a :: rest => " " ++ printAction a ++ printActionList rest

/-- Modelled from the spec: the printed form of a rewrite (its `Display` impl
is in ast/mod.rs, not among the sources). -/
def printRewrite (rw : Rewrite) : String :=
  "(rewrite " ++ printExpr rw.lhs ++ " " ++ printExpr rw.rhs ++
    (match rw.conditions with
     | [] => ""
     | cs => " :when (" ++ printFactList cs ++ ")") ++ ")"

/-- Modelled from the spec: the printed form of a rule. -/
def printRule (rule : Rule) : String :=
  "(rule (" ++ printFactList rule.body ++ ") (" ++ printActionList rule.head ++ "))"

/-- `rewrite_name` (desugar.rs): the printed form of the rewrite with every
double-quote replaced by a single-quote. -/
def rewrite_name (rw : Rewrite) : String :=
  (printRewrite rw).replace "\"" "'"

/-! ### Command desugaring (desugar.rs) -/

/-- Modelled from the spec: `HIGH_COST`, "a well-known large constant"
(§9 open behavior 2); its concrete value is outside the sources and no claim
depends on it. -/
def HIGH_COST : Nat := 1000000000

/-- `Desugar::declare` (desugar.rs): a fresh zero-arity function of the sort
plus a binding of the name to a call of it. -/
def Desugar.declare (d : Desugar) (name : Symbol) (sort : Symbol) :
    List NCommand × Desugar :=
  let (fresh, d) := d.get_fresh
  ([NCommand.Function
      { name := fresh, schema := { input := [], output := sort },
        default := none, merge := none, merge_action := [], cost := some HIGH_COST },
    NCommand.NormAction (NormAction.Let name (NormExpr.Call fresh []))], d)

/-- `desugar_datatype` (desugar.rs). -/
def desugar_datatype (name : Symbol) (variants : List Variant) : List NCommand :=
  NCommand.SortDecl name none ::
    variants.map (fun variant =>
      NCommand.Function
        { name := variant.name,
          schema := { input := variant.types, output := name },
          merge := none, merge_action := [], default := none, cost := variant.cost })

/-- `desugar_rewrite` (desugar.rs): one rule whose body is
`Eq(rewrite_var__, lhs)` followed by the conditions and whose head unions
`rewrite_var__` with the rhs. -/
def desugar_rewrite (isPrim : Symbol → Bool) (ruleset : Symbol) (name : Symbol)
    (rw : Rewrite) (d : Desugar) : Option (List NCommand × Desugar) :=
  let var : Symbol := "rewrite_var__"
  (flatten_rule isPrim
      { body := Fact.Eq [Expr.Var var, rw.lhs] :: rw.conditions,
        head := [Action.Union (Expr.Var var) rw.rhs] } d).map
    fun (rule, d) => ([NCommand.NormRule ruleset name rule], d)

/-- `desugar_birewrite` (desugar.rs). -/
def desugar_birewrite (isPrim : Symbol → Bool) (ruleset : Symbol) (name : Symbol)
    (rw : Rewrite) (d : Desugar) : Option (List NCommand × Desugar) :=
  let rw2 : Rewrite := { lhs := rw.rhs, rhs := rw.lhs, conditions := rw.conditions }
  match desugar_rewrite isPrim ruleset (name ++ "=>") rw d with
  | none => none
  | some (cmds1, d) =>
    (desugar_rewrite isPrim ruleset (name ++ "<=") rw2 d).map
      fun (cmds2, d) => (cmds1 ++ cmds2, d)

/-- Id assignment at the end of `desugar_command`: every produced `NCommand`
is wrapped with a fresh command id, in order. -/
def assign_ids (cmds : List NCommand) (d : Desugar) : List NormCommand × Desugar :=
  match cmds with
  | [] => ([], d)
  | c :: rest =>
    let (id, d) := d.get_new_id
    let (rest', d) := assign_ids rest d
    ({ metadata := { id := id }, command := c } :: rest', d)

/-! Size measures used only for the termination of `desugar_command`
(`Command::Calc` re-enters `desugar_command` on a freshly built
`RunSchedule` command). -/

mutual

def esize : Expr → Nat
  | .Lit _ => 1
  | .Var _ => 1
  | .Call _ children => 1 + esizeList children

def esizeList : List Expr → Nat
  | [] => 0
  | e :: rest => esize e + esizeList rest

end

def fsize : Fact → Nat
  | .Eq args => 1 + esizeList args
  | .Fact e => 1 + esize e

def fsizeList : List Fact → Nat
  | [] => 0
  | f :: rest => fsize f + fsizeList rest

mutual

def ssize : Schedule → Nat
  | .Saturate s => 1 + ssize s
  | .Repeat _ s => 1 + ssize s
  | .Run rc => 1 + (match rc.until_ with | none => 0 | some fs => fsizeList fs)
  | .Sequence ss => 1 + ssizeList ss

def ssizeList : List Schedule → Nat
  | [] => 0
  | s :: rest => ssize s + ssizeList rest

end

def csize : Command → Nat
  | .Fail c => 1 + csize c
  | .Calc _ exprs => 6 + 6 * exprs.length + 2 * esizeList exprs
  | .RunSchedule s => 1 + ssize s
  | _ => 1

/-- `slice::windows(2)` as the list of adjacent pairs. -/
def windows2 {α : Type} : List α → List (α × α)
  | a :: b :: rest => (a, b) :: windows2 (b :: rest)
  | _ => []

theorem windows2_measure_le_aux (l : List Expr) :
    ((windows2 l).map (fun p => 5 + esize p.1 + esize p.2)).sum +
      (match l with | [] => 0 | a :: _ => esize a) ≤
      5 * l.length + 2 * esizeList l := by
  match l with
  | [] => simp [windows2]
  | [a] => simp [windows2, esizeList]; omega
  | a :: b :: rest =>
    have ih := windows2_measure_le_aux (b :: rest)
    show 5 + esize a + esize b +
        ((windows2 (b :: rest)).map (fun p => 5 + esize p.1 + esize p.2)).sum + esize a ≤ _
    simp only [esizeList, List.length_cons] at ih ⊢
    omega

theorem windows2_measure_le (l : List Expr) :
    ((windows2 l).map (fun p => 5 + esize p.1 + esize p.2)).sum ≤
      5 * l.length + 2 * esizeList l := by
  have := windows2_measure_le_aux l
  match l with
  | [] => simpa using this
  | a :: rest => omega

/-- `HashSet::insert` on `global_variables` (result ignored). -/
def Desugar.insertGlobal (d : Desugar) (name : Symbol) : Desugar :=
  { d with global_variables :=
      if name ∈ d.global_variables then d.global_variables else name :: d.global_variables }

/-- The ident-declaration prefix of `desugar_calc` (desugar.rs). -/
def declare_idents (idents : List IdentSort) (d : Desugar) : List NCommand × Desugar :=
  match idents with
  | [] => ([], d)
  | is :: rest =>
    let (cmds, d) := d.declare is.ident is.sort
    let (cmds2, d) := declare_idents rest d
    (cmds ++ cmds2, d)

mutual

/-- `desugar_command` (desugar.rs).  Normal commands produce a list of
`NCommand`s that the common tail wraps with freshly assigned ids;
`Command::Fail` returns early with the recursively desugared inner command,
its last element wrapped in `Fail` while keeping that element's metadata. -/
def desugar_command (isPrim : Symbol → Bool) (command : Command) (d : Desugar)
    (get_all_proofs : Bool) (seminaive_transform : Bool) :
    Option (List NormCommand × Desugar) :=
  match command with
  | .Fail cmd =>
    match desugar_command isPrim cmd d false seminaive_transform with
    | none => none
    | some (desugared, d) =>
      match desugared.getLast? with
      | none => none
      | some last =>
        some (desugared.dropLast ++
          [{ metadata := last.metadata, command := NCommand.Fail last.command }], d)
  | c =>
    match desugar_command_aux isPrim c d get_all_proofs seminaive_transform with
    | none => none
    | some (res, d) => some (assign_ids res d)
termination_by 2 * csize command + 1
decreasing_by
  all_goals first
    | omega
    | (simp only [csize]; omega)

/-- The per-command-kind body of `desugar_command` for every command other
than `Fail` (which returns early in the source and is handled by the caller). -/
def desugar_command_aux (isPrim : Symbol → Bool) (command : Command) (d : Desugar)
    (get_all_proofs : Bool) (seminaive_transform : Bool) :
    Option (List NCommand × Desugar) :=
  match command with
  | .SetOption name value => some ([.SetOption name value], d)
  | .Function fdecl => some ([.Function fdecl], d)
  | .Run config =>
    (desugar_run_config isPrim config d).map fun (nrc, d) =>
      ([.RunSchedule (.Run nrc)], d)
  | .Declare name sort =>
    some ((d.insertGlobal name).declare name sort)
  | .Datatype name variants => some (desugar_datatype name variants, d)
  | .Rewrite ruleset rw =>
    desugar_rewrite isPrim ruleset (rewrite_name rw) rw d
  | .BiRewrite ruleset rw =>
    desugar_birewrite isPrim ruleset (rewrite_name rw) rw d
  | .Rule ruleset name rule =>
    let name := if name = "" then (printRule rule).replace "\"" "'" else name
    match flatten_rule isPrim rule d with
    | none => none
    | some (nr, d) =>
      let result := [NCommand.NormRule ruleset name nr]
      if seminaive_transform then
        match add_semi_naive_rule d rule with
        | none => some (result, d)
        | some (new_rule, d) =>
          match flatten_rule isPrim new_rule d with
          | none => none
          | some (nr2, d) =>
            some (result ++ [NCommand.NormRule ruleset name nr2], d)
      else some (result, d)
  | .SortDecl sort option => some ([.SortDecl sort option], d)
  | .Define name e _cost =>
    let d := d.insertGlobal name
    let (fresh, d, actions, _) := expr_to_flat_actions e d [] []
    let actions := actions ++ [NormAction.LetVar name fresh]
    some (actions.map NCommand.NormAction, d)
  | .AddRuleset name => some ([.AddRuleset name], d)
  | .Action action =>
    let d := match action with
      | .Let name _ => d.insertGlobal name
      | _ => d
    (flatten_actions [action] d).map fun (acts, d) =>
      (acts.map NCommand.NormAction, d)
  | .Simplify e config =>
    let (fresh, d) := d.get_fresh
    match flatten_actions [Action.Let fresh e] d with
    | none => none
    | some (acts, d) =>
      (desugar_run_config isPrim config d).map fun (nrc, d) =>
        (acts.map NCommand.NormAction ++ [NCommand.Simplify fresh nrc], d)
  | .Calc idents exprs => desugar_calc isPrim idents exprs seminaive_transform d
  | .RunSchedule sched =>
    (desugar_schedule isPrim sched d).map fun (ns, d) => ([.RunSchedule ns], d)
  | .Extract variants e =>
    let (fresh, d) := d.get_fresh
    (flatten_actions [Action.Let fresh e] d).map fun (acts, d) =>
      (acts.map NCommand.NormAction ++ [NCommand.Extract variants fresh], d)
  | .Check facts =>
    (flatten_facts isPrim facts d).map fun (nf, d) => ([NCommand.Check nf], d)
  | .Print sym n => some ([.Print sym n], d)
  | .PrintSize sym => some ([.PrintSize sym], d)
  | .Output file exprs => some ([.Output file exprs], d)
  | .Push n => some ([.Push n], d)
  | .Pop n => some ([.Pop n], d)
  | .Input name file => some ([.Input name file], d)
  | .Visualize file => some ([.Visualize file], d)
  | .Fail _ => none
termination_by 2 * csize command
decreasing_by
  all_goals first
    | omega
    | (simp only [csize]; omega)

/-- `desugar_calc` (desugar.rs): declare the idents, then process each
adjacent pair of expressions. -/
def desugar_calc (isPrim : Symbol → Bool) (idents : List IdentSort) (exprs : List Expr)
    (seminaive_transform : Bool) (d : Desugar) : Option (List NCommand × Desugar) :=
  let (declCmds, d) := declare_idents idents d
  (desugar_calc_pairs isPrim (windows2 exprs) seminaive_transform d).map
    fun (rest, d) => (declCmds ++ rest, d)
termination_by 11 + 12 * exprs.length + 4 * esizeList exprs
decreasing_by
  have h := windows2_measure_le exprs
  omega

/-- Loop body of `desugar_calc` over `exprs.windows(2)`: push, bind the two
expressions, recursively desugar a saturating run-until command (its
`NormCommand` wrappers — and the command ids they consumed — are discarded via
`.map(|c| c.command)`), check, pop. -/
def desugar_calc_pairs (isPrim : Symbol → Bool) (pairs : List (Expr × Expr))
    (seminaive_transform : Bool) (d : Desugar) : Option (List NCommand × Desugar) :=
  match pairs with
  | [] => some ([], d)
  | (expr1, expr2) :: rest =>
    let (v1, d, actions, memo) := expr_to_flat_actions expr1 d [] []
    let (v2, d, actions, _) := expr_to_flat_actions expr2 d actions memo
    match desugar_command isPrim
        (.RunSchedule (.Saturate (.Run
          { ruleset := "", until_ := some [Fact.Eq [expr1, expr2]], limit := 1 })))
        d false seminaive_transform with
    | none => none
    | some (cmds, d) =>
      let block : List NCommand :=
        [NCommand.Push 1] ++ actions.map NCommand.NormAction ++
          cmds.map (fun c => c.command) ++
          [NCommand.Check [NormFact.ConstrainEq v1 v2], NCommand.Pop 1]
      (desugar_calc_pairs isPrim rest seminaive_transform d).map
        fun (restCmds, d) => (block ++ restCmds, d)
termination_by 2 * ((pairs.map (fun p => 5 + esize p.1 + esize p.2)).sum)
decreasing_by
  all_goals first
    | omega
    | (simp only [csize, ssize, fsize, fsizeList, esizeList, esize,
        List.map_cons, List.sum_cons]; omega)

end

/-- `desugar_commands` (desugar.rs). -/
def desugar_commands (isPrim : Symbol → Bool) (program : List Command) (d : Desugar)
    (get_all_proofs : Bool) (seminaive_transform : Bool) :
    Option (List NormCommand × Desugar) :=
  match program with
  | [] => some ([], d)
  | command :: rest =>
    match desugar_command isPrim command d get_all_proofs seminaive_transform with
    | none => none
    | some (cmds, d) =>
      (desugar_commands isPrim rest d get_all_proofs seminaive_transform).map
        fun (restCmds, d) => (cmds ++ restCmds, d)

/-! ### Type checking (src/typechecking.rs)

src/typechecking.rs belongs to a later revision of the code base than
desugar.rs (its AST carries spans and resolved variants), so it is embedded in
its own namespace.  A sort trait object is modelled by its name, its eq-sort
flag and the names of the primitives its `register_primitives` registers; maps
are association lists.  Error payloads that the code never branches on
(expressions, sorts, reason strings) are dropped from `TypeError`. -/

namespace TC

/-- A reference-counted sort object (`ArcSort`): its name, whether it is an
eq-sort, and the primitive names its `register_primitives` registers. -/
structure ArcSort where
  name : Symbol
  is_eq_sort : Bool
  prims : List Symbol
deriving DecidableEq, Repr

/-- `FuncType` (typechecking.rs). -/
structure FuncType where
  name : Symbol
  input : List ArcSort
  output : ArcSort
  is_datatype : Bool
  has_default : Bool
deriving DecidableEq, Repr

/-- The `TypeError` taxonomy (typechecking.rs).  Payloads the claims never
inspect (expressions, sorts, reasons, aggregated error lists) are dropped. -/
inductive TypeError where
  | Arity (expected : Nat)
  | Mismatch
  | TooManyLiterals
  | Unbound (sym : Symbol)
  | UndefinedSort (sym : Symbol)
  | UnboundFunction (sym : Symbol)
  | FunctionAlreadyBound (sym : Symbol)
  | FunctionAfterPush (sym : Symbol)
  | SetDatatype
  | SortAfterPush (sym : Symbol)
  | GlobalAlreadyBound (sym : Symbol)
  | LocalAlreadyBound (sym : Symbol)
  | SortAlreadyBound (sym : Symbol)
  | PrimitiveAlreadyBound (sym : Symbol)
  | TypeMismatch
  | PresortNotFound (sym : Symbol)
  | UnitVar (sym : Symbol)
  | InferenceFailure
  | NoMatchingPrimitive
  | AlreadyDefined (sym : Symbol)
  | AllAlternativeFailed
deriving DecidableEq, Repr

/-- `TypeInfo` (typechecking.rs).  The presort factory function pointers live
in sort-library files outside the sources; `presorts` keeps the registered
factory names and `declare_sort` takes the factory behaviour as a parameter. -/
structure TypeInfo where
  presorts : List Symbol
  presort_names : List Symbol
  sorts : List (Symbol × ArcSort)
  primitives : List Symbol
  func_types : List (Symbol × FuncType)
  global_types : List (Symbol × ArcSort)

def assocFind {α : Type} (m : List (Symbol × α)) (k : Symbol) : Option α :=
  match m with
  | [] => none
  | (k', v) :: rest => if k' = k then some v else assocFind rest k

def assocContains {α : Type} (m : List (Symbol × α)) (k : Symbol) : Bool :=
  (assocFind m k).isSome

/-- `HashMap::insert` returning the old value: replace in place or append. -/
def assocInsert {α : Type} (m : List (Symbol × α)) (k : Symbol) (v : α) :
    Option α × List (Symbol × α) :=
  match m with
  | [] => (none, [(k, v)])
  | (k', v') :: rest =>
    if k' = k then (some v', (k, v) :: rest)
    else
      let (old, rest') := assocInsert rest k v
      (old, (k', v') :: rest')

/-- `TypeInfo::add_primitive`: push the primitive under its name. -/
def TypeInfo.add_primitive (ti : TypeInfo) (name : Symbol) : TypeInfo :=
  { ti with primitives := ti.primitives ++ [name] }

/-- `Sort::register_primitives`: register each of the sort's primitives
(e.g. `StringSort` registers `+`, `replace`, `min-by-length`,
`max-by-length`, src/sort/string.rs; a plain `EqSort` registers nothing). -/
def ArcSort.register_primitives (sort : ArcSort) (ti : TypeInfo) : TypeInfo :=
  sort.prims.foldl TypeInfo.add_primitive ti

/-- `TypeInfo::add_arcsort` (typechecking.rs lines 85-96). -/
def TypeInfo.add_arcsort (ti : TypeInfo) (sort : ArcSort) : Except TypeError TypeInfo :=
  if assocContains ti.sorts sort.name then
    .error (.SortAlreadyBound sort.name)
  else
    .ok (sort.register_primitives
      { ti with sorts := ti.sorts ++ [(sort.name, sort)] })

/-- `TypeInfo::is_primitive` (typechecking.rs lines 443-445). -/
def TypeInfo.is_primitive (ti : TypeInfo) (sym : Symbol) : Bool :=
  sym ∈ ti.primitives || sym ∈ ti.presort_names

/-- `TypeInfo::lookup_user_func` (typechecking.rs). -/
def TypeInfo.lookup_user_func (ti : TypeInfo) (sym : Symbol) : Option FuncType :=
  assocFind ti.func_types sym

/-- `TypeInfo::declare_sort` (typechecking.rs lines 309-330).  `mksort` is the
behaviour of the registered presort factory (external function pointers). -/
def TypeInfo.declare_sort (mksort : Symbol → Symbol → Except TypeError ArcSort)
    (ti : TypeInfo) (name : Symbol) (presort_and_args : Option Symbol) :
    Except TypeError TypeInfo :=
  if assocContains ti.func_types name then
    .error (.FunctionAlreadyBound name)
  else
    match presort_and_args with
    | some presort =>
      if presort ∈ ti.presorts then
        match mksort presort name with
        | .error e => .error e
        | .ok sort => ti.add_arcsort sort
      else .error (.PresortNotFound presort)
    | none => ti.add_arcsort { name := name, is_eq_sort := true, prims := [] }

/-- The schema of an (unresolved) function declaration. -/
structure Schema where
  input : List Symbol
  output : Symbol
deriving DecidableEq, Repr

/-- `UnresolvedFunctionDecl` as consumed by `typecheck_function`: the merge,
default and merge-action payloads are expressions whose typechecking depends on
machinery outside the sources; only their presence or absence affects the code
paths in scope, so they are carried as options over `Unit`. -/
structure FunctionDecl where
  name : Symbol
  schema : Schema
  default : Option Unit
  merge : Option Unit
  merge_action : List Unit
  cost : Option Nat
  unextractable : Bool

def resolveSorts (ti : TypeInfo) : List Symbol → Except TypeError (List ArcSort)
  | [] => .ok []
  | n :: rest =>
    match assocFind ti.sorts n with
    | some s =>
      match resolveSorts ti rest with
      | .error e => .error e
      | .ok ss => .ok (s :: ss)
    | none => .error (.Unbound n)

/-- `TypeInfo::function_to_functype` (typechecking.rs lines 137-166). -/
def TypeInfo.function_to_functype (ti : TypeInfo) (func : FunctionDecl) :
    Except TypeError FuncType :=
  match resolveSorts ti func.schema.input with
  | .error e => .error e
  | .ok input =>
    match assocFind ti.sorts func.schema.output with
    | none => .error (.Unbound func.schema.output)
    | some output =>
      .ok { name := func.name, input := input, output := output,
            is_datatype := output.is_eq_sort && func.merge.isNone && func.default.isNone,
            has_default := func.default.isSome }

/-- `TypeInfo::typecheck_function` (typechecking.rs lines 239-274): the three
already-bound checks, the schema resolution and the `func_types` insertion.
The subsequent typechecking of the merge/default/merge-action payloads (lines
253-273) depends on the constraint-solving machinery outside the sources and
is modelled as succeeding; it runs after every error return verified here. -/
def TypeInfo.typecheck_function (ti : TypeInfo) (fdecl : FunctionDecl) :
    Except TypeError TypeInfo :=
  if assocContains ti.sorts fdecl.name then
    .error (.SortAlreadyBound fdecl.name)
  else if ti.is_primitive fdecl.name then
    .error (.PrimitiveAlreadyBound fdecl.name)
  else
    match ti.function_to_functype fdecl with
    | .error e => .error e
    | .ok ftype =>
      let (old, func_types) := assocInsert ti.func_types fdecl.name ftype
      let ti := { ti with func_types := func_types }
      if old.isSome then .error (.FunctionAlreadyBound fdecl.name)
      else .ok ti

end TC

/-! ### E-graph to graph export (src/graph/from_egraph.rs) -/

/-- Modelled Rust `<u32 as FromStr>::from_str` applied to a character list:
an optional leading plus sign, then at least one decimal digit, with the value
checked against the `u32` range. -/
def u32ParseOk (cs : List Char) : Bool :=
  let ds := if cs.head? = some '+' then cs.tail else cs
  !ds.isEmpty && ds.all Char.isDigit && decide (parseDigits ds < 4294967296)

/-- `is_temp_name` (from_egraph.rs lines 55-59):
`name.starts_with('v') && name.ends_with("___") && name[1..len-3].parse::<u32>().is_ok()`.
The byte slice `[1..len-3]` is taken on characters; when the first two
conjuncts hold the string starts with the one-byte character `v` and ends with
three one-byte underscores, so the byte slice and the character slice agree. -/
def is_temp_name (name : String) : Bool :=
  name.data.head? = some 'v' &&
  name.data.drop (name.data.length - 3) = ['_', '_', '_'] &&
  u32ParseOk ((name.data.take (name.data.length - 3)).drop 1)

/-- A function table entry as `graph_from_egraph` consumes it: its declared
name, its variable-binding flag, and its rows each with their liveness bit and
an opaque payload.  The per-row export (which reads e-graph internals outside
the sources) is a parameter. -/
structure GFunction (α : Type) where
  name : String
  is_variable : Bool
  rows : List (Bool × α)

/-- `MAX_FUNCTIONS` (from_egraph.rs). -/
def MAX_FUNCTIONS : Nat := 40

/-- `MAX_CALLS_PER_FUNCTION` (from_egraph.rs). -/
def MAX_CALLS_PER_FUNCTION : Nat := 40

/-- `graph_from_egraph` (from_egraph.rs lines 8-53): drop temp-named and
variable-binding functions, export each function's live rows (at most
`MAX_CALLS_PER_FUNCTION`), drop functions with no exported calls, keep at most
`MAX_FUNCTIONS` functions, and flatten. -/
def graph_from_egraph {α β : Type} (exportCall : GFunction α → α → β)
    (functions : List (GFunction α)) : List β :=
  (((((functions.filter
      (fun f => !(is_temp_name f.name) && !f.is_variable)).map
      (fun f => ((f.rows.filter (fun r => r.1)).take MAX_CALLS_PER_FUNCTION).map
        (fun r => exportCall f r.2)))).filter
      (fun calls => !calls.isEmpty)).take MAX_FUNCTIONS).flatten

/-! ### Claim C9: the fresh-name generator -/

/-- The generator state after `n` calls to `get_fresh`. -/
def freshAfter (d : Desugar) : Nat → Desugar
  | 0 => d
  | n + 1 => (freshAfter d n).get_fresh.2

/-- The name returned by the `(n+1)`-st call to `get_fresh` on `d`. -/
def freshSeq (d : Desugar) (n : Nat) : Symbol := (freshAfter d n).get_fresh.1

theorem freshAfter_next_fresh (d : Desugar) (n : Nat) :
    (freshAfter d n).next_fresh = d.next_fresh + n := by
  induction n with
  | zero => rfl
  | succ n ih => simp [freshAfter, Desugar.get_fresh, ih]; omega

theorem freshAfter_underscores (d : Desugar) (n : Nat) :
    (freshAfter d n).number_underscores = d.number_underscores := by
  induction n with
  | zero => rfl
  | succ n ih => simp [freshAfter, Desugar.get_fresh, ih]

theorem freshSeq_eq_genName (d : Desugar) (n : Nat) :
    freshSeq d n = genName d.number_underscores (d.next_fresh + n) := by
  show (freshAfter d n).get_fresh.1 = _
  rw [get_fresh_eq_genName, freshAfter_next_fresh, freshAfter_underscores]

/-- Claim C9: each call to the fresh-name generator returns `v`, then the
counter value as it was before the call, then exactly `number_underscores`
underscores, and increments the counter by one; two generators started from
equal states produce identical name sequences; and successive calls on one
generator never return the same name twice. -/
theorem claim_c9 :
    (∀ d : Desugar, d.get_fresh =
      ("v" ++ Nat.repr d.next_fresh ++ String.mk (List.replicate d.number_underscores '_'),
       { d with next_fresh := d.next_fresh + 1 })) ∧
    (∀ d1 d2 : Desugar, d1.next_fresh = d2.next_fresh →
      d1.number_underscores = d2.number_underscores →
      ∀ n, freshSeq d1 n = freshSeq d2 n) ∧
    (∀ (d : Desugar) (i j : Nat), i ≠ j → freshSeq d i ≠ freshSeq d j) := by
  refine ⟨fun d => rfl, fun d1 d2 hc hk n => ?_, fun d i j hij => ?_⟩
  · rw [freshSeq_eq_genName, freshSeq_eq_genName, hc, hk]
  · rw [freshSeq_eq_genName, freshSeq_eq_genName]
    intro h
    have := genName_injective d.number_underscores h
    omega

theorem claim_c9_witness :
    Desugar.default.get_fresh =
      ("v" ++ Nat.repr 0 ++ String.mk (List.replicate 3 '_'),
       { Desugar.default with next_fresh := 1 }) ∧
    freshSeq Desugar.default 0 ≠ freshSeq Desugar.default 1 :=
  ⟨claim_c9.1 Desugar.default,
   claim_c9.2.2 Desugar.default 0 1 (by decide)⟩

/-! ### Semantics of normalized facts

Used to state that flattened bodies constrain the original expressions.  A
model assigns a value to every name (`rho`), a function to every head symbol
(`I` — covering both primitive and user calls) and a value to every literal
(`L`). -/

section Semantics

variable {V : Type} (I : Symbol → List V → V) (L : Literal → V) (rho : Symbol → V)

mutual

def evalExpr : Expr → V
  | .Lit l => L l
  | .Var v => rho v
  | .Call f children => I f (evalExprList children)

def evalExprList : List Expr → List V
  | [] => []
  | e :: rest => evalExpr e :: evalExprList rest

end

/-- Satisfaction of one normalized fact in the model. -/
def normFactHolds : NormFact → Prop
  | .Assign lhs (.Call f args) => rho lhs = I f (args.map rho)
  | .Compute lhs (.Call f args) => rho lhs = I f (args.map rho)
  | .AssignLit lhs l => rho lhs = L l
  | .ConstrainEq a b => rho a = rho b

def factsHold (facts : List NormFact) : Prop :=
  ∀ f ∈ facts, normFactHolds I L rho f

def pairsHold (pairs : List (Symbol × Symbol)) : Prop :=
  ∀ p ∈ pairs, rho p.1 = rho p.2

theorem factsHold_append {a b : List NormFact} :
    factsHold I L rho (a ++ b) ↔ factsHold I L rho a ∧ factsHold I L rho b := by
  simp [factsHold, or_imp, forall_and]

theorem pairsHold_append {a b : List (Symbol × Symbol)} :
    pairsHold rho (a ++ b) ↔ pairsHold rho a ∧ pairsHold rho b := by
  simp [pairsHold, or_imp, forall_and]

end Semantics

theorem forall2_map_eval {V : Type} (I : Symbol → List V → V) (L : Literal → V)
    (rho : Symbol → V) {ns : List Symbol} {cs : List Expr}
    (h : List.Forall₂ (fun nm ch => rho nm = evalExpr I L rho ch) ns cs) :
    ns.map rho = evalExprList I L rho cs := by
  induction h with
  | nil => rfl
  | cons h _ ih => simp [evalExprList, *]

section SemPass

variable {V : Type} (I : Symbol → List V → V) (L : Literal → V) (rho : Symbol → V)

mutual

/-- Soundness of `expr_to_ssa`: in any model satisfying all output facts and
all output deferred constraints, the target name denotes the expression; the
input accumulators are satisfied as well. -/
theorem expr_to_ssa_sem (isPrim : Symbol → Bool) (lhs_in : Symbol) (e : Expr) (d : Desugar)
    (res : List NormFact) (cons : List (Symbol × Symbol)) (bound : List Symbol)
    (hf : factsHold I L rho (expr_to_ssa isPrim lhs_in e d res cons bound).2.1)
    (hp : pairsHold rho (expr_to_ssa isPrim lhs_in e d res cons bound).2.2.1) :
    rho lhs_in = evalExpr I L rho e ∧ factsHold I L rho res ∧ pairsHold rho cons := by
  match e with
  | .Var v =>
    simp only [expr_to_ssa] at hf hp
    rw [factsHold_append] at hf
    refine ⟨?_, hf.1, hp⟩
    have := hf.2 (NormFact.ConstrainEq lhs_in v) (by simp)
    simpa [normFactHolds, evalExpr] using this
  | .Lit l =>
    by_cases hb : lhs_in ∈ bound
    · simp only [expr_to_ssa, hsInsert, hb, if_true, if_neg Bool.false_ne_true] at hf hp
      rw [factsHold_append] at hf
      rw [pairsHold_append] at hp
      have h1 := hf.2 (NormFact.AssignLit d.get_fresh.1 l) (by simp)
      have h2 := hp.2 (d.get_fresh.1, lhs_in) (by simp)
      simp only [normFactHolds] at h1
      simp only at h2
      exact ⟨by simp only [evalExpr]; rw [← h2, h1], hf.1, hp.1⟩
    · simp only [expr_to_ssa, hsInsert, hb, if_false, if_pos rfl] at hf hp
      rw [factsHold_append] at hf
      have h1 := hf.2 (NormFact.AssignLit lhs_in l) (by simp)
      simp only [normFactHolds] at h1
      exact ⟨h1, hf.1, hp⟩
  | .Call f children =>
    by_cases hb : lhs_in ∈ bound <;>
      by_cases hpr : isPrim f = true <;>
      simp only [expr_to_ssa, hsInsert, hb, hpr, if_true, if_false, ite_true, ite_false,
        Bool.false_eq_true, Bool.true_eq_false, not_true, not_false_iff,
        factsHold_append, pairsHold_append] at hf hp
    case pos =>
      -- lhs renamed to fresh, primitive call
      obtain ⟨hall, hres, hcons1⟩ :=
        ssa_children_prim_sem isPrim children d.get_fresh.2 res
          (cons ++ [(d.get_fresh.1, lhs_in)]) bound hf.1 hp
      rw [pairsHold_append] at hcons1
      have hc := hf.2 _ (List.mem_singleton.mpr rfl)
      simp only [normFactHolds] at hc
      have h2 := hcons1.2 (d.get_fresh.1, lhs_in) (by simp)
      simp only at h2
      refine ⟨?_, hres, hcons1.1⟩
      simp only [evalExpr]
      rw [← h2, hc, forall2_map_eval I L rho hall]
    case neg =>
      -- lhs renamed to fresh, non-primitive call
      obtain ⟨hall, hres, hcons1⟩ :=
        ssa_children_fn_sem isPrim children d.get_fresh.2 res
          (cons ++ [(d.get_fresh.1, lhs_in)]) bound hf.1 hp
      rw [pairsHold_append] at hcons1
      have hc := hf.2 _ (List.mem_singleton.mpr rfl)
      simp only [normFactHolds] at hc
      have h2 := hcons1.2 (d.get_fresh.1, lhs_in) (by simp)
      simp only at h2
      refine ⟨?_, hres, hcons1.1⟩
      simp only [evalExpr]
      rw [← h2, hc, forall2_map_eval I L rho hall]
    case pos =>
      -- lhs_in newly bound, primitive call
      obtain ⟨hall, hres, hcons⟩ :=
        ssa_children_prim_sem isPrim children d res cons (lhs_in :: bound) hf.1 hp
      have hc := hf.2 _ (List.mem_singleton.mpr rfl)
      simp only [normFactHolds] at hc
      refine ⟨?_, hres, hcons⟩
      simp only [evalExpr]
      rw [hc, forall2_map_eval I L rho hall]
    case neg =>
      obtain ⟨hall, hres, hcons⟩ :=
        ssa_children_fn_sem isPrim children d res cons (lhs_in :: bound) hf.1 hp
      have hc := hf.2 _ (List.mem_singleton.mpr rfl)
      simp only [normFactHolds] at hc
      refine ⟨?_, hres, hcons⟩
      simp only [evalExpr]
      rw [hc, forall2_map_eval I L rho hall]

theorem ssa_children_prim_sem (isPrim : Symbol → Bool) (children : List Expr) (d : Desugar)
    (res : List NormFact) (cons : List (Symbol × Symbol)) (bound : List Symbol)
    (hf : factsHold I L rho (ssa_children_prim isPrim children d res cons bound).2.2.1)
    (hp : pairsHold rho (ssa_children_prim isPrim children d res cons bound).2.2.2.1) :
    List.Forall₂ (fun nm ch => rho nm = evalExpr I L rho ch)
        (ssa_children_prim isPrim children d res cons bound).1 children ∧
      factsHold I L rho res ∧ pairsHold rho cons := by
  match children with
  | [] =>
    simp only [ssa_children_prim] at hf hp ⊢
    exact ⟨List.Forall₂.nil, hf, hp⟩
  | .Var v :: rest =>
    simp only [ssa_children_prim] at hf hp ⊢
    obtain ⟨hall, hres, hcons⟩ := ssa_children_prim_sem isPrim rest d res cons bound hf hp
    exact ⟨List.Forall₂.cons rfl hall, hres, hcons⟩
  | .Lit l :: rest =>
    simp only [ssa_children_prim] at hf hp ⊢
    obtain ⟨hall, hres1, hcons1⟩ := ssa_children_prim_sem isPrim rest _ _ _ _ hf hp
    obtain ⟨hv, hres, hcons⟩ :=
      expr_to_ssa_sem isPrim d.get_fresh.1 (.Lit l) d.get_fresh.2 res cons bound hres1 hcons1
    exact ⟨List.Forall₂.cons hv hall, hres, hcons⟩
  | .Call g cs :: rest =>
    simp only [ssa_children_prim] at hf hp ⊢
    obtain ⟨hall, hres1, hcons1⟩ := ssa_children_prim_sem isPrim rest _ _ _ _ hf hp
    obtain ⟨hv, hres, hcons⟩ :=
      expr_to_ssa_sem isPrim d.get_fresh.1 (.Call g cs) d.get_fresh.2 res cons bound hres1 hcons1
    exact ⟨List.Forall₂.cons hv hall, hres, hcons⟩

theorem ssa_children_fn_sem (isPrim : Symbol → Bool) (children : List Expr) (d : Desugar)
    (res : List NormFact) (cons : List (Symbol × Symbol)) (bound : List Symbol)
    (hf : factsHold I L rho (ssa_children_fn isPrim children d res cons bound).2.2.1)
    (hp : pairsHold rho (ssa_children_fn isPrim children d res cons bound).2.2.2.1) :
    List.Forall₂ (fun nm ch => rho nm = evalExpr I L rho ch)
        (ssa_children_fn isPrim children d res cons bound).1 children ∧
      factsHold I L rho res ∧ pairsHold rho cons := by
  match children with
  | [] =>
    simp only [ssa_children_fn] at hf hp ⊢
    exact ⟨List.Forall₂.nil, hf, hp⟩
  | .Var v :: rest =>
    by_cases hb : v ∈ bound <;>
      simp only [ssa_children_fn, hsInsert, hb, if_true, if_false, ite_true, ite_false,
        Bool.false_eq_true, Bool.true_eq_false, not_true, not_false_iff] at hf hp ⊢
    · obtain ⟨hall, hres, hcons1⟩ :=
        ssa_children_fn_sem isPrim rest d.get_fresh.2 res
          (cons ++ [(d.get_fresh.1, v)]) bound hf hp
      rw [pairsHold_append] at hcons1
      have h2 := hcons1.2 (d.get_fresh.1, v) (by simp)
      simp only at h2
      exact ⟨List.Forall₂.cons (by simpa [evalExpr] using h2) hall, hres, hcons1.1⟩
    · obtain ⟨hall, hres, hcons⟩ :=
        ssa_children_fn_sem isPrim rest d res cons (v :: bound) hf hp
      exact ⟨List.Forall₂.cons rfl hall, hres, hcons⟩
  | .Lit l :: rest =>
    simp only [ssa_children_fn, hsInsert] at hf hp ⊢
    obtain ⟨hall, hres1, hcons1⟩ := ssa_children_fn_sem isPrim rest _ _ _ _ hf hp
    obtain ⟨hv, hres, hcons⟩ :=
      expr_to_ssa_sem isPrim d.get_fresh.1 (.Lit l) d.get_fresh.2 res cons _ hres1 hcons1
    exact ⟨List.Forall₂.cons hv hall, hres, hcons⟩
  | .Call g cs :: rest =>
    simp only [ssa_children_fn, hsInsert] at hf hp ⊢
    obtain ⟨hall, hres1, hcons1⟩ := ssa_children_fn_sem isPrim rest _ _ _ _ hf hp
    obtain ⟨hv, hres, hcons⟩ :=
      expr_to_ssa_sem isPrim d.get_fresh.1 (.Call g cs) d.get_fresh.2 res cons _ hres1 hcons1
    exact ⟨List.Forall₂.cons hv hall, hres, hcons⟩

end

end SemPass

section SemFacts

variable {V : Type} (I : Symbol → List V → V) (L : Literal → V) (rho : Symbol → V)

theorem flatten_equalities_go_sem (isPrim : Symbol → Bool) (eqs : List (Symbol × Expr))
    (d : Desugar) (res : List NormFact) (cons : List (Symbol × Symbol)) (bound : List Symbol)
    (hf : factsHold I L rho (flatten_equalities_go isPrim eqs d res cons bound).2.1)
    (hp : pairsHold rho (flatten_equalities_go isPrim eqs d res cons bound).2.2.1) :
    (∀ p ∈ eqs, rho p.1 = evalExpr I L rho p.2) ∧
      factsHold I L rho res ∧ pairsHold rho cons := by
  match eqs with
  | [] =>
    simp only [flatten_equalities_go] at hf hp
    exact ⟨by simp, hf, hp⟩
  | (lhs, rhs) :: rest =>
    by_cases hg : lhs ∈ d.global_variables ∨ (lhs ∈ bound ∧ ¬ rhs.is_var) <;>
      simp only [flatten_equalities_go, hg, if_true, if_false, ite_true, ite_false] at hf hp
    · obtain ⟨hrest, hres1, hcons1⟩ :=
        flatten_equalities_go_sem isPrim rest _ _ _ _ hf hp
      rw [pairsHold_append] at hcons1
      obtain ⟨hv, hres, hcons⟩ :=
        expr_to_ssa_sem I L rho isPrim d.get_fresh.1 rhs d.get_fresh.2 res cons bound
          hres1 hcons1.1
      have h2 := hcons1.2 (d.get_fresh.1, lhs) (by simp)
      simp only at h2
      refine ⟨?_, hres, hcons⟩
      intro p hpmem
      rcases List.mem_cons.mp hpmem with h | h
      · subst h; exact h2.symm.trans hv
      · exact hrest p h
    · obtain ⟨hrest, hres1, hcons1⟩ :=
        flatten_equalities_go_sem isPrim rest _ _ _ _ hf hp
      obtain ⟨hv, hres, hcons⟩ :=
        expr_to_ssa_sem I L rho isPrim lhs rhs d res cons bound hres1 hcons1
      refine ⟨?_, hres, hcons⟩
      intro p hpmem
      rcases List.mem_cons.mp hpmem with h | h
      · subst h; exact hv
      · exact hrest p h

theorem factsHold_map_constrainEq (cons : List (Symbol × Symbol))
    (h : factsHold I L rho (cons.map (fun p => NormFact.ConstrainEq p.1 p.2))) :
    pairsHold rho cons := by
  intro p hpmem
  have := h (NormFact.ConstrainEq p.1 p.2) (List.mem_map.mpr ⟨p, hpmem, rfl⟩)
  simpa [normFactHolds] using this

theorem flatten_equalities_sem (isPrim : Symbol → Bool) (eqs : List (Symbol × Expr))
    (d : Desugar)
    (hf : factsHold I L rho (flatten_equalities isPrim eqs d).1) :
    ∀ p ∈ eqs, rho p.1 = evalExpr I L rho p.2 := by
  unfold flatten_equalities at hf
  rw [factsHold_append] at hf
  exact (flatten_equalities_go_sem I L rho isPrim eqs d [] [] [] hf.1
    (factsHold_map_constrainEq I L rho _ hf.2)).1

end SemFacts

/-! ### Claim C4: `Eq` facts in the body flattener -/

/-- The claim's well-formedness condition on one fact, as the code enforces it:
`flatten_facts` asserts that every surface `Eq` has exactly two arguments. -/
def eqArityOk : Fact → Prop
  | .Eq args => args.length = 2
  | .Fact _ => True

instance (f : Fact) : Decidable (eqArityOk f) := by
  unfold eqArityOk
  match f with
  | .Eq args => exact inferInstance
  | .Fact _ => exact inferInstance

theorem isSome_map {α β : Type} (f : α → β) (o : Option α) :
    (Option.map f o).isSome = o.isSome := by
  cases o <;> rfl

theorem facts_to_equalities_isSome (facts : List Fact) (d : Desugar) :
    (facts_to_equalities facts d).isSome = true ↔ ∀ f ∈ facts, eqArityOk f := by
  induction facts generalizing d with
  | nil => simp [facts_to_equalities]
  | cons f rest ih =>
    match f with
    | .Fact e =>
      simp only [facts_to_equalities, isSome_map]
      rw [ih]
      simp [eqArityOk]
    | .Eq args =>
      match args with
      | [] => simp [facts_to_equalities, eqArityOk]
      | [a] => simp [facts_to_equalities, eqArityOk]
      | [lhs, rhs] =>
        have harity : eqArityOk (Fact.Eq [lhs, rhs]) := by simp [eqArityOk]
        match lhs, rhs with
        | .Var v, rhs =>
          simp only [facts_to_equalities, isSome_map]
          rw [ih]
          simp [harity]
        | .Lit l, .Var v =>
          simp only [facts_to_equalities, isSome_map]
          rw [ih]
          simp [harity]
        | .Call g cs, .Var v =>
          simp only [facts_to_equalities, isSome_map]
          rw [ih]
          simp [harity]
        | .Lit l1, .Lit l2 =>
          simp only [facts_to_equalities, isSome_map]
          rw [ih]
          simp [harity]
        | .Lit l1, .Call g cs =>
          simp only [facts_to_equalities, isSome_map]
          rw [ih]
          simp [harity]
        | .Call g cs, .Lit l2 =>
          simp only [facts_to_equalities, isSome_map]
          rw [ih]
          simp [harity]
        | .Call g cs, .Call g2 cs2 =>
          simp only [facts_to_equalities, isSome_map]
          rw [ih]
          simp [harity]
      | a :: b :: c :: restArgs => simp [facts_to_equalities, eqArityOk]

theorem flatten_facts_pair_sem {V : Type} (I : Symbol → List V → V) (L : Literal → V)
    (rho : Symbol → V) (isPrim : Symbol → Bool) (e1 e2 : Expr) (d : Desugar)
    (out : List NormFact) (d' : Desugar)
    (heq : flatten_facts isPrim [Fact.Eq [e1, e2]] d = some (out, d'))
    (hf : factsHold I L rho out) :
    evalExpr I L rho e1 = evalExpr I L rho e2 := by
  match e1, e2 with
  | .Var v, rhs =>
    simp only [flatten_facts, facts_to_equalities, Option.map_some'] at heq
    obtain ⟨h1, h2⟩ := Prod.mk.injEq .. ▸ Option.some.injEq .. ▸ heq
    subst h1
    have := flatten_equalities_sem I L rho isPrim [(v, rhs)] d hf (v, rhs) (by simp)
    simpa [evalExpr] using this
  | .Lit l, .Var v =>
    simp only [flatten_facts, facts_to_equalities, Option.map_some'] at heq
    obtain ⟨h1, h2⟩ := Prod.mk.injEq .. ▸ Option.some.injEq .. ▸ heq
    subst h1
    have := flatten_equalities_sem I L rho isPrim [(v, .Lit l)] d hf (v, .Lit l) (by simp)
    simp only [evalExpr]
    simpa [evalExpr] using this.symm
  | .Call g cs, .Var v =>
    simp only [flatten_facts, facts_to_equalities, Option.map_some'] at heq
    obtain ⟨h1, h2⟩ := Prod.mk.injEq .. ▸ Option.some.injEq .. ▸ heq
    subst h1
    have := flatten_equalities_sem I L rho isPrim [(v, .Call g cs)] d hf (v, .Call g cs)
      (by simp)
    simpa [evalExpr] using this.symm
  | .Lit l1, .Lit l2 =>
    simp only [flatten_facts, facts_to_equalities, Option.map_some'] at heq
    obtain ⟨h1, h2⟩ := Prod.mk.injEq .. ▸ Option.some.injEq .. ▸ heq
    subst h1
    have hsem := flatten_equalities_sem I L rho isPrim
      [(d.get_fresh.1, .Lit l1), (d.get_fresh.1, .Lit l2)] d.get_fresh.2 hf
    have ha := hsem (d.get_fresh.1, .Lit l1) (by simp)
    have hb := hsem (d.get_fresh.1, .Lit l2) (by simp)
    exact ha.symm.trans hb
  | .Lit l1, .Call g cs =>
    simp only [flatten_facts, facts_to_equalities, Option.map_some'] at heq
    obtain ⟨h1, h2⟩ := Prod.mk.injEq .. ▸ Option.some.injEq .. ▸ heq
    subst h1
    have hsem := flatten_equalities_sem I L rho isPrim
      [(d.get_fresh.1, .Lit l1), (d.get_fresh.1, .Call g cs)] d.get_fresh.2 hf
    have ha := hsem (d.get_fresh.1, .Lit l1) (by simp)
    have hb := hsem (d.get_fresh.1, .Call g cs) (by simp)
    exact ha.symm.trans hb
  | .Call g cs, .Lit l2 =>
    simp only [flatten_facts, facts_to_equalities, Option.map_some'] at heq
    obtain ⟨h1, h2⟩ := Prod.mk.injEq .. ▸ Option.some.injEq .. ▸ heq
    subst h1
    have hsem := flatten_equalities_sem I L rho isPrim
      [(d.get_fresh.1, .Call g cs), (d.get_fresh.1, .Lit l2)] d.get_fresh.2 hf
    have ha := hsem (d.get_fresh.1, .Call g cs) (by simp)
    have hb := hsem (d.get_fresh.1, .Lit l2) (by simp)
    exact ha.symm.trans hb
  | .Call g cs, .Call g2 cs2 =>
    simp only [flatten_facts, facts_to_equalities, Option.map_some'] at heq
    obtain ⟨h1, h2⟩ := Prod.mk.injEq .. ▸ Option.some.injEq .. ▸ heq
    subst h1
    have hsem := flatten_equalities_sem I L rho isPrim
      [(d.get_fresh.1, .Call g cs), (d.get_fresh.1, .Call g2 cs2)] d.get_fresh.2 hf
    have ha := hsem (d.get_fresh.1, .Call g cs) (by simp)
    have hb := hsem (d.get_fresh.1, .Call g2 cs2) (by simp)
    exact ha.symm.trans hb

/-- Claim C4 counterexample: `flatten_facts` aborts (the source asserts
`args.len() == 2`) on the arity-3 equality `Eq([a, b, c])`, although the claim
says the flattener succeeds for every arity at least 2. -/
theorem claim_c4_counterexample :
    flatten_facts (fun _ => false)
      [Fact.Eq [Expr.Var "a", Expr.Var "b", Expr.Var "c"]] Desugar.default = none := rfl

/-- Claim C4 (amended): the body flattener succeeds exactly when every surface
`Eq` fact has arity exactly 2 (arity 3 or more aborts); and for an equality
`Eq([e1, e2])` the produced normalized facts constrain `e1` and `e2` to denote
the same value: any model satisfying the produced facts gives `e1` and `e2`
equal denotations. -/
theorem claim_c4_amended :
    (∀ (isPrim : Symbol → Bool) (facts : List Fact) (d : Desugar),
      (flatten_facts isPrim facts d).isSome = true ↔ ∀ f ∈ facts, eqArityOk f) ∧
    (∀ {V : Type} (I : Symbol → List V → V) (L : Literal → V) (rho : Symbol → V)
      (isPrim : Symbol → Bool) (e1 e2 : Expr) (d : Desugar)
      (out : List NormFact) (d' : Desugar),
      flatten_facts isPrim [Fact.Eq [e1, e2]] d = some (out, d') →
      factsHold I L rho out →
      evalExpr I L rho e1 = evalExpr I L rho e2) := by
  constructor
  · intro isPrim facts d
    rw [show flatten_facts isPrim facts d =
        (facts_to_equalities facts d).map (fun p => flatten_equalities isPrim p.1 p.2) from rfl]
    rw [isSome_map]
    exact facts_to_equalities_isSome facts d
  · intro V I L rho isPrim e1 e2 d out d' heq hf
    exact flatten_facts_pair_sem I L rho isPrim e1 e2 d out d' heq hf

theorem claim_c4_amended_witness :
    ((flatten_facts (fun _ => false)
        [Fact.Eq [Expr.Var "x", Expr.Var "y"]] Desugar.default).isSome = true) ∧
    evalExpr (fun _ _ => (0 : Nat)) (fun _ => 0) (fun _ => 0) (Expr.Var "x") =
      evalExpr (fun _ _ => (0 : Nat)) (fun _ => 0) (fun _ => 0)
        (Expr.Lit (Literal.Int 1)) :=
  ⟨(claim_c4_amended.1 (fun _ => false)
      [Fact.Eq [Expr.Var "x", Expr.Var "y"]] Desugar.default).mpr (by decide),
   claim_c4_amended.2 (fun _ _ => (0 : Nat)) (fun _ => 0) (fun _ => 0) (fun _ => false)
      (Expr.Var "x") (Expr.Lit (Literal.Int 1)) Desugar.default
      [NormFact.AssignLit "x" (Literal.Int 1)] Desugar.default rfl
      (by intro f hmem; simp only [List.mem_singleton] at hmem; subst hmem; rfl)⟩

/-! ### Claim C3: `Compute` versus `Assign` dispatch -/

/-- The dispatch invariant of one normalized fact: a `Compute` head passes the
primitive test the flattener uses, an `Assign` head fails it. -/
def computeAssignOk (isPrim : Symbol → Bool) : NormFact → Prop
  | .Compute _ (.Call f _) => isPrim f = true
  | .Assign _ (.Call f _) => isPrim f = false
  | _ => True

section HeadsPass

variable (isPrim : Symbol → Bool)

mutual

theorem expr_to_ssa_heads (lhs_in : Symbol) (e : Expr) (d : Desugar)
    (res : List NormFact) (cons : List (Symbol × Symbol)) (bound : List Symbol)
    (h : ∀ f ∈ res, computeAssignOk isPrim f) :
    ∀ f ∈ (expr_to_ssa isPrim lhs_in e d res cons bound).2.1, computeAssignOk isPrim f := by
  match e with
  | .Var v =>
    simp only [expr_to_ssa]
    intro f hf
    rcases List.mem_append.mp hf with h1 | h1
    · exact h f h1
    · simp only [List.mem_singleton] at h1
      subst h1
      trivial
  | .Lit l =>
    by_cases hb : lhs_in ∈ bound <;>
      simp only [expr_to_ssa, hsInsert, hb, if_true, if_false, ite_true, ite_false,
        Bool.false_eq_true, Bool.true_eq_false, not_true, not_false_iff] <;>
      intro f hf <;> rcases List.mem_append.mp hf with h1 | h1
    · exact h f h1
    · simp only [List.mem_singleton] at h1; subst h1; trivial
    · exact h f h1
    · simp only [List.mem_singleton] at h1; subst h1; trivial
  | .Call g children =>
    by_cases hb : lhs_in ∈ bound <;>
      by_cases hpr : isPrim g = true <;>
      simp only [expr_to_ssa, hsInsert, hb, hpr, if_true, if_false, ite_true, ite_false,
        Bool.false_eq_true, Bool.true_eq_false, not_true, not_false_iff] <;>
      intro f hf <;> rcases List.mem_append.mp hf with h1 | h1
    case pos.inl =>
      exact ssa_children_prim_heads children _ _ _ _ h f h1
    case pos.inr =>
      simp only [List.mem_singleton] at h1; subst h1
      simpa [computeAssignOk] using hpr
    case neg.inl =>
      exact ssa_children_fn_heads children _ _ _ _ h f h1
    case neg.inr =>
      simp only [List.mem_singleton] at h1; subst h1
      simpa [computeAssignOk] using Bool.of_not_eq_true hpr
    case pos.inl =>
      exact ssa_children_prim_heads children _ _ _ _ h f h1
    case pos.inr =>
      simp only [List.mem_singleton] at h1; subst h1
      simpa [computeAssignOk] using hpr
    case neg.inl =>
      exact ssa_children_fn_heads children _ _ _ _ h f h1
    case neg.inr =>
      simp only [List.mem_singleton] at h1; subst h1
      simpa [computeAssignOk] using Bool.of_not_eq_true hpr

theorem ssa_children_prim_heads (children : List Expr) (d : Desugar)
    (res : List NormFact) (cons : List (Symbol × Symbol)) (bound : List Symbol)
    (h : ∀ f ∈ res, computeAssignOk isPrim f) :
    ∀ f ∈ (ssa_children_prim isPrim children d res cons bound).2.2.1,
      computeAssignOk isPrim f := by
  match children with
  | [] => simpa [ssa_children_prim] using h
  | .Var v :: rest =>
    simp only [ssa_children_prim]
    exact ssa_children_prim_heads rest _ _ _ _ h
  | .Lit l :: rest =>
    simp only [ssa_children_prim]
    exact ssa_children_prim_heads rest _ _ _ _
      (expr_to_ssa_heads d.get_fresh.1 (.Lit l) d.get_fresh.2 res cons bound h)
  | .Call g cs :: rest =>
    simp only [ssa_children_prim]
    exact ssa_children_prim_heads rest _ _ _ _
      (expr_to_ssa_heads d.get_fresh.1 (.Call g cs) d.get_fresh.2 res cons bound h)

theorem ssa_children_fn_heads (children : List Expr) (d : Desugar)
    (res : List NormFact) (cons : List (Symbol × Symbol)) (bound : List Symbol)
    (h : ∀ f ∈ res, computeAssignOk isPrim f) :
    ∀ f ∈ (ssa_children_fn isPrim children d res cons bound).2.2.1,
      computeAssignOk isPrim f := by
  match children with
  | [] => simpa [ssa_children_fn] using h
  | .Var v :: rest =>
    by_cases hb : v ∈ bound <;>
      simp only [ssa_children_fn, hsInsert, hb, if_true, if_false, ite_true, ite_false,
        Bool.false_eq_true, Bool.true_eq_false, not_true, not_false_iff]
    · exact ssa_children_fn_heads rest _ _ _ _ h
    · exact ssa_children_fn_heads rest _ _ _ _ h
  | .Lit l :: rest =>
    simp only [ssa_children_fn, hsInsert]
    exact ssa_children_fn_heads rest _ _ _ _
      (expr_to_ssa_heads d.get_fresh.1 (.Lit l) d.get_fresh.2 res cons _ h)
  | .Call g cs :: rest =>
    simp only [ssa_children_fn, hsInsert]
    exact ssa_children_fn_heads rest _ _ _ _
      (expr_to_ssa_heads d.get_fresh.1 (.Call g cs) d.get_fresh.2 res cons _ h)

end

theorem flatten_equalities_go_heads (eqs : List (Symbol × Expr)) (d : Desugar)
    (res : List NormFact) (cons : List (Symbol × Symbol)) (bound : List Symbol)
    (h : ∀ f ∈ res, computeAssignOk isPrim f) :
    ∀ f ∈ (flatten_equalities_go isPrim eqs d res cons bound).2.1,
      computeAssignOk isPrim f := by
  match eqs with
  | [] => simpa [flatten_equalities_go] using h
  | (lhs, rhs) :: rest =>
    by_cases hg : lhs ∈ d.global_variables ∨ (lhs ∈ bound ∧ ¬ rhs.is_var) <;>
      simp only [flatten_equalities_go, hg, if_true, if_false, ite_true, ite_false]
    · exact flatten_equalities_go_heads rest _ _ _ _
        (expr_to_ssa_heads isPrim d.get_fresh.1 rhs d.get_fresh.2 res cons bound h)
    · exact flatten_equalities_go_heads rest _ _ _ _
        (expr_to_ssa_heads isPrim lhs rhs d res cons bound h)

theorem flatten_facts_heads (facts : List Fact) (d : Desugar)
    (out : List NormFact) (d' : Desugar)
    (heq : flatten_facts isPrim facts d = some (out, d')) :
    ∀ f ∈ out, computeAssignOk isPrim f := by
  unfold flatten_facts at heq
  match h : facts_to_equalities facts d with
  | none => rw [h] at heq; exact absurd heq (by simp)
  | some (eqs, d1) =>
    rw [h] at heq
    simp only [Option.map_some', Option.some.injEq] at heq
    have hout : out = (flatten_equalities isPrim eqs d1).1 := by
      rw [heq]
    subst hout
    unfold flatten_equalities
    intro f hfmem
    rcases List.mem_append.mp hfmem with h1 | h1
    · exact flatten_equalities_go_heads isPrim eqs d1 [] [] [] (by simp) f h1
    · rcases List.mem_map.mp h1 with ⟨p, _, hpf⟩
      subst hpf
      trivial

end HeadsPass

/-! ### Properties of the unique-name pass -/

theorem gunStep_use_id (var : Symbol) (s : GUNState) : gunStep var false s = (var, s) := rfl

theorem mapUses_gunStep_id (args : List Symbol) (s : GUNState) :
    mapUses gunStep args s = (args, s) := by
  induction args with
  | nil => rfl
  | cons a as ih => simp [mapUses, gunStep, ih]

theorem map_def_use_assign (lhs g : Symbol) (args : List Symbol) (s : GUNState) :
    (NormFact.Assign lhs (.Call g args)).map_def_use gunStep s =
      (NormFact.Assign (gunStep lhs true s).1 (.Call g args), (gunStep lhs true s).2) := by
  rcases hg : gunStep lhs true s with ⟨a, s1⟩
  simp [NormFact.map_def_use, hg, mapUses_gunStep_id]

theorem map_def_use_compute (lhs g : Symbol) (args : List Symbol) (s : GUNState) :
    (NormFact.Compute lhs (.Call g args)).map_def_use gunStep s =
      (NormFact.Compute (gunStep lhs true s).1 (.Call g args), (gunStep lhs true s).2) := by
  rcases hg : gunStep lhs true s with ⟨a, s1⟩
  simp [NormFact.map_def_use, hg, mapUses_gunStep_id]

theorem map_def_use_assignLit (lhs : Symbol) (l : Literal) (s : GUNState) :
    (NormFact.AssignLit lhs l).map_def_use gunStep s =
      (NormFact.AssignLit (gunStep lhs true s).1 l, (gunStep lhs true s).2) := by
  rcases hg : gunStep lhs true s with ⟨a, s1⟩
  simp [NormFact.map_def_use, hg]

theorem map_def_use_constrainEq (a b : Symbol) (s : GUNState) :
    (NormFact.ConstrainEq a b).map_def_use gunStep s =
      (NormFact.ConstrainEq (gunStep a true s).1 b, (gunStep a true s).2) := by
  rcases hg : gunStep a true s with ⟨a', s1⟩
  simp [NormFact.map_def_use, hg, gunStep_use_id]

theorem gunStep_cons_before (var : Symbol) (s : GUNState) :
    ∀ f ∈ (gunStep var true s).2.cons_before,
      f ∈ s.cons_before ∨ ∃ a b, f = NormFact.ConstrainEq a b := by
  by_cases hu : var ∈ s.name_used <;>
    by_cases hi : var ∈ s.immediately <;>
    simp only [gunStep, hu, hi, if_true, if_false, ite_true, ite_false] <;>
    intro f hf
  · exact Or.inl hf
  · rcases List.mem_append.mp hf with h | h
    · exact Or.inl h
    · simp only [List.mem_singleton] at h
      exact Or.inr ⟨_, _, h⟩
  · exact Or.inl hf
  · exact Or.inl hf

theorem gunStep_cons_after (var : Symbol) (s : GUNState) :
    ∀ f ∈ (gunStep var true s).2.cons_after,
      f ∈ s.cons_after ∨ ∃ a b, f = NormFact.ConstrainEq a b := by
  by_cases hu : var ∈ s.name_used <;>
    by_cases hi : var ∈ s.immediately <;>
    simp only [gunStep, hu, hi, if_true, if_false, ite_true, ite_false] <;>
    intro f hf
  · rcases List.mem_append.mp hf with h | h
    · exact Or.inl h
    · simp only [List.mem_singleton] at h
      exact Or.inr ⟨_, _, h⟩
  · exact Or.inl hf
  · exact Or.inl hf
  · exact Or.inl hf

/-- The renamed fact produced by `map_def_use` has the same constructor and the
same call head as the input fact, and the state's constraint lists grow only by
`ConstrainEq` facts. -/
theorem map_def_use_shape (isPrim : Symbol → Bool) (fact : NormFact) (s : GUNState) :
    (computeAssignOk isPrim fact →
      computeAssignOk isPrim (fact.map_def_use gunStep s).1) ∧
    (∀ f ∈ (fact.map_def_use gunStep s).2.cons_before,
      f ∈ s.cons_before ∨ ∃ a b, f = NormFact.ConstrainEq a b) ∧
    (∀ f ∈ (fact.map_def_use gunStep s).2.cons_after,
      f ∈ s.cons_after ∨ ∃ a b, f = NormFact.ConstrainEq a b) := by
  match fact with
  | .Assign lhs (.Call g args) =>
    rw [map_def_use_assign]
    exact ⟨fun h => h, gunStep_cons_before lhs s, gunStep_cons_after lhs s⟩
  | .Compute lhs (.Call g args) =>
    rw [map_def_use_compute]
    exact ⟨fun h => h, gunStep_cons_before lhs s, gunStep_cons_after lhs s⟩
  | .AssignLit lhs l =>
    rw [map_def_use_assignLit]
    exact ⟨fun _ => trivial, gunStep_cons_before lhs s, gunStep_cons_after lhs s⟩
  | .ConstrainEq a b =>
    rw [map_def_use_constrainEq]
    exact ⟨fun _ => trivial, gunStep_cons_before a s, gunStep_cons_after a s⟩

theorem gun_go_heads (isPrim : Symbol → Bool) (facts : List NormFact) (d : Desugar)
    (name_used : List Symbol) (cons_after res : List NormFact)
    (hres : ∀ f ∈ res, computeAssignOk isPrim f)
    (hca : ∀ f ∈ cons_after, computeAssignOk isPrim f)
    (hfacts : ∀ f ∈ facts, computeAssignOk isPrim f) :
    ∀ f ∈ (give_unique_names_go d name_used cons_after res facts).1,
      computeAssignOk isPrim f := by
  match facts with
  | [] =>
    simp only [give_unique_names_go]
    intro f hf
    rcases List.mem_append.mp hf with h | h
    · exact hres f h
    · exact hca f h
  | fact :: rest =>
    simp only [give_unique_names_go]
    set s0 : GUNState :=
      { name_used := name_used, immediately := [], cons_after := cons_after,
        cons_before := [], d := d } with hs0
    have hshape := map_def_use_shape isPrim fact s0
    apply gun_go_heads isPrim rest _ _ _ _ _ _
      (fun f hf => hfacts f (List.mem_cons_of_mem _ hf))
    · intro f hf
      rcases List.mem_append.mp hf with h | h
      · rcases List.mem_append.mp h with h2 | h2
        · exact hres f h2
        · rcases hshape.2.1 f h2 with h3 | h3
          · simp [hs0] at h3
          · rcases h3 with ⟨a, b, rfl⟩
            trivial
      · simp only [List.mem_singleton] at h
        subst h
        exact hshape.1 (hfacts fact (List.mem_cons_self _ _))
    · intro f hf
      rcases hshape.2.2 f hf with h3 | h3
      · exact hca f h3
      · rcases h3 with ⟨a, b, rfl⟩
        trivial

theorem give_unique_names_heads (isPrim : Symbol → Bool) (facts : List NormFact) (d : Desugar)
    (hfacts : ∀ f ∈ facts, computeAssignOk isPrim f) :
    ∀ f ∈ (give_unique_names d facts).1, computeAssignOk isPrim f :=
  gun_go_heads isPrim facts d [] [] [] (by simp) (by simp) hfacts

theorem flatten_rule_heads (isPrim : Symbol → Bool) (rule : Rule) (d : Desugar)
    (nr : NormRule) (d' : Desugar)
    (heq : flatten_rule isPrim rule d = some (nr, d')) :
    ∀ f ∈ nr.body, computeAssignOk isPrim f := by
  unfold flatten_rule at heq
  match h1 : flatten_facts isPrim rule.body d with
  | none => rw [h1] at heq; exact absurd heq (by simp)
  | some (flat, d1) =>
    rw [h1] at heq
    simp only at heq
    match h2 : flatten_actions rule.head (give_unique_names d1 flat).2 with
    | none => rw [h2] at heq; exact absurd heq (by simp)
    | some (head, d2) =>
      rw [h2] at heq
      simp only [Option.some.injEq] at heq
      cases heq
      exact give_unique_names_heads isPrim flat d1
        (flatten_facts_heads isPrim rule.body d flat d1 h1)

/-- The program registry used in the C3 counterexample: its `func_types` table
is empty, exactly as in `TypeInfo::default()` (typechecking.rs lines 32-63
populate only sorts, primitives and presorts) and in any session that has
declared no function. -/
def c3TypeInfo : TC.TypeInfo :=
  { presorts := ["Map", "Set", "Vec"], presort_names := [],
    sorts := [], primitives := [], func_types := [], global_types := [] }

/-- Claim C3 counterexample: the body flattener lowers a call of the
undeclared symbol `foo` to an `Assign`, even though `foo` is not a registered
user function (`lookup_user_func` fails on every registry whose `func_types`
is empty); so the head of an `Assign` need not be a registered user function,
refuting the claim's Assign direction. -/
theorem claim_c3_counterexample :
    flatten_facts (fun _ => false)
        [Fact.Eq [Expr.Var "x", Expr.Call "foo" [Expr.Var "y"]]] Desugar.default =
      some ([NormFact.Assign "x" (NormExpr.Call "foo" ["y"])], Desugar.default) ∧
    ¬ (∀ fact ∈ [NormFact.Assign "x" (NormExpr.Call "foo" ["y"])],
        ∀ lhs f args, fact = NormFact.Assign lhs (NormExpr.Call f args) →
          (c3TypeInfo.lookup_user_func f).isSome = true) := by
  refine ⟨rfl, fun h => ?_⟩
  have := h (NormFact.Assign "x" (NormExpr.Call "foo" ["y"])) (by simp) "x" "foo" ["y"] rfl
  simp [TC.TypeInfo.lookup_user_func, TC.assocFind, c3TypeInfo] at this

/-- Claim C3 (amended): in every rule body produced by rule flattening, a
`Compute` head satisfies the primitive test the flattener uses (the one of
`TypeInfo::default()`, threaded as `isPrim`), and an `Assign` head fails that
same test; registration as a user function is not consulted. -/
theorem claim_c3_amended (isPrim : Symbol → Bool) (rule : Rule) (d : Desugar)
    (nr : NormRule) (d' : Desugar)
    (heq : flatten_rule isPrim rule d = some (nr, d')) :
    ∀ fact ∈ nr.body,
      (∀ lhs f args, fact = NormFact.Compute lhs (NormExpr.Call f args) → isPrim f = true) ∧
      (∀ lhs f args, fact = NormFact.Assign lhs (NormExpr.Call f args) → isPrim f = false) := by
  intro fact hmem
  have hok := flatten_rule_heads isPrim rule d nr d' heq fact hmem
  constructor
  · intro lhs f args hshape
    subst hshape
    exact hok
  · intro lhs f args hshape
    subst hshape
    exact hok

theorem claim_c3_amended_witness :
    (fun (_ : Symbol) => false) "foo" = false :=
  (claim_c3_amended (fun _ => false)
      { body := [Fact.Eq [Expr.Var "x", Expr.Call "foo" [Expr.Var "y"]]], head := [] }
      Desugar.default
      { head := [], body := [NormFact.Assign "x" (NormExpr.Call "foo" ["y"])] }
      Desugar.default rfl
      (NormFact.Assign "x" (NormExpr.Call "foo" ["y"])) (by simp)).2 "x" "foo" ["y"] rfl

/-! ### Claim C1: defining occurrences in flattened rule bodies -/

mutual

/-- The variable symbols of a surface expression (call heads are not
variables). -/
def exprVars : Expr → List Symbol
  | .Lit _ => []
  | .Var v => [v]
  | .Call _ children => exprVarsList children

def exprVarsList : List Expr → List Symbol
  | [] => []
  | e :: rest => exprVars e ++ exprVarsList rest

end

def factVars : Fact → List Symbol
  | .Eq args => exprVarsList args
  | .Fact e => exprVars e

def factsVars : List Fact → List Symbol
  | [] => []
  | f :: rest => factVars f ++ factsVars rest

/-- Every symbol of a normalized fact (defining and use positions; the call
head is a function symbol, not a name). -/
def NormFact.syms : NormFact → List Symbol
  | .Assign lhs (.Call _ args) => lhs :: args
  | .Compute lhs (.Call _ args) => lhs :: args
  | .AssignLit lhs _ => [lhs]
  | .ConstrainEq a b => [a, b]

/-- The defining occurrences counted by the amended claim: the lhs of
`Assign`, `Compute` and `AssignLit`. -/
def NormFact.defsACA : NormFact → List Symbol
  | .Assign lhs _ => [lhs]
  | .Compute lhs _ => [lhs]
  | .AssignLit lhs _ => [lhs]
  | .ConstrainEq _ _ => []

/-- The defining occurrences exactly as the claim words them: additionally the
first argument of `ConstrainEq`. -/
def NormFact.defsClaim : NormFact → List Symbol
  | .Assign lhs _ => [lhs]
  | .Compute lhs _ => [lhs]
  | .AssignLit lhs _ => [lhs]
  | .ConstrainEq a _ => [a]

def bodyDefs : List NormFact → List Symbol
  | [] => []
  | f :: rest => f.defsACA ++ bodyDefs rest

def bodyDefsClaim : List NormFact → List Symbol
  | [] => []
  | f :: rest => f.defsClaim ++ bodyDefsClaim rest

theorem bodyDefs_append (a b : List NormFact) :
    bodyDefs (a ++ b) = bodyDefs a ++ bodyDefs b := by
  induction a with
  | nil => rfl
  | cons f rest ih => simp [bodyDefs, ih]

/-- A symbol is in range for the generator: either an original symbol
(satisfying `S`) or a generated name with counter in `[n0, nf)`. -/
def GoodSym (S : Symbol → Prop) (k n0 nf : Nat) (s : Symbol) : Prop :=
  S s ∨ ∃ m, n0 ≤ m ∧ m < nf ∧ s = genName k m

theorem GoodSym_mono {S : Symbol → Prop} {k n0 nf nf' : Nat} (h : nf ≤ nf') {s : Symbol}
    (hg : GoodSym S k n0 nf s) : GoodSym S k n0 nf' s := by
  rcases hg with h1 | ⟨m, h1, h2, h3⟩
  · exact Or.inl h1
  · exact Or.inr ⟨m, h1, by omega, h3⟩

section RangePass

variable (S : Symbol → Prop) (k n0 : Nat)

mutual

theorem expr_to_ssa_range (isPrim : Symbol → Bool) (lhs_in : Symbol) (e : Expr) (d : Desugar)
    (res : List NormFact) (cons : List (Symbol × Symbol)) (bound : List Symbol)
    (hk : d.number_underscores = k) (hn : n0 ≤ d.next_fresh)
    (hlhs : GoodSym S k n0 d.next_fresh lhs_in)
    (hvars : ∀ v ∈ exprVars e, S v)
    (hres : ∀ fact ∈ res, ∀ s ∈ fact.syms, GoodSym S k n0 d.next_fresh s)
    (hcons : ∀ p ∈ cons, GoodSym S k n0 d.next_fresh p.1 ∧ GoodSym S k n0 d.next_fresh p.2) :
    (expr_to_ssa isPrim lhs_in e d res cons bound).1.number_underscores = k ∧
    d.next_fresh ≤ (expr_to_ssa isPrim lhs_in e d res cons bound).1.next_fresh ∧
    (∀ fact ∈ (expr_to_ssa isPrim lhs_in e d res cons bound).2.1, ∀ s ∈ fact.syms,
      GoodSym S k n0 (expr_to_ssa isPrim lhs_in e d res cons bound).1.next_fresh s) ∧
    (∀ p ∈ (expr_to_ssa isPrim lhs_in e d res cons bound).2.2.1,
      GoodSym S k n0 (expr_to_ssa isPrim lhs_in e d res cons bound).1.next_fresh p.1 ∧
      GoodSym S k n0 (expr_to_ssa isPrim lhs_in e d res cons bound).1.next_fresh p.2) := by
  match e with
  | .Var v =>
    simp only [expr_to_ssa]
    refine ⟨hk, Nat.le_refl _, ?_, hcons⟩
    intro fact hf s hs
    rcases List.mem_append.mp hf with h1 | h1
    · exact hres fact h1 s hs
    · simp only [List.mem_singleton] at h1
      subst h1
      simp only [NormFact.syms, List.mem_cons, List.mem_singleton] at hs
      rcases hs with rfl | rfl | hfalse
      · exact hlhs
      · exact Or.inl (hvars s (by simp [exprVars]))
      · exact absurd hfalse (by simp)
  | .Lit l =>
    by_cases hb : lhs_in ∈ bound <;>
      simp only [expr_to_ssa, hsInsert, hb, if_true, if_false, ite_true, ite_false,
        Bool.false_eq_true, Bool.true_eq_false, not_true, not_false_iff]
    · refine ⟨by simp [Desugar.get_fresh, hk], by simp [Desugar.get_fresh], ?_, ?_⟩
      · intro fact hf s hs
        rcases List.mem_append.mp hf with h1 | h1
        · exact GoodSym_mono (by simp [Desugar.get_fresh]) (hres fact h1 s hs)
        · simp only [List.mem_singleton] at h1
          subst h1
          simp only [NormFact.syms, List.mem_singleton] at hs
          subst hs
          exact Or.inr ⟨d.next_fresh, hn, by simp [Desugar.get_fresh],
            by rw [get_fresh_eq_genName, hk]⟩
      · intro p hp
        rcases List.mem_append.mp hp with h1 | h1
        · have := hcons p h1
          exact ⟨GoodSym_mono (by simp [Desugar.get_fresh]) this.1,
            GoodSym_mono (by simp [Desugar.get_fresh]) this.2⟩
        · simp only [List.mem_singleton] at h1
          subst h1
          refine ⟨Or.inr ⟨d.next_fresh, hn, by simp [Desugar.get_fresh],
            by rw [get_fresh_eq_genName, hk]⟩,
            GoodSym_mono (by simp [Desugar.get_fresh]) hlhs⟩
    · refine ⟨hk, Nat.le_refl _, ?_, hcons⟩
      intro fact hf s hs
      rcases List.mem_append.mp hf with h1 | h1
      · exact hres fact h1 s hs
      · simp only [List.mem_singleton] at h1
        subst h1
        simp only [NormFact.syms, List.mem_singleton] at hs
        subst hs
        exact hlhs
  | .Call f children =>
    have hvars' : ∀ v ∈ exprVarsList children, S v := by
      intro v hv
      exact hvars v (by simpa [exprVars] using hv)
    by_cases hb : lhs_in ∈ bound <;>
      by_cases hpr : isPrim f = true <;>
      simp only [expr_to_ssa, hsInsert, hb, hpr, if_true, if_false, ite_true, ite_false,
        Bool.false_eq_true, Bool.true_eq_false, not_true, not_false_iff]
    case pos =>
      have hch := ssa_children_prim_range isPrim children d.get_fresh.2 res
        (cons ++ [(d.get_fresh.1, lhs_in)]) bound
        (by simp [Desugar.get_fresh, hk]) (by simp [Desugar.get_fresh]; omega)
        hvars'
        (fun fact hf s hs =>
          GoodSym_mono (by simp [Desugar.get_fresh]) (hres fact hf s hs))
        (by
          intro p hp
          rcases List.mem_append.mp hp with h1 | h1
          · have := hcons p h1
            exact ⟨GoodSym_mono (by simp [Desugar.get_fresh]) this.1,
              GoodSym_mono (by simp [Desugar.get_fresh]) this.2⟩
          · simp only [List.mem_singleton] at h1
            subst h1
            exact ⟨Or.inr ⟨d.next_fresh, hn, by simp [Desugar.get_fresh],
              by rw [get_fresh_eq_genName, hk]⟩,
              GoodSym_mono (by simp [Desugar.get_fresh]) hlhs⟩)
      obtain ⟨hk2, hle2, hres2, hcons2, hnames2⟩ := hch
      have hle := le_trans (Nat.le_succ d.next_fresh) hle2
      refine ⟨hk2, hle, ?_, hcons2⟩
      intro fact hf s hs
      rcases List.mem_append.mp hf with h1 | h1
      · exact hres2 fact h1 s hs
      · simp only [List.mem_singleton] at h1
        subst h1
        simp only [NormFact.syms, List.mem_cons] at hs
        rcases hs with rfl | hs
        · exact Or.inr ⟨d.next_fresh, hn, lt_of_lt_of_le (Nat.lt_succ_self _) hle2,
            by rw [get_fresh_eq_genName, hk]⟩
        · exact hnames2 s hs
    case neg =>
      have hch := ssa_children_fn_range isPrim children d.get_fresh.2 res
        (cons ++ [(d.get_fresh.1, lhs_in)]) bound
        (by simp [Desugar.get_fresh, hk]) (by simp [Desugar.get_fresh]; omega)
        hvars'
        (fun fact hf s hs =>
          GoodSym_mono (by simp [Desugar.get_fresh]) (hres fact hf s hs))
        (by
          intro p hp
          rcases List.mem_append.mp hp with h1 | h1
          · have := hcons p h1
            exact ⟨GoodSym_mono (by simp [Desugar.get_fresh]) this.1,
              GoodSym_mono (by simp [Desugar.get_fresh]) this.2⟩
          · simp only [List.mem_singleton] at h1
            subst h1
            exact ⟨Or.inr ⟨d.next_fresh, hn, by simp [Desugar.get_fresh],
              by rw [get_fresh_eq_genName, hk]⟩,
              GoodSym_mono (by simp [Desugar.get_fresh]) hlhs⟩)
      obtain ⟨hk2, hle2, hres2, hcons2, hnames2⟩ := hch
      have hle := le_trans (Nat.le_succ d.next_fresh) hle2
      refine ⟨hk2, hle, ?_, hcons2⟩
      intro fact hf s hs
      rcases List.mem_append.mp hf with h1 | h1
      · exact hres2 fact h1 s hs
      · simp only [List.mem_singleton] at h1
        subst h1
        simp only [NormFact.syms, List.mem_cons] at hs
        rcases hs with rfl | hs
        · exact Or.inr ⟨d.next_fresh, hn, lt_of_lt_of_le (Nat.lt_succ_self _) hle2,
            by rw [get_fresh_eq_genName, hk]⟩
        · exact hnames2 s hs
    case pos =>
      have hch := ssa_children_prim_range isPrim children d res cons (lhs_in :: bound)
        hk hn hvars' hres hcons
      obtain ⟨hk2, hle2, hres2, hcons2, hnames2⟩ := hch
      refine ⟨hk2, hle2, ?_, hcons2⟩
      intro fact hf s hs
      rcases List.mem_append.mp hf with h1 | h1
      · exact hres2 fact h1 s hs
      · simp only [List.mem_singleton] at h1
        subst h1
        simp only [NormFact.syms, List.mem_cons] at hs
        rcases hs with rfl | hs
        · exact GoodSym_mono hle2 hlhs
        · exact hnames2 s hs
    case neg =>
      have hch := ssa_children_fn_range isPrim children d res cons (lhs_in :: bound)
        hk hn hvars' hres hcons
      obtain ⟨hk2, hle2, hres2, hcons2, hnames2⟩ := hch
      refine ⟨hk2, hle2, ?_, hcons2⟩
      intro fact hf s hs
      rcases List.mem_append.mp hf with h1 | h1
      · exact hres2 fact h1 s hs
      · simp only [List.mem_singleton] at h1
        subst h1
        simp only [NormFact.syms, List.mem_cons] at hs
        rcases hs with rfl | hs
        · exact GoodSym_mono hle2 hlhs
        · exact hnames2 s hs

theorem ssa_children_prim_range (isPrim : Symbol → Bool) (children : List Expr) (d : Desugar)
    (res : List NormFact) (cons : List (Symbol × Symbol)) (bound : List Symbol)
    (hk : d.number_underscores = k) (hn : n0 ≤ d.next_fresh)
    (hvars : ∀ v ∈ exprVarsList children, S v)
    (hres : ∀ fact ∈ res, ∀ s ∈ fact.syms, GoodSym S k n0 d.next_fresh s)
    (hcons : ∀ p ∈ cons, GoodSym S k n0 d.next_fresh p.1 ∧ GoodSym S k n0 d.next_fresh p.2) :
    (ssa_children_prim isPrim children d res cons bound).2.1.number_underscores = k ∧
    d.next_fresh ≤ (ssa_children_prim isPrim children d res cons bound).2.1.next_fresh ∧
    (∀ fact ∈ (ssa_children_prim isPrim children d res cons bound).2.2.1, ∀ s ∈ fact.syms,
      GoodSym S k n0 (ssa_children_prim isPrim children d res cons bound).2.1.next_fresh s) ∧
    (∀ p ∈ (ssa_children_prim isPrim children d res cons bound).2.2.2.1,
      GoodSym S k n0 (ssa_children_prim isPrim children d res cons bound).2.1.next_fresh p.1 ∧
      GoodSym S k n0 (ssa_children_prim isPrim children d res cons bound).2.1.next_fresh p.2) ∧
    (∀ nm ∈ (ssa_children_prim isPrim children d res cons bound).1,
      GoodSym S k n0 (ssa_children_prim isPrim children d res cons bound).2.1.next_fresh nm) := by
  match children with
  | [] =>
    simp only [ssa_children_prim]
    exact ⟨hk, Nat.le_refl _, hres, hcons, by simp⟩
  | .Var v :: rest =>
    simp only [ssa_children_prim]
    have hvars' : ∀ w ∈ exprVarsList rest, S w := by
      intro w hw
      exact hvars w (by simp [exprVarsList, exprVars]; exact Or.inr hw)
    obtain ⟨hk2, hle2, hres2, hcons2, hnames2⟩ :=
      ssa_children_prim_range isPrim rest d res cons bound hk hn hvars' hres hcons
    refine ⟨hk2, hle2, hres2, hcons2, ?_⟩
    intro nm hnm
    rcases List.mem_cons.mp hnm with rfl | hnm
    · exact Or.inl (hvars nm (by simp [exprVarsList, exprVars]))
    · exact hnames2 nm hnm
  | .Lit l :: rest =>
    simp only [ssa_children_prim]
    have hvars1 : ∀ w ∈ exprVars (Expr.Lit l), S w := by simp [exprVars]
    have hvarsR : ∀ w ∈ exprVarsList rest, S w := by
      intro w hw
      exact hvars w (by simp [exprVarsList, exprVars]; exact hw)
    have hfst := expr_to_ssa_range isPrim d.get_fresh.1 (.Lit l) d.get_fresh.2 res cons bound
      (by simp [Desugar.get_fresh, hk]) (by simp [Desugar.get_fresh]; omega)
      (Or.inr ⟨d.next_fresh, hn, by simp [Desugar.get_fresh], by rw [get_fresh_eq_genName, hk]⟩)
      hvars1
      (fun fact hf s hs => GoodSym_mono (by simp [Desugar.get_fresh]) (hres fact hf s hs))
      (fun p hp => ⟨GoodSym_mono (by simp [Desugar.get_fresh]) (hcons p hp).1,
        GoodSym_mono (by simp [Desugar.get_fresh]) (hcons p hp).2⟩)
    obtain ⟨hk1, hle1, hres1, hcons1⟩ := hfst
    obtain ⟨hk2, hle2, hres2, hcons2, hnames2⟩ :=
      ssa_children_prim_range isPrim rest _ _ _ _ hk1
        (le_trans hn (le_trans (Nat.le_succ d.next_fresh) hle1)) hvarsR hres1 hcons1
    have hled := le_trans (Nat.le_succ d.next_fresh) (le_trans hle1 hle2)
    refine ⟨hk2, hled, hres2, hcons2, ?_⟩
    intro nm hnm
    rcases List.mem_cons.mp hnm with rfl | hnm
    · exact GoodSym_mono hle2
        (GoodSym_mono hle1
          (Or.inr ⟨d.next_fresh, hn, by simp [Desugar.get_fresh],
            by rw [get_fresh_eq_genName, hk]⟩))
    · exact hnames2 nm hnm
  | .Call g cs :: rest =>
    simp only [ssa_children_prim]
    have hvars1 : ∀ w ∈ exprVars (Expr.Call g cs), S w := by
      intro w hw
      exact hvars w (by simp [exprVarsList]; exact Or.inl hw)
    have hvarsR : ∀ w ∈ exprVarsList rest, S w := by
      intro w hw
      exact hvars w (by simp [exprVarsList]; exact Or.inr hw)
    have hfst := expr_to_ssa_range isPrim d.get_fresh.1 (.Call g cs) d.get_fresh.2 res cons bound
      (by simp [Desugar.get_fresh, hk]) (by simp [Desugar.get_fresh]; omega)
      (Or.inr ⟨d.next_fresh, hn, by simp [Desugar.get_fresh], by rw [get_fresh_eq_genName, hk]⟩)
      hvars1
      (fun fact hf s hs => GoodSym_mono (by simp [Desugar.get_fresh]) (hres fact hf s hs))
      (fun p hp => ⟨GoodSym_mono (by simp [Desugar.get_fresh]) (hcons p hp).1,
        GoodSym_mono (by simp [Desugar.get_fresh]) (hcons p hp).2⟩)
    obtain ⟨hk1, hle1, hres1, hcons1⟩ := hfst
    obtain ⟨hk2, hle2, hres2, hcons2, hnames2⟩ :=
      ssa_children_prim_range isPrim rest _ _ _ _ hk1
        (le_trans hn (le_trans (Nat.le_succ d.next_fresh) hle1)) hvarsR hres1 hcons1
    have hled := le_trans (Nat.le_succ d.next_fresh) (le_trans hle1 hle2)
    refine ⟨hk2, hled, hres2, hcons2, ?_⟩
    intro nm hnm
    rcases List.mem_cons.mp hnm with rfl | hnm
    · exact GoodSym_mono hle2
        (GoodSym_mono hle1
          (Or.inr ⟨d.next_fresh, hn, by simp [Desugar.get_fresh],
            by rw [get_fresh_eq_genName, hk]⟩))
    · exact hnames2 nm hnm

theorem ssa_children_fn_range (isPrim : Symbol → Bool) (children : List Expr) (d : Desugar)
    (res : List NormFact) (cons : List (Symbol × Symbol)) (bound : List Symbol)
    (hk : d.number_underscores = k) (hn : n0 ≤ d.next_fresh)
    (hvars : ∀ v ∈ exprVarsList children, S v)
    (hres : ∀ fact ∈ res, ∀ s ∈ fact.syms, GoodSym S k n0 d.next_fresh s)
    (hcons : ∀ p ∈ cons, GoodSym S k n0 d.next_fresh p.1 ∧ GoodSym S k n0 d.next_fresh p.2) :
    (ssa_children_fn isPrim children d res cons bound).2.1.number_underscores = k ∧
    d.next_fresh ≤ (ssa_children_fn isPrim children d res cons bound).2.1.next_fresh ∧
    (∀ fact ∈ (ssa_children_fn isPrim children d res cons bound).2.2.1, ∀ s ∈ fact.syms,
      GoodSym S k n0 (ssa_children_fn isPrim children d res cons bound).2.1.next_fresh s) ∧
    (∀ p ∈ (ssa_children_fn isPrim children d res cons bound).2.2.2.1,
      GoodSym S k n0 (ssa_children_fn isPrim children d res cons bound).2.1.next_fresh p.1 ∧
      GoodSym S k n0 (ssa_children_fn isPrim children d res cons bound).2.1.next_fresh p.2) ∧
    (∀ nm ∈ (ssa_children_fn isPrim children d res cons bound).1,
      GoodSym S k n0 (ssa_children_fn isPrim children d res cons bound).2.1.next_fresh nm) := by
  match children with
  | [] =>
    simp only [ssa_children_fn]
    exact ⟨hk, Nat.le_refl _, hres, hcons, by simp⟩
  | .Var v :: rest =>
    have hvS : S v := hvars v (by simp [exprVarsList, exprVars])
    have hvarsR : ∀ w ∈ exprVarsList rest, S w := by
      intro w hw
      exact hvars w (by simp [exprVarsList, exprVars]; exact Or.inr hw)
    by_cases hb : v ∈ bound <;>
      simp only [ssa_children_fn, hsInsert, hb, if_true, if_false, ite_true, ite_false,
        Bool.false_eq_true, Bool.true_eq_false, not_true, not_false_iff]
    · obtain ⟨hk2, hle2, hres2, hcons2, hnames2⟩ :=
        ssa_children_fn_range isPrim rest d.get_fresh.2 res
          (cons ++ [(d.get_fresh.1, v)]) bound
          (by simp [Desugar.get_fresh, hk]) (by simp [Desugar.get_fresh]; omega)
          hvarsR
          (fun fact hf s hs =>
            GoodSym_mono (by simp [Desugar.get_fresh]) (hres fact hf s hs))
          (by
            intro p hp
            rcases List.mem_append.mp hp with h1 | h1
            · exact ⟨GoodSym_mono (by simp [Desugar.get_fresh]) (hcons p h1).1,
                GoodSym_mono (by simp [Desugar.get_fresh]) (hcons p h1).2⟩
            · simp only [List.mem_singleton] at h1
              subst h1
              exact ⟨Or.inr ⟨d.next_fresh, hn, by simp [Desugar.get_fresh],
                by rw [get_fresh_eq_genName, hk]⟩, Or.inl hvS⟩)
      have hled := le_trans (Nat.le_succ d.next_fresh) hle2
      refine ⟨hk2, hled, hres2, hcons2, ?_⟩
      intro nm hnm
      rcases List.mem_cons.mp hnm with rfl | hnm
      · exact GoodSym_mono hle2
          (Or.inr ⟨d.next_fresh, hn, by simp [Desugar.get_fresh],
            by rw [get_fresh_eq_genName, hk]⟩)
      · exact hnames2 nm hnm
    · obtain ⟨hk2, hle2, hres2, hcons2, hnames2⟩ :=
        ssa_children_fn_range isPrim rest d res cons (v :: bound) hk hn hvarsR hres hcons
      refine ⟨hk2, hle2, hres2, hcons2, ?_⟩
      intro nm hnm
      rcases List.mem_cons.mp hnm with rfl | hnm
      · exact Or.inl hvS
      · exact hnames2 nm hnm
  | .Lit l :: rest =>
    simp only [ssa_children_fn, hsInsert]
    have hvars1 : ∀ w ∈ exprVars (Expr.Lit l), S w := by simp [exprVars]
    have hvarsR : ∀ w ∈ exprVarsList rest, S w := by
      intro w hw
      exact hvars w (by simp [exprVarsList, exprVars]; exact hw)
    have hfst := expr_to_ssa_range isPrim d.get_fresh.1 (.Lit l) d.get_fresh.2 res cons
      (hsInsert bound d.get_fresh.1).2
      (by simp [Desugar.get_fresh, hk]) (by simp [Desugar.get_fresh]; omega)
      (Or.inr ⟨d.next_fresh, hn, by simp [Desugar.get_fresh], by rw [get_fresh_eq_genName, hk]⟩)
      hvars1
      (fun fact hf s hs => GoodSym_mono (by simp [Desugar.get_fresh]) (hres fact hf s hs))
      (fun p hp => ⟨GoodSym_mono (by simp [Desugar.get_fresh]) (hcons p hp).1,
        GoodSym_mono (by simp [Desugar.get_fresh]) (hcons p hp).2⟩)
    obtain ⟨hk1, hle1, hres1, hcons1⟩ := hfst
    obtain ⟨hk2, hle2, hres2, hcons2, hnames2⟩ :=
      ssa_children_fn_range isPrim rest _ _ _ _ hk1
        (le_trans hn (le_trans (Nat.le_succ d.next_fresh) hle1)) hvarsR hres1 hcons1
    refine ⟨hk2, le_trans (Nat.le_succ d.next_fresh) (le_trans hle1 hle2), hres2, hcons2, ?_⟩
    intro nm hnm
    rcases List.mem_cons.mp hnm with rfl | hnm
    · exact GoodSym_mono hle2
        (GoodSym_mono hle1
          (Or.inr ⟨d.next_fresh, hn, by simp [Desugar.get_fresh],
            by rw [get_fresh_eq_genName, hk]⟩))
    · exact hnames2 nm hnm
  | .Call g cs :: rest =>
    simp only [ssa_children_fn, hsInsert]
    have hvars1 : ∀ w ∈ exprVars (Expr.Call g cs), S w := by
      intro w hw
      exact hvars w (by simp [exprVarsList]; exact Or.inl hw)
    have hvarsR : ∀ w ∈ exprVarsList rest, S w := by
      intro w hw
      exact hvars w (by simp [exprVarsList]; exact Or.inr hw)
    have hfst := expr_to_ssa_range isPrim d.get_fresh.1 (.Call g cs) d.get_fresh.2 res cons
      (hsInsert bound d.get_fresh.1).2
      (by simp [Desugar.get_fresh, hk]) (by simp [Desugar.get_fresh]; omega)
      (Or.inr ⟨d.next_fresh, hn, by simp [Desugar.get_fresh], by rw [get_fresh_eq_genName, hk]⟩)
      hvars1
      (fun fact hf s hs => GoodSym_mono (by simp [Desugar.get_fresh]) (hres fact hf s hs))
      (fun p hp => ⟨GoodSym_mono (by simp [Desugar.get_fresh]) (hcons p hp).1,
        GoodSym_mono (by simp [Desugar.get_fresh]) (hcons p hp).2⟩)
    obtain ⟨hk1, hle1, hres1, hcons1⟩ := hfst
    obtain ⟨hk2, hle2, hres2, hcons2, hnames2⟩ :=
      ssa_children_fn_range isPrim rest _ _ _ _ hk1
        (le_trans hn (le_trans (Nat.le_succ d.next_fresh) hle1)) hvarsR hres1 hcons1
    refine ⟨hk2, le_trans (Nat.le_succ d.next_fresh) (le_trans hle1 hle2), hres2, hcons2, ?_⟩
    intro nm hnm
    rcases List.mem_cons.mp hnm with rfl | hnm
    · exact GoodSym_mono hle2
        (GoodSym_mono hle1
          (Or.inr ⟨d.next_fresh, hn, by simp [Desugar.get_fresh],
            by rw [get_fresh_eq_genName, hk]⟩))
    · exact hnames2 nm hnm

end

end RangePass

theorem flatten_equalities_go_range (S : Symbol → Prop) (k n0 : Nat)
    (isPrim : Symbol → Bool) (eqs : List (Symbol × Expr)) (d : Desugar)
    (res : List NormFact) (cons : List (Symbol × Symbol)) (bound : List Symbol)
    (hk : d.number_underscores = k) (hn : n0 ≤ d.next_fresh)
    (heqs : ∀ p ∈ eqs, GoodSym S k n0 d.next_fresh p.1 ∧ ∀ v ∈ exprVars p.2, S v)
    (hres : ∀ fact ∈ res, ∀ s ∈ fact.syms, GoodSym S k n0 d.next_fresh s)
    (hcons : ∀ p ∈ cons, GoodSym S k n0 d.next_fresh p.1 ∧ GoodSym S k n0 d.next_fresh p.2) :
    (flatten_equalities_go isPrim eqs d res cons bound).1.number_underscores = k ∧
    d.next_fresh ≤ (flatten_equalities_go isPrim eqs d res cons bound).1.next_fresh ∧
    (∀ fact ∈ (flatten_equalities_go isPrim eqs d res cons bound).2.1, ∀ s ∈ fact.syms,
      GoodSym S k n0 (flatten_equalities_go isPrim eqs d res cons bound).1.next_fresh s) ∧
    (∀ p ∈ (flatten_equalities_go isPrim eqs d res cons bound).2.2.1,
      GoodSym S k n0 (flatten_equalities_go isPrim eqs d res cons bound).1.next_fresh p.1 ∧
      GoodSym S k n0 (flatten_equalities_go isPrim eqs d res cons bound).1.next_fresh p.2) := by
  match eqs with
  | [] =>
    simp only [flatten_equalities_go]
    exact ⟨hk, Nat.le_refl _, hres, hcons⟩
  | (lhs, rhs) :: rest =>
    have hlhs := (heqs (lhs, rhs) (List.mem_cons_self _ _)).1
    have hrhs : ∀ v ∈ exprVars rhs, S v := (heqs (lhs, rhs) (List.mem_cons_self _ _)).2
    have hrest0 : ∀ p ∈ rest, GoodSym S k n0 d.next_fresh p.1 ∧ ∀ v ∈ exprVars p.2, S v :=
      fun p hp => heqs p (List.mem_cons_of_mem _ hp)
    by_cases hg : lhs ∈ d.global_variables ∨ (lhs ∈ bound ∧ ¬ rhs.is_var) <;>
      simp only [flatten_equalities_go, hg, if_true, if_false, ite_true, ite_false]
    · obtain ⟨hk1, hle1, hres1, hcons1⟩ :=
        expr_to_ssa_range S k n0 isPrim d.get_fresh.1 rhs d.get_fresh.2 res cons bound
          (by simp [Desugar.get_fresh, hk]) (by simp [Desugar.get_fresh]; omega)
          (Or.inr ⟨d.next_fresh, hn, by simp [Desugar.get_fresh],
            by rw [get_fresh_eq_genName, hk]⟩)
          hrhs
          (fun fact hf s hs => GoodSym_mono (by simp [Desugar.get_fresh]) (hres fact hf s hs))
          (fun p hp => ⟨GoodSym_mono (by simp [Desugar.get_fresh]) (hcons p hp).1,
            GoodSym_mono (by simp [Desugar.get_fresh]) (hcons p hp).2⟩)
      obtain ⟨hk2, hle2, hres2, hcons2⟩ :=
        flatten_equalities_go_range S k n0 isPrim rest _ _
          (_ ++ [(d.get_fresh.1, lhs)]) _ hk1
          (le_trans hn (le_trans (Nat.le_succ d.next_fresh) hle1))
          (fun p hp => ⟨GoodSym_mono (le_trans (Nat.le_succ d.next_fresh) hle1) (hrest0 p hp).1,
            (hrest0 p hp).2⟩)
          hres1
          (by
            intro p hp
            rcases List.mem_append.mp hp with h1 | h1
            · exact hcons1 p h1
            · simp only [List.mem_singleton] at h1
              subst h1
              exact ⟨GoodSym_mono hle1
                  (Or.inr ⟨d.next_fresh, hn, by simp [Desugar.get_fresh],
                    by rw [get_fresh_eq_genName, hk]⟩),
                GoodSym_mono (le_trans (Nat.le_succ d.next_fresh) hle1) hlhs⟩)
      exact ⟨hk2, le_trans (Nat.le_succ d.next_fresh) (le_trans hle1 hle2), hres2, hcons2⟩
    · obtain ⟨hk1, hle1, hres1, hcons1⟩ :=
        expr_to_ssa_range S k n0 isPrim lhs rhs d res cons bound hk hn hlhs hrhs hres hcons
      obtain ⟨hk2, hle2, hres2, hcons2⟩ :=
        flatten_equalities_go_range S k n0 isPrim rest _ _ _ _ hk1
          (le_trans hn hle1)
          (fun p hp => ⟨GoodSym_mono hle1 (hrest0 p hp).1, (hrest0 p hp).2⟩)
          hres1 hcons1
      exact ⟨hk2, le_trans hle1 hle2, hres2, hcons2⟩

theorem flatten_equalities_range (S : Symbol → Prop) (k n0 : Nat)
    (isPrim : Symbol → Bool) (eqs : List (Symbol × Expr)) (d : Desugar)
    (hk : d.number_underscores = k) (hn : n0 ≤ d.next_fresh)
    (heqs : ∀ p ∈ eqs, GoodSym S k n0 d.next_fresh p.1 ∧ ∀ v ∈ exprVars p.2, S v) :
    (flatten_equalities isPrim eqs d).2.number_underscores = k ∧
    d.next_fresh ≤ (flatten_equalities isPrim eqs d).2.next_fresh ∧
    ∀ fact ∈ (flatten_equalities isPrim eqs d).1, ∀ s ∈ fact.syms,
      GoodSym S k n0 (flatten_equalities isPrim eqs d).2.next_fresh s := by
  obtain ⟨hk1, hle1, hres1, hcons1⟩ :=
    flatten_equalities_go_range S k n0 isPrim eqs d [] [] [] hk hn heqs
      (by simp) (by simp)
  refine ⟨hk1, hle1, ?_⟩
  show ∀ fact ∈ _ ++ _, _
  intro fact hf s hs
  rcases List.mem_append.mp hf with h1 | h1
  · exact hres1 fact h1 s hs
  · rcases List.mem_map.mp h1 with ⟨p, hp, hpf⟩
    subst hpf
    simp only [NormFact.syms, List.mem_cons, List.mem_singleton] at hs
    rcases hs with rfl | rfl | hfalse
    · exact (hcons1 p hp).1
    · exact (hcons1 p hp).2
    · exact absurd hfalse (by simp)

theorem facts_to_equalities_range (S : Symbol → Prop) (k n0 : Nat)
    (facts : List Fact) (d : Desugar) (eqs : List (Symbol × Expr)) (d1 : Desugar)
    (heq : facts_to_equalities facts d = some (eqs, d1))
    (hk : d.number_underscores = k) (hn : n0 ≤ d.next_fresh)
    (hvars : ∀ v ∈ factsVars facts, S v) :
    d1.number_underscores = k ∧ d.next_fresh ≤ d1.next_fresh ∧
    ∀ p ∈ eqs, GoodSym S k n0 d1.next_fresh p.1 ∧ ∀ v ∈ exprVars p.2, S v := by
  induction facts generalizing d eqs with
  | nil =>
    simp only [facts_to_equalities, Option.some.injEq] at heq
    obtain ⟨h1, h2⟩ := Prod.mk.injEq .. ▸ heq
    subst h1
    subst h2
    exact ⟨hk, Nat.le_refl _, by simp⟩
  | cons f rest ih =>
    match f with
    | .Fact e =>
      simp only [facts_to_equalities] at heq
      match hr : facts_to_equalities rest d.get_fresh.2 with
      | none => rw [hr] at heq; exact absurd heq (by simp)
      | some (eqs', d1') =>
        rw [hr] at heq
        simp only [Option.map_some', Option.some.injEq] at heq
        obtain ⟨h1, h2⟩ := Prod.mk.injEq .. ▸ heq
        subst h1
        subst h2
        have hvars' : ∀ v ∈ factsVars rest, S v := by
          intro v hv
          exact hvars v (by simp [factsVars, factVars]; exact Or.inr hv)
        obtain ⟨hk2, hle2, heqs2⟩ := ih d.get_fresh.2 eqs' hr
          (by simp [Desugar.get_fresh, hk]) (by simp [Desugar.get_fresh]; omega) hvars'
        refine ⟨hk2, le_trans (Nat.le_succ d.next_fresh) hle2, ?_⟩
        intro p hp
        rcases List.mem_cons.mp hp with rfl | hp
        · refine ⟨Or.inr ⟨d.next_fresh, hn, lt_of_lt_of_le (Nat.lt_succ_self _) hle2,
            by rw [get_fresh_eq_genName, hk]⟩, ?_⟩
          intro v hv
          exact hvars v (by simp [factsVars, factVars]; exact Or.inl hv)
        · exact heqs2 p hp
    | .Eq args =>
      match args with
      | [] => exact absurd heq (by simp [facts_to_equalities])
      | [a] => exact absurd heq (by simp [facts_to_equalities])
      | a :: b :: c :: restArgs => exact absurd heq (by simp [facts_to_equalities])
      | [lhs, rhs] =>
        have hvars' : ∀ v ∈ factsVars rest, S v := by
          intro v hv
          exact hvars v (by simp [factsVars]; exact Or.inr hv)
        have hlv : ∀ v ∈ exprVars lhs, S v := by
          intro v hv
          exact hvars v (by simp [factsVars, factVars, exprVarsList]; tauto)
        have hrv : ∀ v ∈ exprVars rhs, S v := by
          intro v hv
          exact hvars v (by simp [factsVars, factVars, exprVarsList]; tauto)
        match lhs, rhs with
        | .Var v, rhs =>
          simp only [facts_to_equalities] at heq
          match hr : facts_to_equalities rest d with
          | none => rw [hr] at heq; exact absurd heq (by simp)
          | some (eqs', d1') =>
            rw [hr] at heq
            simp only [Option.map_some', Option.some.injEq] at heq
            obtain ⟨h1, h2⟩ := Prod.mk.injEq .. ▸ heq
            subst h1
            subst h2
            obtain ⟨hk2, hle2, heqs2⟩ := ih d eqs' hr hk hn hvars'
            refine ⟨hk2, hle2, ?_⟩
            intro p hp
            rcases List.mem_cons.mp hp with rfl | hp
            · exact ⟨Or.inl (hlv v (by simp [exprVars])), hrv⟩
            · exact heqs2 p hp
        | .Lit l, .Var v =>
          simp only [facts_to_equalities] at heq
          match hr : facts_to_equalities rest d with
          | none => rw [hr] at heq; exact absurd heq (by simp)
          | some (eqs', d1') =>
            rw [hr] at heq
            simp only [Option.map_some', Option.some.injEq] at heq
            obtain ⟨h1, h2⟩ := Prod.mk.injEq .. ▸ heq
            subst h1
            subst h2
            obtain ⟨hk2, hle2, heqs2⟩ := ih d eqs' hr hk hn hvars'
            refine ⟨hk2, hle2, ?_⟩
            intro p hp
            rcases List.mem_cons.mp hp with rfl | hp
            · exact ⟨Or.inl (hrv v (by simp [exprVars])), hlv⟩
            · exact heqs2 p hp
        | .Call g cs, .Var v =>
          simp only [facts_to_equalities] at heq
          match hr : facts_to_equalities rest d with
          | none => rw [hr] at heq; exact absurd heq (by simp)
          | some (eqs', d1') =>
            rw [hr] at heq
            simp only [Option.map_some', Option.some.injEq] at heq
            obtain ⟨h1, h2⟩ := Prod.mk.injEq .. ▸ heq
            subst h1
            subst h2
            obtain ⟨hk2, hle2, heqs2⟩ := ih d eqs' hr hk hn hvars'
            refine ⟨hk2, hle2, ?_⟩
            intro p hp
            rcases List.mem_cons.mp hp with rfl | hp
            · exact ⟨Or.inl (hrv v (by simp [exprVars])), hlv⟩
            · exact heqs2 p hp
        | .Lit l1, .Lit l2 =>
          simp only [facts_to_equalities] at heq
          match hr : facts_to_equalities rest d.get_fresh.2 with
          | none => rw [hr] at heq; exact absurd heq (by simp)
          | some (eqs', d1') =>
            rw [hr] at heq
            simp only [Option.map_some', Option.some.injEq] at heq
            obtain ⟨h1, h2⟩ := Prod.mk.injEq .. ▸ heq
            subst h1
            subst h2
            obtain ⟨hk2, hle2, heqs2⟩ := ih d.get_fresh.2 eqs' hr
              (by simp [Desugar.get_fresh, hk]) (by simp [Desugar.get_fresh]; omega) hvars'
            have hfreshGood : GoodSym S k n0 d1'.next_fresh d.get_fresh.1 :=
              Or.inr ⟨d.next_fresh, hn, lt_of_lt_of_le (Nat.lt_succ_self _) hle2,
                by rw [get_fresh_eq_genName, hk]⟩
            refine ⟨hk2, le_trans (Nat.le_succ d.next_fresh) hle2, ?_⟩
            intro p hp
            rcases List.mem_cons.mp hp with rfl | hp
            · exact ⟨hfreshGood, hlv⟩
            rcases List.mem_cons.mp hp with rfl | hp
            · exact ⟨hfreshGood, hrv⟩
            · exact heqs2 p hp
        | .Lit l1, .Call g2 cs2 =>
          simp only [facts_to_equalities] at heq
          match hr : facts_to_equalities rest d.get_fresh.2 with
          | none => rw [hr] at heq; exact absurd heq (by simp)
          | some (eqs', d1') =>
            rw [hr] at heq
            simp only [Option.map_some', Option.some.injEq] at heq
            obtain ⟨h1, h2⟩ := Prod.mk.injEq .. ▸ heq
            subst h1
            subst h2
            obtain ⟨hk2, hle2, heqs2⟩ := ih d.get_fresh.2 eqs' hr
              (by simp [Desugar.get_fresh, hk]) (by simp [Desugar.get_fresh]; omega) hvars'
            have hfreshGood : GoodSym S k n0 d1'.next_fresh d.get_fresh.1 :=
              Or.inr ⟨d.next_fresh, hn, lt_of_lt_of_le (Nat.lt_succ_self _) hle2,
                by rw [get_fresh_eq_genName, hk]⟩
            refine ⟨hk2, le_trans (Nat.le_succ d.next_fresh) hle2, ?_⟩
            intro p hp
            rcases List.mem_cons.mp hp with rfl | hp
            · exact ⟨hfreshGood, hlv⟩
            rcases List.mem_cons.mp hp with rfl | hp
            · exact ⟨hfreshGood, hrv⟩
            · exact heqs2 p hp
        | .Call g1 cs1, .Lit l2 =>
          simp only [facts_to_equalities] at heq
          match hr : facts_to_equalities rest d.get_fresh.2 with
          | none => rw [hr] at heq; exact absurd heq (by simp)
          | some (eqs', d1') =>
            rw [hr] at heq
            simp only [Option.map_some', Option.some.injEq] at heq
            obtain ⟨h1, h2⟩ := Prod.mk.injEq .. ▸ heq
            subst h1
            subst h2
            obtain ⟨hk2, hle2, heqs2⟩ := ih d.get_fresh.2 eqs' hr
              (by simp [Desugar.get_fresh, hk]) (by simp [Desugar.get_fresh]; omega) hvars'
            have hfreshGood : GoodSym S k n0 d1'.next_fresh d.get_fresh.1 :=
              Or.inr ⟨d.next_fresh, hn, lt_of_lt_of_le (Nat.lt_succ_self _) hle2,
                by rw [get_fresh_eq_genName, hk]⟩
            refine ⟨hk2, le_trans (Nat.le_succ d.next_fresh) hle2, ?_⟩
            intro p hp
            rcases List.mem_cons.mp hp with rfl | hp
            · exact ⟨hfreshGood, hlv⟩
            rcases List.mem_cons.mp hp with rfl | hp
            · exact ⟨hfreshGood, hrv⟩
            · exact heqs2 p hp
        | .Call g1 cs1, .Call g2 cs2 =>
          simp only [facts_to_equalities] at heq
          match hr : facts_to_equalities rest d.get_fresh.2 with
          | none => rw [hr] at heq; exact absurd heq (by simp)
          | some (eqs', d1') =>
            rw [hr] at heq
            simp only [Option.map_some', Option.some.injEq] at heq
            obtain ⟨h1, h2⟩ := Prod.mk.injEq .. ▸ heq
            subst h1
            subst h2
            obtain ⟨hk2, hle2, heqs2⟩ := ih d.get_fresh.2 eqs' hr
              (by simp [Desugar.get_fresh, hk]) (by simp [Desugar.get_fresh]; omega) hvars'
            have hfreshGood : GoodSym S k n0 d1'.next_fresh d.get_fresh.1 :=
              Or.inr ⟨d.next_fresh, hn, lt_of_lt_of_le (Nat.lt_succ_self _) hle2,
                by rw [get_fresh_eq_genName, hk]⟩
            refine ⟨hk2, le_trans (Nat.le_succ d.next_fresh) hle2, ?_⟩
            intro p hp
            rcases List.mem_cons.mp hp with rfl | hp
            · exact ⟨hfreshGood, hlv⟩
            rcases List.mem_cons.mp hp with rfl | hp
            · exact ⟨hfreshGood, hrv⟩
            · exact heqs2 p hp

theorem flatten_facts_range (isPrim : Symbol → Bool) (facts : List Fact) (d : Desugar)
    (out : List NormFact) (d2 : Desugar)
    (heq : flatten_facts isPrim facts d = some (out, d2)) :
    d2.number_underscores = d.number_underscores ∧ d.next_fresh ≤ d2.next_fresh ∧
    ∀ fact ∈ out, ∀ s ∈ fact.syms,
      GoodSym (fun v => v ∈ factsVars facts) d.number_underscores d.next_fresh
        d2.next_fresh s := by
  unfold flatten_facts at heq
  match hr : facts_to_equalities facts d with
  | none => rw [hr] at heq; exact absurd heq (by simp)
  | some (eqs, d1) =>
    rw [hr] at heq
    simp only [Option.map_some', Option.some.injEq] at heq
    obtain ⟨hk1, hle1, heqs1⟩ :=
      facts_to_equalities_range (fun v => v ∈ factsVars facts) d.number_underscores
        d.next_fresh facts d eqs d1 hr rfl (Nat.le_refl _) (fun v hv => hv)
    obtain ⟨hk2, hle2, hsyms2⟩ :=
      flatten_equalities_range (fun v => v ∈ factsVars facts) d.number_underscores
        d.next_fresh isPrim eqs d1 hk1 (le_trans (Nat.le_refl _) hle1) heqs1
    have hout : out = (flatten_equalities isPrim eqs d1).1 := by rw [heq]
    have hd2 : d2 = (flatten_equalities isPrim eqs d1).2 := by rw [heq]
    rw [hout, hd2]
    exact ⟨hk2, le_trans hle1 hle2, hsyms2⟩

/-- The single defining-position symbol of a normalized fact. -/
def NormFact.defSym : NormFact → Symbol
  | .Assign lhs _ => lhs
  | .Compute lhs _ => lhs
  | .AssignLit lhs _ => lhs
  | .ConstrainEq a _ => a

/-- Replace the defining-position symbol of a normalized fact. -/
def NormFact.withDef : NormFact → Symbol → NormFact
  | .Assign _ e, x => .Assign x e
  | .Compute _ e, x => .Compute x e
  | .AssignLit _ l, x => .AssignLit x l
  | .ConstrainEq _ b, x => .ConstrainEq x b

theorem map_def_use_gunStep_eq (fact : NormFact) (s : GUNState) :
    fact.map_def_use gunStep s =
      (fact.withDef (gunStep fact.defSym true s).1, (gunStep fact.defSym true s).2) := by
  match fact with
  | .Assign lhs (.Call g args) => rw [map_def_use_assign]; rfl
  | .Compute lhs (.Call g args) => rw [map_def_use_compute]; rfl
  | .AssignLit lhs l => rw [map_def_use_assignLit]; rfl
  | .ConstrainEq a b => rw [map_def_use_constrainEq]; rfl

theorem defsACA_withDef (fact : NormFact) (x : Symbol) :
    (fact.withDef x).defsACA = [] ∨ (fact.withDef x).defsACA = [x] := by
  match fact with
  | .Assign _ _ => exact Or.inr rfl
  | .Compute _ _ => exact Or.inr rfl
  | .AssignLit _ _ => exact Or.inr rfl
  | .ConstrainEq _ _ => exact Or.inl rfl

/-- A symbol that is not any generated name with counter at least `nstart`. -/
def AvoidGen (k nstart : Nat) (s : Symbol) : Prop :=
  ∀ m, nstart ≤ m → s ≠ genName k m

theorem nodup_snoc {l : List Symbol} {x : Symbol} (h1 : l.Nodup) (h2 : x ∉ l) :
    (l ++ [x]).Nodup := by
  simp [List.nodup_append, h1, h2]

theorem gun_go_defs_nodup (k nstart : Nat) (facts : List NormFact) (d : Desugar)
    (name_used : List Symbol) (cons_after res : List NormFact)
    (hk : d.number_underscores = k) (hn : nstart ≤ d.next_fresh)
    (hfacts : ∀ fact ∈ facts, AvoidGen k nstart fact.defSym)
    (hnu : ∀ s ∈ name_used, AvoidGen k nstart s)
    (hres1 : (bodyDefs res).Nodup)
    (hres2 : ∀ s ∈ bodyDefs res,
      s ∈ name_used ∨ ∃ m, nstart ≤ m ∧ m < d.next_fresh ∧ s = genName k m)
    (hca : bodyDefs cons_after = []) :
    (bodyDefs (give_unique_names_go d name_used cons_after res facts).1).Nodup := by
  match facts with
  | [] =>
    simp only [give_unique_names_go]
    rw [bodyDefs_append, hca, List.append_nil]
    exact hres1
  | fact :: rest =>
    simp only [give_unique_names_go, map_def_use_gunStep_eq]
    by_cases hu : fact.defSym ∈ name_used
    · simp only [gunStep, hu, if_true, ite_true, List.mem_nil_iff, if_false, ite_false,
        List.nil_append, List.append_nil]
      apply gun_go_defs_nodup k nstart rest d.get_fresh.2 name_used cons_after _
        (by simp [Desugar.get_fresh, hk]) (le_trans hn (Nat.le_succ _))
        (fun f hf => hfacts f (List.mem_cons_of_mem _ hf)) hnu ?_ ?_ hca
      · rw [bodyDefs_append, bodyDefs_append]
        have hce : bodyDefs [NormFact.ConstrainEq d.get_fresh.1 fact.defSym] = [] := rfl
        rw [hce, List.append_nil]
        rcases defsACA_withDef fact d.get_fresh.1 with hw | hw
        · rw [show bodyDefs [fact.withDef d.get_fresh.1] = (fact.withDef d.get_fresh.1).defsACA ++ [] from rfl,
            hw]
          simpa using hres1
        · rw [show bodyDefs [fact.withDef d.get_fresh.1] = (fact.withDef d.get_fresh.1).defsACA ++ [] from rfl,
            hw]
          simp only [List.append_nil]
          apply nodup_snoc hres1
          intro hmem
          rcases hres2 _ hmem with h1 | ⟨m, hm1, hm2, hm3⟩
          · exact hnu _ h1 d.next_fresh hn (by rw [get_fresh_eq_genName, hk])
          · have : genName k m = genName k d.next_fresh := by
              rw [← hm3, get_fresh_eq_genName, hk]
            have := genName_injective k this
            omega
      · intro s hs
        rw [bodyDefs_append, bodyDefs_append] at hs
        have hce : bodyDefs [NormFact.ConstrainEq d.get_fresh.1 fact.defSym] = [] := rfl
        rw [hce, List.append_nil] at hs
        rcases List.mem_append.mp hs with h1 | h1
        · rcases hres2 s h1 with h2 | ⟨m, hm1, hm2, hm3⟩
          · exact Or.inl h2
          · exact Or.inr ⟨m, hm1, by simp [Desugar.get_fresh]; omega, hm3⟩
        · rcases defsACA_withDef fact d.get_fresh.1 with hw | hw
          · rw [show bodyDefs [fact.withDef d.get_fresh.1] = (fact.withDef d.get_fresh.1).defsACA ++ [] from rfl,
              hw] at h1
            exact absurd h1 (by simp)
          · rw [show bodyDefs [fact.withDef d.get_fresh.1] = (fact.withDef d.get_fresh.1).defsACA ++ [] from rfl,
              hw] at h1
            simp only [List.append_nil, List.mem_singleton] at h1
            subst h1
            exact Or.inr ⟨d.next_fresh, hn, by simp [Desugar.get_fresh],
              by rw [get_fresh_eq_genName, hk]⟩
    · simp only [gunStep, hu, if_true, ite_true, if_false, ite_false, List.nil_append,
        List.append_nil]
      apply gun_go_defs_nodup k nstart rest d (fact.defSym :: name_used) cons_after _
        hk hn (fun f hf => hfacts f (List.mem_cons_of_mem _ hf)) ?_ ?_ ?_ hca
      · intro s hs
        rcases List.mem_cons.mp hs with rfl | hs
        · exact hfacts fact (List.mem_cons_self _ _)
        · exact hnu s hs
      · rw [bodyDefs_append]
        rcases defsACA_withDef fact fact.defSym with hw | hw
        · rw [show bodyDefs [fact.withDef fact.defSym] = (fact.withDef fact.defSym).defsACA ++ [] from rfl,
            hw]
          simpa using hres1
        · rw [show bodyDefs [fact.withDef fact.defSym] = (fact.withDef fact.defSym).defsACA ++ [] from rfl,
            hw]
          simp only [List.append_nil]
          apply nodup_snoc hres1
          intro hmem
          rcases hres2 _ hmem with h1 | ⟨m, hm1, hm2, hm3⟩
          · exact hu h1
          · exact hfacts fact (List.mem_cons_self _ _) m hm1 hm3
      · intro s hs
        rw [bodyDefs_append] at hs
        rcases List.mem_append.mp hs with h1 | h1
        · rcases hres2 s h1 with h2 | h2
          · exact Or.inl (List.mem_cons_of_mem _ h2)
          · exact Or.inr h2
        · rcases defsACA_withDef fact fact.defSym with hw | hw
          · rw [show bodyDefs [fact.withDef fact.defSym] = (fact.withDef fact.defSym).defsACA ++ [] from rfl,
              hw] at h1
            exact absurd h1 (by simp)
          · rw [show bodyDefs [fact.withDef fact.defSym] = (fact.withDef fact.defSym).defsACA ++ [] from rfl,
              hw] at h1
            simp only [List.append_nil, List.mem_singleton] at h1
            subst h1
            exact Or.inl (List.mem_cons_self _ _)

theorem give_unique_names_defs_nodup (facts : List NormFact) (d : Desugar)
    (hfacts : ∀ fact ∈ facts, AvoidGen d.number_underscores d.next_fresh fact.defSym) :
    (bodyDefs (give_unique_names d facts).1).Nodup :=
  gun_go_defs_nodup d.number_underscores d.next_fresh facts d [] [] [] rfl
    (Nat.le_refl _) hfacts (by simp) (by simp [bodyDefs]) (by simp [bodyDefs]) rfl

theorem defSym_mem_syms (fact : NormFact) : fact.defSym ∈ fact.syms := by
  match fact with
  | .Assign lhs (.Call g args) => simp [NormFact.defSym, NormFact.syms]
  | .Compute lhs (.Call g args) => simp [NormFact.defSym, NormFact.syms]
  | .AssignLit lhs l => simp [NormFact.defSym, NormFact.syms]
  | .ConstrainEq a b => simp [NormFact.defSym, NormFact.syms]

theorem ne_genName_of_length_lt {s : Symbol} {k m : Nat} (h : s.length < 2 + k) :
    s ≠ genName k m := by
  intro hc
  have := genName_length_ge k m
  rw [← hc] at this
  omega

/-- Claim C1 counterexample: flattening the rule whose body equates `x` with
both `(f y)` and `(g y)` produces a body in which the generated symbol
`v2___` occurs twice in defining position — once as the first argument of the
`ConstrainEq` emitted by the unique-name pass and once as the renamed defining
occurrence it introduces — so the claim's multiset of defining occurrences
(which counts the first argument of `ConstrainEq`) has a duplicate. -/
theorem claim_c1_counterexample :
    flatten_rule (fun _ => false)
        { body := [Fact.Eq [Expr.Var "x", Expr.Call "f" [Expr.Var "y"]],
                   Fact.Eq [Expr.Var "x", Expr.Call "g" [Expr.Var "y"]]],
          head := [] } Desugar.default =
      some ({ head := [],
              body := [NormFact.Assign "x" (NormExpr.Call "f" ["y"]),
                       NormFact.Assign "v0___" (NormExpr.Call "g" ["v1___"]),
                       NormFact.ConstrainEq "v1___" "y",
                       NormFact.ConstrainEq "v2___" "v0___",
                       NormFact.ConstrainEq "v2___" "x"] },
            { next_fresh := 3, next_command_id := 0, number_underscores := 3,
              global_variables := [] }) ∧
    ¬ (bodyDefsClaim
        [NormFact.Assign "x" (NormExpr.Call "f" ["y"]),
         NormFact.Assign "v0___" (NormExpr.Call "g" ["v1___"]),
         NormFact.ConstrainEq "v1___" "y",
         NormFact.ConstrainEq "v2___" "v0___",
         NormFact.ConstrainEq "v2___" "x"]).Nodup := by
  constructor
  · rfl
  · decide

/-- Claim C1 (amended): in the body of every `NormRule` produced by rule
flattening, no symbol occurs twice in defining position when the defining
positions are the lhs of `Assign`, `Compute` and `AssignLit`; the first
argument of a `ConstrainEq` emitted by the unique-name pass deliberately
repeats the renamed defining occurrence and must be excluded.  The hypothesis
is the generated-name convention: no variable of the input rule body has the
shape of a name the generator can still produce. -/
theorem claim_c1_amended (isPrim : Symbol → Bool) (rule : Rule) (d : Desugar)
    (nr : NormRule) (d' : Desugar)
    (heq : flatten_rule isPrim rule d = some (nr, d'))
    (havoid : ∀ s ∈ factsVars rule.body, ∀ m, d.next_fresh ≤ m →
      s ≠ genName d.number_underscores m) :
    (bodyDefs nr.body).Nodup := by
  unfold flatten_rule at heq
  match h1 : flatten_facts isPrim rule.body d with
  | none => rw [h1] at heq; exact absurd heq (by simp)
  | some (flat, d1) =>
    rw [h1] at heq
    simp only at heq
    match h2 : flatten_actions rule.head (give_unique_names d1 flat).2 with
    | none => rw [h2] at heq; exact absurd heq (by simp)
    | some (head, d2) =>
      rw [h2] at heq
      simp only [Option.some.injEq] at heq
      cases heq
      apply give_unique_names_defs_nodup flat d1
      intro fact hf
      obtain ⟨hk1, hle1, hsyms⟩ := flatten_facts_range isPrim rule.body d flat d1 h1
      have hgood := hsyms fact hf fact.defSym (defSym_mem_syms fact)
      intro m hm heqn
      rw [hk1] at heqn
      rcases hgood with hS | ⟨m0, hm0a, hm0b, hm0c⟩
      · exact havoid _ hS m (le_trans hle1 hm) heqn
      · rw [hm0c] at heqn
        have := genName_injective _ heqn
        omega

theorem claim_c1_amended_witness :
    (bodyDefs [NormFact.Assign "x" (NormExpr.Call "f" ["y"])]).Nodup :=
  claim_c1_amended (fun _ => false)
    { body := [Fact.Eq [Expr.Var "x", Expr.Call "f" [Expr.Var "y"]]], head := [] }
    Desugar.default
    { head := [], body := [NormFact.Assign "x" (NormExpr.Call "f" ["y"])] }
    Desugar.default rfl
    (by
      intro s hs m hm
      have hs' : s = "x" ∨ s = "y" := by
        simpa [factsVars, factVars, exprVarsList, exprVars] using hs
      rcases hs' with rfl | rfl
      · exact ne_genName_of_length_lt (by decide)
      · exact ne_genName_of_length_lt (by decide))

/-! ### Claim C2: desugaring of `Rewrite` -/

/-- The construction claim C2 describes, in the spec's words: the body is
`Eq(v, lhs)` followed by the conditions, the head is `Union(v, rhs)`, where
`v` is a fresh variable obtained from the generator.  (The code instead uses
the fixed symbol `rewrite_var__`; this definition exists to be compared with
`desugar_rewrite`.) -/
def desugar_rewrite_claimed (isPrim : Symbol → Bool) (ruleset : Symbol) (name : Symbol)
    (rw : Rewrite) (d : Desugar) : Option (List NCommand × Desugar) :=
  let (v, d) := d.get_fresh
  (flatten_rule isPrim
      { body := Fact.Eq [Expr.Var v, rw.lhs] :: rw.conditions,
        head := [Action.Union (Expr.Var v) rw.rhs] } d).map
    fun (rule, d) => ([NCommand.NormRule ruleset name rule], d)

/-- Claim C2 counterexample: on the rewrite `f() => g()` the rule actually
produced binds the fixed symbol `rewrite_var__`, not a fresh variable from the
generator; the claimed construction with a fresh `v` yields a different rule. -/
theorem claim_c2_counterexample :
    desugar_rewrite (fun _ => false) "rs" "nm"
        { lhs := Expr.Call "f" [], rhs := Expr.Call "g" [], conditions := [] }
        Desugar.default =
      some ([NCommand.NormRule "rs" "nm"
        { head := [NormAction.Let "v0___" (NormExpr.Call "g" []),
                   NormAction.Union "rewrite_var__" "v0___"],
          body := [NormFact.Assign "rewrite_var__" (NormExpr.Call "f" [])] }],
        { next_fresh := 1, next_command_id := 0, number_underscores := 3,
          global_variables := [] }) ∧
    desugar_rewrite_claimed (fun _ => false) "rs" "nm"
        { lhs := Expr.Call "f" [], rhs := Expr.Call "g" [], conditions := [] }
        Desugar.default =
      some ([NCommand.NormRule "rs" "nm"
        { head := [NormAction.Let "v1___" (NormExpr.Call "g" []),
                   NormAction.Union "v0___" "v1___"],
          body := [NormFact.Assign "v0___" (NormExpr.Call "f" [])] }],
        { next_fresh := 2, next_command_id := 0, number_underscores := 3,
          global_variables := [] }) ∧
    ({ head := [NormAction.Let "v0___" (NormExpr.Call "g" []),
                NormAction.Union "rewrite_var__" "v0___"],
       body := [NormFact.Assign "rewrite_var__" (NormExpr.Call "f" [])] } : NormRule) ≠
      { head := [NormAction.Let "v1___" (NormExpr.Call "g" []),
                 NormAction.Union "v0___" "v1___"],
        body := [NormFact.Assign "v0___" (NormExpr.Call "f" [])] } := by
  refine ⟨rfl, rfl, by decide⟩

/-- Claim C2 (amended): desugaring `Rewrite(ruleset, rw)` yields exactly one
normalized rule command; its rule is the flattening of the rule whose body is
`Eq(v, rw.lhs)` followed by `rw.conditions` and whose head is the single
action `Union(v, rw.rhs)`, where `v` is the fixed symbol `rewrite_var__`
(shared by all rewrites, not a fresh variable); and the rule is named with the
printed form of the rewrite with every double-quote replaced by a
single-quote (`rewrite_name`). -/
theorem claim_c2_amended (isPrim : Symbol → Bool) (ruleset : Symbol) (rw : Rewrite)
    (d : Desugar) (gap sem : Bool) :
    desugar_command isPrim (Command.Rewrite ruleset rw) d gap sem =
      (flatten_rule isPrim
          { body := Fact.Eq [Expr.Var "rewrite_var__", rw.lhs] :: rw.conditions,
            head := [Action.Union (Expr.Var "rewrite_var__") rw.rhs] } d).map
        (fun p =>
          ([{ metadata := { id := p.2.next_command_id },
              command := NCommand.NormRule ruleset (rewrite_name rw) p.1 }],
           { p.2 with next_command_id := p.2.next_command_id + 1 })) := by
  rcases h : flatten_rule isPrim
      { body := Fact.Eq [Expr.Var "rewrite_var__", rw.lhs] :: rw.conditions,
        head := [Action.Union (Expr.Var "rewrite_var__") rw.rhs] } d with _ | ⟨rule, d2⟩ <;>
    simp [desugar_command, desugar_command_aux, desugar_rewrite, h, assign_ids,
      Desugar.get_new_id]

/-! ### Claim C6: the seminaive transformer -/

theorem sng_props (head : List Action) (d : Desugar) :
    ((semi_naive_go head d).2.2.1 = true ↔
      ∃ a ∈ head, ∃ f args g cs, a = Action.Set f args (Expr.Call g cs)) ∧
    (∀ x e, Action.Let x e ∈ head →
      Fact.Eq [Expr.Var x, e] ∈ (semi_naive_go head d).2.1) ∧
    (∀ f args g cs, Action.Set f args (Expr.Call g cs) ∈ head →
      ∃ v, Action.Set f args (Expr.Var v) ∈ (semi_naive_go head d).1 ∧
        Fact.Eq [Expr.Var v, Expr.Call g cs] ∈ (semi_naive_go head d).2.1) := by
  induction head generalizing d with
  | nil => simp [semi_naive_go]
  | cons a rest ih =>
    match a with
    | .Set f args (.Call g cs) =>
      rcases hr : semi_naive_go rest d.get_fresh.2 with ⟨rh, ra, rf, d2⟩
      have ihr := ih d.get_fresh.2
      rw [hr] at ihr
      simp only [semi_naive_go, hr]
      refine ⟨?_, ?_, ?_⟩
      · simp only [true_iff]
        exact ⟨Action.Set f args (Expr.Call g cs), List.mem_cons_self _ _,
          f, args, g, cs, rfl⟩
      · intro x e hx
        rcases List.mem_cons.mp hx with hx | hx
        · exact absurd hx (by intro hc; cases hc)
        · exact List.mem_cons_of_mem _ (ihr.2.1 x e hx)
      · intro f' args' g' cs' hmem
        rcases List.mem_cons.mp hmem with hmem | hmem
        · cases hmem
          exact ⟨d.get_fresh.1, List.mem_cons_self _ _, List.mem_cons_self _ _⟩
        · obtain ⟨v, hv1, hv2⟩ := ihr.2.2 f' args' g' cs' hmem
          exact ⟨v, List.mem_cons_of_mem _ hv1, List.mem_cons_of_mem _ hv2⟩
    | .Set f args (.Var w) =>
      rcases hr : semi_naive_go rest d with ⟨rh, ra, rf, d2⟩
      have ihr := ih d
      rw [hr] at ihr
      simp only [semi_naive_go, hr]
      refine ⟨?_, ?_, ?_⟩
      · rw [ihr.1]
        constructor
        · intro ⟨a, ha, hspec⟩
          exact ⟨a, List.mem_cons_of_mem _ ha, hspec⟩
        · intro ⟨a, ha, f', args', g', cs', hspec⟩
          rcases List.mem_cons.mp ha with ha | ha
          · subst ha; cases hspec
          · exact ⟨a, ha, f', args', g', cs', hspec⟩
      · intro x e hx
        rcases List.mem_cons.mp hx with hx | hx
        · exact absurd hx (by intro hc; cases hc)
        · exact ihr.2.1 x e hx
      · intro f' args' g' cs' hmem
        rcases List.mem_cons.mp hmem with hmem | hmem
        · cases hmem
        · obtain ⟨v, hv1, hv2⟩ := ihr.2.2 f' args' g' cs' hmem
          exact ⟨v, List.mem_cons_of_mem _ hv1, hv2⟩
    | .Set f args (.Lit l) =>
      rcases hr : semi_naive_go rest d with ⟨rh, ra, rf, d2⟩
      have ihr := ih d
      rw [hr] at ihr
      simp only [semi_naive_go, hr]
      refine ⟨?_, ?_, ?_⟩
      · rw [ihr.1]
        constructor
        · intro ⟨a, ha, hspec⟩
          exact ⟨a, List.mem_cons_of_mem _ ha, hspec⟩
        · intro ⟨a, ha, f', args', g', cs', hspec⟩
          rcases List.mem_cons.mp ha with ha | ha
          · subst ha; cases hspec
          · exact ⟨a, ha, f', args', g', cs', hspec⟩
      · intro x e hx
        rcases List.mem_cons.mp hx with hx | hx
        · exact absurd hx (by intro hc; cases hc)
        · exact ihr.2.1 x e hx
      · intro f' args' g' cs' hmem
        rcases List.mem_cons.mp hmem with hmem | hmem
        · cases hmem
        · obtain ⟨v, hv1, hv2⟩ := ihr.2.2 f' args' g' cs' hmem
          exact ⟨v, List.mem_cons_of_mem _ hv1, hv2⟩
    | .Let x0 e0 =>
      rcases hr : semi_naive_go rest d with ⟨rh, ra, rf, d2⟩
      have ihr := ih d
      rw [hr] at ihr
      simp only [semi_naive_go, hr]
      refine ⟨?_, ?_, ?_⟩
      · rw [ihr.1]
        constructor
        · intro ⟨a, ha, hspec⟩
          exact ⟨a, List.mem_cons_of_mem _ ha, hspec⟩
        · intro ⟨a, ha, f', args', g', cs', hspec⟩
          rcases List.mem_cons.mp ha with ha | ha
          · subst ha; cases hspec
          · exact ⟨a, ha, f', args', g', cs', hspec⟩
      · intro x e hx
        rcases List.mem_cons.mp hx with hx | hx
        · cases hx
          exact List.mem_cons_self _ _
        · exact List.mem_cons_of_mem _ (ihr.2.1 x e hx)
      · intro f' args' g' cs' hmem
        rcases List.mem_cons.mp hmem with hmem | hmem
        · cases hmem
        · obtain ⟨v, hv1, hv2⟩ := ihr.2.2 f' args' g' cs' hmem
          exact ⟨v, List.mem_cons_of_mem _ hv1, List.mem_cons_of_mem _ hv2⟩
    | .SetNoTrack f args value =>
      rcases hr : semi_naive_go rest d with ⟨rh, ra, rf, d2⟩
      have ihr := ih d
      rw [hr] at ihr
      simp only [semi_naive_go, hr]
      refine ⟨?_, ?_, ?_⟩
      · rw [ihr.1]
        constructor
        · intro ⟨a, ha, hspec⟩
          exact ⟨a, List.mem_cons_of_mem _ ha, hspec⟩
        · intro ⟨a, ha, f', args', g', cs', hspec⟩
          rcases List.mem_cons.mp ha with ha | ha
          · subst ha; cases hspec
          · exact ⟨a, ha, f', args', g', cs', hspec⟩
      · intro x e hx
        rcases List.mem_cons.mp hx with hx | hx
        · exact absurd hx (by intro hc; cases hc)
        · exact ihr.2.1 x e hx
      · intro f' args' g' cs' hmem
        rcases List.mem_cons.mp hmem with hmem | hmem
        · cases hmem
        · obtain ⟨v, hv1, hv2⟩ := ihr.2.2 f' args' g' cs' hmem
          exact ⟨v, List.mem_cons_of_mem _ hv1, hv2⟩
    | .Delete f args =>
      rcases hr : semi_naive_go rest d with ⟨rh, ra, rf, d2⟩
      have ihr := ih d
      rw [hr] at ihr
      simp only [semi_naive_go, hr]
      refine ⟨?_, ?_, ?_⟩
      · rw [ihr.1]
        constructor
        · intro ⟨a, ha, hspec⟩
          exact ⟨a, List.mem_cons_of_mem _ ha, hspec⟩
        · intro ⟨a, ha, f', args', g', cs', hspec⟩
          rcases List.mem_cons.mp ha with ha | ha
          · subst ha; cases hspec
          · exact ⟨a, ha, f', args', g', cs', hspec⟩
      · intro x e hx
        rcases List.mem_cons.mp hx with hx | hx
        · exact absurd hx (by intro hc; cases hc)
        · exact ihr.2.1 x e hx
      · intro f' args' g' cs' hmem
        rcases List.mem_cons.mp hmem with hmem | hmem
        · cases hmem
        · obtain ⟨v, hv1, hv2⟩ := ihr.2.2 f' args' g' cs' hmem
          exact ⟨v, List.mem_cons_of_mem _ hv1, hv2⟩
    | .Union x y =>
      rcases hr : semi_naive_go rest d with ⟨rh, ra, rf, d2⟩
      have ihr := ih d
      rw [hr] at ihr
      simp only [semi_naive_go, hr]
      refine ⟨?_, ?_, ?_⟩
      · rw [ihr.1]
        constructor
        · intro ⟨a, ha, hspec⟩
          exact ⟨a, List.mem_cons_of_mem _ ha, hspec⟩
        · intro ⟨a, ha, f', args', g', cs', hspec⟩
          rcases List.mem_cons.mp ha with ha | ha
          · subst ha; cases hspec
          · exact ⟨a, ha, f', args', g', cs', hspec⟩
      · intro x e hx
        rcases List.mem_cons.mp hx with hx | hx
        · exact absurd hx (by intro hc; cases hc)
        · exact ihr.2.1 x e hx
      · intro f' args' g' cs' hmem
        rcases List.mem_cons.mp hmem with hmem | hmem
        · cases hmem
        · obtain ⟨v, hv1, hv2⟩ := ihr.2.2 f' args' g' cs' hmem
          exact ⟨v, List.mem_cons_of_mem _ hv1, hv2⟩
    | .Panic msg =>
      rcases hr : semi_naive_go rest d with ⟨rh, ra, rf, d2⟩
      have ihr := ih d
      rw [hr] at ihr
      simp only [semi_naive_go, hr]
      refine ⟨?_, ?_, ?_⟩
      · rw [ihr.1]
        constructor
        · intro ⟨a, ha, hspec⟩
          exact ⟨a, List.mem_cons_of_mem _ ha, hspec⟩
        · intro ⟨a, ha, f', args', g', cs', hspec⟩
          rcases List.mem_cons.mp ha with ha | ha
          · subst ha; cases hspec
          · exact ⟨a, ha, f', args', g', cs', hspec⟩
      · intro x e hx
        rcases List.mem_cons.mp hx with hx | hx
        · exact absurd hx (by intro hc; cases hc)
        · exact ihr.2.1 x e hx
      · intro f' args' g' cs' hmem
        rcases List.mem_cons.mp hmem with hmem | hmem
        · cases hmem
        · obtain ⟨v, hv1, hv2⟩ := ihr.2.2 f' args' g' cs' hmem
          exact ⟨v, List.mem_cons_of_mem _ hv1, hv2⟩
    | .Expr e0 =>
      rcases hr : semi_naive_go rest d with ⟨rh, ra, rf, d2⟩
      have ihr := ih d
      rw [hr] at ihr
      simp only [semi_naive_go, hr]
      refine ⟨?_, ?_, ?_⟩
      · rw [ihr.1]
        constructor
        · intro ⟨a, ha, hspec⟩
          exact ⟨a, List.mem_cons_of_mem _ ha, hspec⟩
        · intro ⟨a, ha, f', args', g', cs', hspec⟩
          rcases List.mem_cons.mp ha with ha | ha
          · subst ha; cases hspec
          · exact ⟨a, ha, f', args', g', cs', hspec⟩
      · intro x e hx
        rcases List.mem_cons.mp hx with hx | hx
        · exact absurd hx (by intro hc; cases hc)
        · exact ihr.2.1 x e hx
      · intro f' args' g' cs' hmem
        rcases List.mem_cons.mp hmem with hmem | hmem
        · cases hmem
        · obtain ⟨v, hv1, hv2⟩ := ihr.2.2 f' args' g' cs' hmem
          exact ⟨v, List.mem_cons_of_mem _ hv1, hv2⟩

/-- Claim C6: the seminaive transformer returns a companion rule exactly when
some head action is a `Set` whose right-hand side is a call; in the companion
the head contains no `Let` actions, every original `Let(x, e)` contributes
`Eq(x, e)` to the body, every `Set` with call right-hand side is rewritten to
write a fresh variable `v` with `Eq(v, original rhs)` added to the body, and
the original body is kept as a prefix. -/
theorem claim_c6 :
    (∀ (d : Desugar) (rule : Rule),
      (add_semi_naive_rule d rule).isSome = true ↔
        ∃ a ∈ rule.head, ∃ f args g cs, a = Action.Set f args (Expr.Call g cs)) ∧
    (∀ (d : Desugar) (rule : Rule) (r' : Rule) (d' : Desugar),
      add_semi_naive_rule d rule = some (r', d') →
      (∀ a ∈ r'.head, a.isLet = false) ∧
      (∀ x e, Action.Let x e ∈ rule.head → Fact.Eq [Expr.Var x, e] ∈ r'.body) ∧
      (∀ f args g cs, Action.Set f args (Expr.Call g cs) ∈ rule.head →
        ∃ v, Action.Set f args (Expr.Var v) ∈ r'.head ∧
          Fact.Eq [Expr.Var v, Expr.Call g cs] ∈ r'.body) ∧
      (∃ extra, r'.body = rule.body ++ extra)) := by
  constructor
  · intro d rule
    unfold add_semi_naive_rule
    rcases hr : semi_naive_go rule.head d with ⟨rh, ra, rf, d2⟩
    have hp := (sng_props rule.head d).1
    rw [hr] at hp
    simp only at hp
    rcases rf with _ | _
    · simp only [ite_false, if_false, Option.isSome_none, Bool.false_eq_true, false_iff]
      intro hc
      exact absurd (hp.mpr hc) (by simp)
    · simp only [ite_true, if_true, Option.isSome_some, true_iff]
      exact hp.mp rfl
  · intro d rule r' d' heq
    unfold add_semi_naive_rule at heq
    rcases hr : semi_naive_go rule.head d with ⟨rh, ra, rf, d2⟩
    have hp := sng_props rule.head d
    rw [hr] at hp
    simp only at hp
    rw [hr] at heq
    rcases rf with _ | _
    · simp only [ite_false, if_false] at heq
      exact absurd heq (by simp)
    · simp only [ite_true, if_true, Option.some.injEq] at heq
      obtain ⟨h1, h2⟩ := Prod.mk.injEq .. ▸ heq
      subst h1
      subst h2
      refine ⟨?_, ?_, ?_, ⟨ra, rfl⟩⟩
      · intro a ha
        have := List.of_mem_filter ha
        simpa using this
      · intro x e hx
        exact List.mem_append_right _ (hp.2.1 x e hx)
      · intro f args g cs hmem
        obtain ⟨v, hv1, hv2⟩ := hp.2.2 f args g cs hmem
        refine ⟨v, ?_, List.mem_append_right _ hv2⟩
        exact List.mem_filter.mpr ⟨hv1, by simp [Action.isLet]⟩

theorem claim_c6_witness :
    ((add_semi_naive_rule Desugar.default
        { body := [],
          head := [Action.Set "f" [] (Expr.Call "g" []),
                   Action.Let "x" (Expr.Lit (Literal.Int 1))] }).isSome = true) ∧
    (∀ a ∈ ({ body := [Fact.Eq [Expr.Var "v0___", Expr.Call "g" []],
                       Fact.Eq [Expr.Var "x", Expr.Lit (Literal.Int 1)]],
              head := [Action.Set "f" [] (Expr.Var "v0___")] } : Rule).head,
      a.isLet = false) :=
  ⟨(claim_c6.1 Desugar.default
      { body := [],
        head := [Action.Set "f" [] (Expr.Call "g" []),
                 Action.Let "x" (Expr.Lit (Literal.Int 1))] }).mpr
      ⟨Action.Set "f" [] (Expr.Call "g" []), List.mem_cons_self _ _,
        "f", [], "g", [], rfl⟩,
   (claim_c6.2 Desugar.default
      { body := [],
        head := [Action.Set "f" [] (Expr.Call "g" []),
                 Action.Let "x" (Expr.Lit (Literal.Int 1))] }
      { body := [Fact.Eq [Expr.Var "v0___", Expr.Call "g" []],
                 Fact.Eq [Expr.Var "x", Expr.Lit (Literal.Int 1)]],
        head := [Action.Set "f" [] (Expr.Var "v0___")] }
      { next_fresh := 1, next_command_id := 0, number_underscores := 3,
        global_variables := [] } rfl).1⟩

/-! ### Claim C7: hash-consing in the head flattener -/

/-- The expression a normalized action binds, if any: `Let` binds the surface
form of its call, `LetLit` binds the literal. -/
def NormAction.binds : NormAction → Option Expr
  | .Let _ ne => some ne.to_expr
  | .LetLit _ l => some (Expr.Lit l)
  | _ => none

/-- The memo only grows: every key present in `m1` stays present. -/
def memoLe (m1 m2 : List (Expr × Symbol)) : Prop :=
  ∀ ex : Expr, (memoFind m1 ex).isSome = true → (memoFind m2 ex).isSome = true

/-- Invariant of the head flattener: every expression bound by an emitted
action is a memo key, and no expression is bound twice. -/
def bindsInv (res : List NormAction) (memo : List (Expr × Symbol)) : Prop :=
  (∀ a ∈ res, ∀ ex : Expr, NormAction.binds a = some ex →
    (memoFind memo ex).isSome = true) ∧
  (res.filterMap NormAction.binds).Nodup

theorem memoFind_memoInsert_self (m : List (Expr × Symbol)) (e : Expr) (s : Symbol) :
    memoFind (memoInsert m e s) e = some s := by
  simp [memoFind, memoInsert]

theorem memoLe_insert (m : List (Expr × Symbol)) (e : Expr) (s : Symbol) :
    memoLe m (memoInsert m e s) := by
  intro ex h
  simp only [memoFind, memoInsert]
  by_cases heq : e = ex
  · simp [heq]
  · simp [heq, h]

theorem memoLe_trans {m1 m2 m3 : List (Expr × Symbol)}
    (h1 : memoLe m1 m2) (h2 : memoLe m2 m3) : memoLe m1 m3 :=
  fun ex h => h2 ex (h1 ex h)

theorem bindsInv_mono {m1 m2 : List (Expr × Symbol)} {res : List NormAction}
    (hle : memoLe m1 m2) (h : bindsInv res m1) : bindsInv res m2 :=
  ⟨fun a ha ex hb => hle ex (h.1 a ha ex hb), h.2⟩

theorem bindsInv_append_nonbind {res : List NormAction} {m : List (Expr × Symbol)}
    {a : NormAction} (hb : NormAction.binds a = none) (h : bindsInv res m) :
    bindsInv (res ++ [a]) m := by
  refine ⟨?_, ?_⟩
  · intro a' ha' ex hbx
    rcases List.mem_append.mp ha' with ha' | ha'
    · exact h.1 a' ha' ex hbx
    · rw [List.mem_singleton.mp ha'] at hbx
      rw [hb] at hbx
      cases hbx
  · rw [List.filterMap_append]
    simpa [List.filterMap, hb] using h.2

theorem bindsInv_append_bind {res : List NormAction} {m : List (Expr × Symbol)}
    {a : NormAction} {ex : Expr} (s : Symbol)
    (hb : NormAction.binds a = some ex) (hnew : memoFind m ex = none)
    (h : bindsInv res m) : bindsInv (res ++ [a]) (memoInsert m ex s) := by
  refine ⟨?_, ?_⟩
  · intro a' ha' ex' hbx
    rcases List.mem_append.mp ha' with ha' | ha'
    · exact memoLe_insert m ex s ex' (h.1 a' ha' ex' hbx)
    · rw [List.mem_singleton.mp ha'] at hbx
      rw [hb] at hbx
      cases hbx
      rw [memoFind_memoInsert_self]
      rfl
  · rw [List.filterMap_append]
    have hsingle : List.filterMap NormAction.binds [a] = [ex] := by
      simp [List.filterMap, hb]
    rw [hsingle]
    refine List.nodup_append.mpr ⟨h.2, List.nodup_singleton ex, ?_⟩
    intro x hx hx2
    rw [List.mem_singleton.mp hx2] at hx
    obtain ⟨a0, ha0, hb0⟩ := List.mem_filterMap.mp hx
    have := h.1 a0 ha0 ex hb0
    rw [hnew] at this
    cases this

/-- Flattening an already-memoized expression returns the memoized name and
emits nothing. -/
theorem expr_to_flat_actions_hit (e : Expr) (d : Desugar) (res : List NormAction)
    (memo : List (Expr × Symbol)) (s : Symbol) (h : memoFind memo e = some s) :
    expr_to_flat_actions e d res memo = (s, d, res, memo) := by
  match e with
  | .Lit l => simp only [expr_to_flat_actions, h]
  | .Var v => simp only [expr_to_flat_actions, h]
  | .Call f children => simp only [expr_to_flat_actions, h]

/-- After flattening, the expression itself is memoized under the returned
name. -/
theorem expr_to_flat_actions_memoized (e : Expr) (d : Desugar)
    (res : List NormAction) (memo : List (Expr × Symbol)) :
    memoFind (expr_to_flat_actions e d res memo).2.2.2 e
      = some (expr_to_flat_actions e d res memo).1 := by
  cases hfind : memoFind memo e with
  | some s =>
    rw [expr_to_flat_actions_hit e d res memo s hfind]
    exact hfind
  | none =>
    match e with
    | .Lit l =>
      simp only [expr_to_flat_actions, hfind]
      rcases hg : d.get_fresh with ⟨a1, d1⟩
      simp only [hg]
      exact memoFind_memoInsert_self memo (Expr.Lit l) a1
    | .Var v =>
      simp only [expr_to_flat_actions, hfind]
      exact memoFind_memoInsert_self memo (Expr.Var v) v
    | .Call f children =>
      simp only [expr_to_flat_actions, hfind]
      rcases hg : d.get_fresh with ⟨a1, d1⟩
      simp only [hg]
      rcases hc : flat_children children d1 res memo with ⟨nc, d2, r2, m2⟩
      simp only [hc]
      cases hfind2 : memoFind m2 (NormExpr.Call f nc).to_expr with
      | some existing =>
        simp only [hfind2]
        exact memoFind_memoInsert_self m2 (Expr.Call f children) existing
      | none =>
        simp only [hfind2]
        exact memoFind_memoInsert_self _ (Expr.Call f children) a1

mutual

/-- The head flattener preserves the binding invariant and only grows the
memo. -/
theorem expr_to_flat_actions_inv (e : Expr) (d : Desugar) (res : List NormAction)
    (memo : List (Expr × Symbol)) (h : bindsInv res memo) :
    bindsInv (expr_to_flat_actions e d res memo).2.2.1
      (expr_to_flat_actions e d res memo).2.2.2 ∧
    memoLe memo (expr_to_flat_actions e d res memo).2.2.2 := by
  cases hfind : memoFind memo e with
  | some s =>
    rw [expr_to_flat_actions_hit e d res memo s hfind]
    exact ⟨h, fun ex hx => hx⟩
  | none =>
    match e with
    | .Lit l =>
      simp only [expr_to_flat_actions, hfind]
      rcases hg : d.get_fresh with ⟨a1, d1⟩
      simp only [hg]
      exact ⟨@bindsInv_append_bind res memo (NormAction.LetLit a1 l) (Expr.Lit l)
          a1 rfl hfind h,
        memoLe_insert memo (Expr.Lit l) a1⟩
    | .Var v =>
      simp only [expr_to_flat_actions, hfind]
      exact ⟨bindsInv_mono (memoLe_insert memo (Expr.Var v) v) h,
        memoLe_insert memo (Expr.Var v) v⟩
    | .Call f children =>
      simp only [expr_to_flat_actions, hfind]
      rcases hg : d.get_fresh with ⟨a1, d1⟩
      simp only [hg]
      have hchild := flat_children_inv children d1 res memo h
      rcases hc : flat_children children d1 res memo with ⟨nc, d2, r2, m2⟩
      rw [hc] at hchild
      simp only [hc]
      cases hfind2 : memoFind m2 (NormExpr.Call f nc).to_expr with
      | some existing =>
        simp only [hfind2]
        exact ⟨bindsInv_mono (memoLe_insert m2 (Expr.Call f children) existing) hchild.1,
          memoLe_trans hchild.2 (memoLe_insert m2 (Expr.Call f children) existing)⟩
      | none =>
        simp only [hfind2]
        have h3 := @bindsInv_append_bind r2 m2
          (NormAction.Let a1 (NormExpr.Call f nc)) ((NormExpr.Call f nc).to_expr)
          a1 rfl hfind2 hchild.1
        exact ⟨bindsInv_mono
            (memoLe_insert (memoInsert m2 (NormExpr.Call f nc).to_expr a1)
              (Expr.Call f children) a1) h3,
          memoLe_trans hchild.2
            (memoLe_trans (memoLe_insert m2 (NormExpr.Call f nc).to_expr a1)
              (memoLe_insert (memoInsert m2 (NormExpr.Call f nc).to_expr a1)
                (Expr.Call f children) a1))⟩

/-- Child loop: same invariant preservation. -/
theorem flat_children_inv (children : List Expr) (d : Desugar)
    (res : List NormAction) (memo : List (Expr × Symbol)) (h : bindsInv res memo) :
    bindsInv (flat_children children d res memo).2.2.1
      (flat_children children d res memo).2.2.2 ∧
    memoLe memo (flat_children children d res memo).2.2.2 := by
  match children with
  | [] =>
    simp only [flat_children]
    exact ⟨h, fun ex hx => hx⟩
  | child :: rest =>
    match child with
    | .Var v =>
      simp only [flat_children]
      have hr := flat_children_inv rest d res memo h
      rcases hc : flat_children rest d res memo with ⟨ns, d2, r2, m2⟩
      rw [hc] at hr
      simp only [hc]
      exact hr
    | .Lit l =>
      simp only [flat_children]
      have he := expr_to_flat_actions_inv (.Lit l) d res memo h
      rcases h1 : expr_to_flat_actions (.Lit l) d res memo with ⟨n1, d1, r1, m1⟩
      rw [h1] at he
      simp only [h1]
      have hr := flat_children_inv rest d1 r1 m1 he.1
      rcases h2 : flat_children rest d1 r1 m1 with ⟨ns, d2, r2, m2⟩
      rw [h2] at hr
      simp only [h2]
      exact ⟨hr.1, memoLe_trans he.2 hr.2⟩
    | .Call g cs =>
      simp only [flat_children]
      have he := expr_to_flat_actions_inv (.Call g cs) d res memo h
      rcases h1 : expr_to_flat_actions (.Call g cs) d res memo with ⟨n1, d1, r1, m1⟩
      rw [h1] at he
      simp only [h1]
      have hr := flat_children_inv rest d1 r1 m1 he.1
      rcases h2 : flat_children rest d1 r1 m1 with ⟨ns, d2, r2, m2⟩
      rw [h2] at hr
      simp only [h2]
      exact ⟨hr.1, memoLe_trans he.2 hr.2⟩

end

theorem flat_actions_args_inv (args : List Expr) (d : Desugar)
    (res : List NormAction) (memo : List (Expr × Symbol)) (h : bindsInv res memo) :
    bindsInv (flat_actions_args args d res memo).2.2.1
      (flat_actions_args args d res memo).2.2.2 ∧
    memoLe memo (flat_actions_args args d res memo).2.2.2 := by
  induction args generalizing d res memo with
  | nil =>
    simp only [flat_actions_args]
    exact ⟨h, fun ex hx => hx⟩
  | cons arg rest ih =>
    simp only [flat_actions_args]
    have he := expr_to_flat_actions_inv arg d res memo h
    rcases h1 : expr_to_flat_actions arg d res memo with ⟨n1, d1, r1, m1⟩
    rw [h1] at he
    simp only [h1]
    have hr := ih d1 r1 m1 he.1
    rcases h2 : flat_actions_args rest d1 r1 m1 with ⟨ns, d2, r2, m2⟩
    rw [h2] at hr
    simp only [h2]
    exact ⟨hr.1, memoLe_trans he.2 hr.2⟩

theorem flatten_actions_go_inv (actions : List Action) (d : Desugar)
    (res : List NormAction) (memo : List (Expr × Symbol)) (res' : List NormAction)
    (d' : Desugar) (h : flatten_actions_go actions d res memo = some (res', d'))
    (hinv : bindsInv res memo) : (res'.filterMap NormAction.binds).Nodup := by
  induction actions generalizing d res memo with
  | nil =>
    simp only [flatten_actions_go, Option.some.injEq] at h
    obtain ⟨h1, h2⟩ := Prod.mk.injEq .. ▸ h
    subst h1
    exact hinv.2
  | cons action rest ih =>
    match action with
    | .Let symbol e =>
      simp only [flatten_actions_go] at h
      have he := expr_to_flat_actions_inv e d res memo hinv
      rcases h1 : expr_to_flat_actions e d res memo with ⟨added, d1, r1, m1⟩
      rw [h1] at he h
      simp only at h
      by_cases hs : symbol = added
      · rw [if_pos hs] at h
        cases h
      · rw [if_neg hs] at h
        exact ih d1 (r1 ++ [NormAction.LetVar symbol added]) m1 h
          (bindsInv_append_nonbind rfl he.1)
    | .Set f args rhs =>
      simp only [flatten_actions_go] at h
      have ha := flat_actions_args_inv args d res memo hinv
      rcases h1 : flat_actions_args args d res memo with ⟨an, d1, r1, m1⟩
      rw [h1] at ha h
      simp only at h
      have he := expr_to_flat_actions_inv rhs d1 r1 m1 ha.1
      rcases h2 : expr_to_flat_actions rhs d1 r1 m1 with ⟨rn, d2, r2, m2⟩
      rw [h2] at he h
      simp only at h
      exact ih d2 (r2 ++ [NormAction.Set (NormExpr.Call f an) rn]) m2 h
        (bindsInv_append_nonbind rfl he.1)
    | .SetNoTrack f args rhs =>
      simp only [flatten_actions_go] at h
      have ha := flat_actions_args_inv args d res memo hinv
      rcases h1 : flat_actions_args args d res memo with ⟨an, d1, r1, m1⟩
      rw [h1] at ha h
      simp only at h
      have he := expr_to_flat_actions_inv rhs d1 r1 m1 ha.1
      rcases h2 : expr_to_flat_actions rhs d1 r1 m1 with ⟨rn, d2, r2, m2⟩
      rw [h2] at he h
      simp only at h
      exact ih d2 (r2 ++ [NormAction.Set (NormExpr.Call f an) rn]) m2 h
        (bindsInv_append_nonbind rfl he.1)
    | .Delete f args =>
      simp only [flatten_actions_go] at h
      have ha := flat_actions_args_inv args d res memo hinv
      rcases h1 : flat_actions_args args d res memo with ⟨an, d1, r1, m1⟩
      rw [h1] at ha h
      simp only at h
      exact ih d1 (r1 ++ [NormAction.Delete (NormExpr.Call f an)]) m1 h
        (bindsInv_append_nonbind rfl ha.1)
    | .Union lhs rhs =>
      simp only [flatten_actions_go] at h
      have hl := expr_to_flat_actions_inv lhs d res memo hinv
      rcases h1 : expr_to_flat_actions lhs d res memo with ⟨ln, d1, r1, m1⟩
      rw [h1] at hl h
      simp only at h
      have hr := expr_to_flat_actions_inv rhs d1 r1 m1 hl.1
      rcases h2 : expr_to_flat_actions rhs d1 r1 m1 with ⟨rn, d2, r2, m2⟩
      rw [h2] at hr h
      simp only at h
      exact ih d2 (r2 ++ [NormAction.Union ln rn]) m2 h
        (bindsInv_append_nonbind rfl hr.1)
    | .Panic msg =>
      simp only [flatten_actions_go] at h
      exact ih d (res ++ [NormAction.Panic msg]) memo h
        (bindsInv_append_nonbind rfl hinv)
    | .Expr e =>
      simp only [flatten_actions_go] at h
      have he := expr_to_flat_actions_inv e d res memo hinv
      rcases h1 : expr_to_flat_actions e d res memo with ⟨n1, d1, r1, m1⟩
      rw [h1] at he h
      simp only at h
      exact ih d1 r1 m1 h he.1

/-- Claim C7: within one invocation of the head flattener (one shared memo and
action buffer), flattening an already-memoized expression returns the memoized
name and emits nothing; flattening any expression twice emits nothing the
second time and returns the same name; and in the emitted action list every
expression (call form of a `Let`, literal of a `LetLit`) is bound by exactly
one action. -/
theorem claim_c7 :
    (∀ (e : Expr) (d : Desugar) (res : List NormAction)
      (memo : List (Expr × Symbol)) (s : Symbol),
      memoFind memo e = some s →
      expr_to_flat_actions e d res memo = (s, d, res, memo)) ∧
    (∀ (e : Expr) (d : Desugar) (res : List NormAction)
      (memo : List (Expr × Symbol)),
      expr_to_flat_actions e (expr_to_flat_actions e d res memo).2.1
          (expr_to_flat_actions e d res memo).2.2.1
          (expr_to_flat_actions e d res memo).2.2.2
        = ((expr_to_flat_actions e d res memo).1,
           (expr_to_flat_actions e d res memo).2.1,
           (expr_to_flat_actions e d res memo).2.2.1,
           (expr_to_flat_actions e d res memo).2.2.2)) ∧
    (∀ (actions : List Action) (d : Desugar) (res' : List NormAction) (d' : Desugar),
      flatten_actions actions d = some (res', d') →
      (res'.filterMap NormAction.binds).Nodup) := by
  refine ⟨expr_to_flat_actions_hit, ?_, ?_⟩
  · intro e d res memo
    exact expr_to_flat_actions_hit e _ _ _ _ (expr_to_flat_actions_memoized e d res memo)
  · intro actions d res' d' h
    refine flatten_actions_go_inv actions d [] [] res' d' h ⟨?_, ?_⟩
    · intro a ha
      exact absurd ha (List.not_mem_nil a)
    · simp

theorem claim_c7_witness :
    expr_to_flat_actions (Expr.Var "x") Desugar.default [] [(Expr.Var "x", "x")]
      = ("x", Desugar.default, [], [(Expr.Var "x", "x")]) ∧
    (([NormAction.Let "v1___" (NormExpr.Call "g" []),
       NormAction.Let "v0___" (NormExpr.Call "f" ["v1___"]),
       NormAction.Union "v0___" "v1___"] : List NormAction).filterMap
      NormAction.binds).Nodup :=
  ⟨claim_c7.1 (Expr.Var "x") Desugar.default [] [(Expr.Var "x", "x")] "x" rfl,
   claim_c7.2.2 [Action.Union (Expr.Call "f" [Expr.Call "g" []]) (Expr.Call "g" [])]
     Desugar.default
     [NormAction.Let "v1___" (NormExpr.Call "g" []),
      NormAction.Let "v0___" (NormExpr.Call "f" ["v1___"]),
      NormAction.Union "v0___" "v1___"]
     { next_fresh := 2, next_command_id := 0, number_underscores := 3,
       global_variables := [] } rfl⟩

/-! ### Claim C8: already-bound errors of the type checker -/

theorem TC.assocInsert_fst {α : Type} (m : List (Symbol × α)) (k : Symbol) (v : α) :
    (TC.assocInsert m k v).1 = TC.assocFind m k := by
  induction m with
  | nil => rfl
  | cons p rest ih =>
    rcases p with ⟨k', v'⟩
    simp only [TC.assocInsert, TC.assocFind]
    by_cases h : k' = k
    · simp [h]
    · rcases hr : TC.assocInsert rest k v with ⟨o, r⟩
      rw [hr] at ih
      simp [h, hr, ih]

/-- Claim C8: declaring a plain sort whose name is an existing sort returns
SortAlreadyBound, and whose name is an existing function returns
FunctionAlreadyBound; declaring a function whose name is an existing sort
returns SortAlreadyBound, whose name is an existing primitive returns
PrimitiveAlreadyBound, and whose name is an existing function returns
FunctionAlreadyBound.  The hypotheses reflect the checking order of the code:
the sort check precedes the primitive check, which precedes the function
check, and a schema-resolution failure reports Unbound first. -/
theorem claim_c8 :
    (∀ (mksort : Symbol → Symbol → Except TC.TypeError TC.ArcSort)
      (ti : TC.TypeInfo) (name : Symbol),
      TC.assocContains ti.sorts name = true →
      TC.assocContains ti.func_types name = false →
      TC.TypeInfo.declare_sort mksort ti name none
        = .error (.SortAlreadyBound name)) ∧
    (∀ (mksort : Symbol → Symbol → Except TC.TypeError TC.ArcSort)
      (ti : TC.TypeInfo) (name : Symbol) (pa : Option Symbol),
      TC.assocContains ti.func_types name = true →
      TC.TypeInfo.declare_sort mksort ti name pa
        = .error (.FunctionAlreadyBound name)) ∧
    (∀ (ti : TC.TypeInfo) (fdecl : TC.FunctionDecl),
      TC.assocContains ti.sorts fdecl.name = true →
      ti.typecheck_function fdecl = .error (.SortAlreadyBound fdecl.name)) ∧
    (∀ (ti : TC.TypeInfo) (fdecl : TC.FunctionDecl),
      TC.assocContains ti.sorts fdecl.name = false →
      ti.is_primitive fdecl.name = true →
      ti.typecheck_function fdecl = .error (.PrimitiveAlreadyBound fdecl.name)) ∧
    (∀ (ti : TC.TypeInfo) (fdecl : TC.FunctionDecl) (ftype : TC.FuncType),
      TC.assocContains ti.sorts fdecl.name = false →
      ti.is_primitive fdecl.name = false →
      ti.function_to_functype fdecl = .ok ftype →
      TC.assocContains ti.func_types fdecl.name = true →
      ti.typecheck_function fdecl = .error (.FunctionAlreadyBound fdecl.name)) := by
  refine ⟨?_, ?_, ?_, ?_, ?_⟩
  · intro mksort ti name h1 h2
    simp [TC.TypeInfo.declare_sort, h2, TC.TypeInfo.add_arcsort, h1]
  · intro mksort ti name pa h1
    simp [TC.TypeInfo.declare_sort, h1]
  · intro ti fdecl h1
    simp [TC.TypeInfo.typecheck_function, h1]
  · intro ti fdecl h1 h2
    simp [TC.TypeInfo.typecheck_function, h1, h2]
  · intro ti fdecl ftype h1 h2 h3 h4
    simp only [TC.TypeInfo.typecheck_function, h1, h2, h3, Bool.false_eq_true,
      if_false, ite_false]
    rcases hins : TC.assocInsert ti.func_types fdecl.name ftype with ⟨old, ft'⟩
    have hfst := TC.assocInsert_fst ti.func_types fdecl.name ftype
    rw [hins] at hfst
    simp only at hfst
    have hsome : old.isSome = true := by
      rw [hfst]
      exact h4
    simp [hins, hsome]

/-- A concrete eq-sort, function type and three `TypeInfo` states used to
witness the already-bound errors. -/
def c8sort : TC.ArcSort := { name := "S", is_eq_sort := true, prims := [] }

def c8ftype : TC.FuncType :=
  { name := "f", input := [], output := c8sort, is_datatype := true,
    has_default := false }

def c8ti1 : TC.TypeInfo :=
  { presorts := [], presort_names := [], sorts := [("S", c8sort)],
    primitives := [], func_types := [], global_types := [] }

def c8ti2 : TC.TypeInfo :=
  { presorts := [], presort_names := [], sorts := [("S", c8sort)],
    primitives := [], func_types := [("f", c8ftype)], global_types := [] }

def c8ti3 : TC.TypeInfo :=
  { presorts := [], presort_names := [], sorts := [("S", c8sort)],
    primitives := ["p"], func_types := [], global_types := [] }

def c8mk : Symbol → Symbol → Except TC.TypeError TC.ArcSort :=
  fun _ _ => .error .Mismatch

def c8fdeclS : TC.FunctionDecl :=
  { name := "S", schema := { input := [], output := "S" }, default := none,
    merge := none, merge_action := [], cost := none, unextractable := false }

def c8fdeclP : TC.FunctionDecl :=
  { name := "p", schema := { input := [], output := "S" }, default := none,
    merge := none, merge_action := [], cost := none, unextractable := false }

def c8fdeclF : TC.FunctionDecl :=
  { name := "f", schema := { input := [], output := "S" }, default := none,
    merge := none, merge_action := [], cost := none, unextractable := false }

theorem claim_c8_witness :
    TC.TypeInfo.declare_sort c8mk c8ti1 "S" none
      = .error (.SortAlreadyBound "S") ∧
    TC.TypeInfo.declare_sort c8mk c8ti2 "f" none
      = .error (.FunctionAlreadyBound "f") ∧
    c8ti1.typecheck_function c8fdeclS = .error (.SortAlreadyBound "S") ∧
    c8ti3.typecheck_function c8fdeclP = .error (.PrimitiveAlreadyBound "p") ∧
    c8ti2.typecheck_function c8fdeclF = .error (.FunctionAlreadyBound "f") :=
  ⟨claim_c8.1 c8mk c8ti1 "S" (by decide) (by decide),
   claim_c8.2.1 c8mk c8ti2 "f" none (by decide),
   claim_c8.2.2.1 c8ti1 c8fdeclS (by decide),
   claim_c8.2.2.2.1 c8ti3 c8fdeclP (by decide) (by decide),
   claim_c8.2.2.2.2 c8ti2 c8fdeclF c8ftype (by decide) (by decide) rfl (by decide)⟩

/-! ### Claim C10: the exporter's temp-name filtering -/

theorem count_underscore_zero_of_digits {l : List Char}
    (h : ∀ c ∈ l, c.isDigit = true) : l.count '_' = 0 := by
  rw [List.count_eq_zero]
  intro hm
  have h2 := h '_' hm
  exact absurd h2 (by decide)

theorem u32ParseOk_count (cs : List Char) (h : u32ParseOk cs = true) :
    cs.count '_' = 0 := by
  simp only [u32ParseOk, Bool.and_eq_true] at h
  obtain ⟨⟨hne, hall⟩, hlt⟩ := h
  by_cases hh : cs.head? = some '+'
  · rw [if_pos hh] at hall
    cases cs with
    | nil => simp at hh
    | cons c rest =>
      have hc : c = '+' := by
        simp only [List.head?, Option.some.injEq] at hh
        exact hh
      subst hc
      rw [List.count_cons]
      have h0 : rest.count '_' = 0 :=
        count_underscore_zero_of_digits (fun c hc => List.all_eq_true.mp hall c hc)
      simp [h0]
  · rw [if_neg hh] at hall
    exact count_underscore_zero_of_digits (fun c hc => List.all_eq_true.mp hall c hc)

/-- The temp-name test holds exactly when the name is `v`, then a character
list that parses as a `u32`, then exactly three underscores. -/
theorem is_temp_name_iff (name : String) :
    is_temp_name name = true ↔
      ∃ ds : List Char, name.data = 'v' :: (ds ++ ['_', '_', '_']) ∧
        u32ParseOk ds = true := by
  constructor
  · intro h
    simp only [is_temp_name, Bool.and_eq_true, decide_eq_true_eq] at h
    obtain ⟨⟨h1, h2⟩, h3⟩ := h
    cases hd : name.data with
    | nil => rw [hd] at h1; cases h1
    | cons c rest =>
      rw [hd] at h1 h2 h3
      have hc : c = 'v' := by
        simp only [List.head?, Option.some.injEq] at h1
        exact h1
      subst hc
      by_cases hlen : 3 ≤ rest.length
      · obtain ⟨m, hm⟩ : ∃ m, ('v' :: rest).length - 3 = m + 1 := by
          simp only [List.length_cons]
          exact ⟨rest.length - 3, by omega⟩
        rw [hm, List.drop_succ_cons] at h2
        rw [hm, List.take_succ_cons, List.drop_succ_cons, List.drop_zero] at h3
        refine ⟨rest.take m, ?_, h3⟩
        have hrest : rest = rest.take m ++ ['_', '_', '_'] := by
          rw [← h2]
          exact (List.take_append_drop m rest).symm
        conv_lhs => rw [hrest]
      · have h0 : ('v' :: rest).length - 3 = 0 := by
          simp only [List.length_cons]
          omega
        rw [h0, List.drop_zero] at h2
        have hv : 'v' = '_' := by
          have := congrArg List.head? h2
          simp only [List.head?, Option.some.injEq] at this
          exact this
        exact absurd hv (by decide)
  · rintro ⟨ds, hdata, hok⟩
    simp only [is_temp_name, hdata, Bool.and_eq_true, decide_eq_true_eq]
    have hlen : ('v' :: (ds ++ ['_', '_', '_']) : List Char).length - 3 = ds.length + 1 := by
      simp
    refine ⟨⟨rfl, ?_⟩, ?_⟩
    · rw [hlen, List.drop_succ_cons]
      exact List.drop_left ds ['_', '_', '_']
    · rw [hlen, List.take_succ_cons, List.drop_succ_cons, List.drop_zero]
      rw [List.take_left]
      exact hok

theorem digitsList_head_ne_plus (n : Nat) : (digitsList n).head? ≠ some '+' := by
  cases hd : digitsList n with
  | nil => simp
  | cons c rest =>
    have hc := digitsList_all_digit n c (hd ▸ List.mem_cons_self c rest)
    intro h
    simp only [List.head?] at h
    injection h with h2
    subst h2
    exact absurd hc (by decide)

/-- The generator's names pass the exporter's temp-name test exactly when the
generator is configured with three underscores and the counter fits in 32
bits: the test is fixed at three underscores, independent of
`number_underscores`. -/
theorem is_temp_name_genName (k n : Nat) :
    is_temp_name (genName k n) = true ↔ (k = 3 ∧ n < 4294967296) := by
  constructor
  · intro h
    obtain ⟨ds, hdata, hok⟩ := (is_temp_name_iff _).mp h
    rw [genName_data] at hdata
    have heq : digitsList n ++ List.replicate k '_' = ds ++ ['_', '_', '_'] :=
      List.tail_eq_of_cons_eq hdata
    have hcount := congrArg (List.count '_') heq
    rw [List.count_append, List.count_append] at hcount
    have h1 : (digitsList n).count '_' = 0 :=
      count_underscore_zero_of_digits (digitsList_all_digit n)
    have h2 : (List.replicate k '_').count '_' = k := by
      simp [List.count_replicate]
    have h3 : (['_', '_', '_'] : List Char).count '_' = 3 := by decide
    have h4 : ds.count '_' = 0 := u32ParseOk_count ds hok
    have hk : k = 3 := by
      rw [h1, h2, h3, h4] at hcount
      omega
    subst hk
    have hrep : (List.replicate 3 '_' : List Char) = ['_', '_', '_'] := rfl
    rw [hrep] at heq
    have hds : digitsList n = ds := List.append_cancel_right heq
    subst hds
    refine ⟨rfl, ?_⟩
    simp only [u32ParseOk, if_neg (digitsList_head_ne_plus n), Bool.and_eq_true,
      decide_eq_true_eq, parseDigits_digitsList] at hok
    exact hok.2
  · rintro ⟨rfl, hn⟩
    apply (is_temp_name_iff _).mpr
    refine ⟨digitsList n, ?_, ?_⟩
    · rw [genName_data]
      rfl
    · simp only [u32ParseOk, if_neg (digitsList_head_ne_plus n), Bool.and_eq_true,
        decide_eq_true_eq, parseDigits_digitsList]
      refine ⟨⟨?_, ?_⟩, hn⟩
      · simp [List.isEmpty_iff, digitsList_ne_nil n]
      · exact List.all_eq_true.mpr (digitsList_all_digit n)

theorem flatten_filter_nonempty {β : Type} (ls : List (List β)) :
    (ls.filter (fun c => !c.isEmpty)).flatten = ls.flatten := by
  induction ls with
  | nil => rfl
  | cons c rest ih =>
    by_cases hc : c.isEmpty
    · have hnil : c = [] := List.isEmpty_iff.mp hc
      subst hnil
      simp [List.filter_cons, ih]
    · simp [List.filter_cons, hc, ih]

/-- 41 functions, none temp-named, none a variable binding, each with one
live row. -/
def c10fns : List (GFunction Nat) :=
  (List.range 41).map
    (fun i => { name := "f" ++ Nat.repr i, is_variable := false, rows := [(true, i)] })

/-- Claim C10 counterexample: no function of `c10fns` is temp-named or a
variable binding, and `f40` is one of them, yet the exporter omits `f40`'s
call: the exporter also truncates to the first `MAX_FUNCTIONS = 40`
call-producing functions, so it does not omit *exactly* the temp-named and
variable functions. -/
theorem claim_c10_counterexample :
    c10fns.all (fun f => !(is_temp_name f.name) && !f.is_variable) = true ∧
    "f40" ∈ c10fns.map GFunction.name ∧
    "f40" ∉ graph_from_egraph (fun (f : GFunction Nat) (_ : Nat) => f.name) c10fns :=
  ⟨by decide, by decide, by decide⟩

/-- Claim C10 (amended): when at most `MAX_FUNCTIONS` of the kept functions
export calls, the exporter's output is exactly the flattened exports of the
functions that are neither temp-named nor variable bindings (so under that
bound the omitted functions are exactly those); the temp-name test on a
generated name holds exactly when the generator uses three underscores and the
counter fits in `u32`, independently of the configured `number_underscores`;
and the temp-name test holds exactly for names of the claimed shape `v`, then
a `u32`-parsable string, then exactly three trailing underscores. -/
theorem claim_c10_amended :
    (∀ (α β : Type) (exportCall : GFunction α → α → β) (functions : List (GFunction α)),
      (((functions.filter (fun f => !(is_temp_name f.name) && !f.is_variable)).map
          (fun f => ((f.rows.filter (fun r => r.1)).take MAX_CALLS_PER_FUNCTION).map
            (fun r => exportCall f r.2))).filter
          (fun calls => !calls.isEmpty)).length ≤ MAX_FUNCTIONS →
      graph_from_egraph exportCall functions =
        ((functions.filter (fun f => !(is_temp_name f.name) && !f.is_variable)).map
          (fun f => ((f.rows.filter (fun r => r.1)).take MAX_CALLS_PER_FUNCTION).map
            (fun r => exportCall f r.2))).flatten) ∧
    (∀ k n : Nat, is_temp_name (genName k n) = true ↔ (k = 3 ∧ n < 4294967296)) ∧
    (∀ name : String, is_temp_name name = true ↔
      ∃ ds : List Char, name.data = 'v' :: (ds ++ ['_', '_', '_']) ∧
        u32ParseOk ds = true) := by
  refine ⟨?_, is_temp_name_genName, is_temp_name_iff⟩
  intro α β exportCall functions h
  unfold graph_from_egraph
  rw [List.take_of_length_le h]
  exact flatten_filter_nonempty _

theorem claim_c10_amended_witness :
    graph_from_egraph (fun (f : GFunction Nat) (_ : Nat) => f.name)
        [{ name := "g", is_variable := false, rows := [(true, 0)] }] = ["g"] ∧
    (is_temp_name (genName 3 5) = true ↔ (3 = 3 ∧ 5 < 4294967296)) :=
  ⟨by
    have h := claim_c10_amended.1 Nat String (fun f _ => f.name)
      [{ name := "g", is_variable := false, rows := [(true, 0)] }] (by decide)
    rw [h]
    rfl,
   claim_c10_amended.2.1 3 5⟩

/-! ### Claim C5: command-id assignment -/

theorem get_fresh_ncid (d : Desugar) :
    d.get_fresh.2.next_command_id = d.next_command_id := rfl

mutual

theorem expr_to_ssa_ncid (isPrim : Symbol → Bool) (lhs_in : Symbol) (e : Expr)
    (d : Desugar) (res : List NormFact) (cons : List (Symbol × Symbol))
    (bound : List Symbol) :
    (expr_to_ssa isPrim lhs_in e d res cons bound).1.next_command_id =
      d.next_command_id := by
  match e with
  | .Var v => rfl
  | .Lit l =>
    rcases hh : hsInsert bound lhs_in with ⟨isNew, bound2⟩
    cases isNew <;>
      simp only [expr_to_ssa, hh, ite_true, ite_false, Bool.false_eq_true,
        Bool.true_eq_false, if_true, if_false] <;> rfl
  | .Call f children =>
    rcases hh : hsInsert bound lhs_in with ⟨isNew, bound2⟩
    cases isNew <;> cases hp : isPrim f <;>
      simp only [expr_to_ssa, hh, hp, ite_true, ite_false, Bool.false_eq_true,
        Bool.true_eq_false, if_true, if_false]
    · exact ssa_children_fn_ncid isPrim children d.get_fresh.2 res
        (cons ++ [(d.get_fresh.1, lhs_in)]) bound2
    · exact ssa_children_prim_ncid isPrim children d.get_fresh.2 res
        (cons ++ [(d.get_fresh.1, lhs_in)]) bound2
    · exact ssa_children_fn_ncid isPrim children d res cons bound2
    · exact ssa_children_prim_ncid isPrim children d res cons bound2

theorem ssa_children_prim_ncid (isPrim : Symbol → Bool) (children : List Expr)
    (d : Desugar) (res : List NormFact) (cons : List (Symbol × Symbol))
    (bound : List Symbol) :
    (ssa_children_prim isPrim children d res cons bound).2.1.next_command_id =
      d.next_command_id := by
  match children with
  | [] => rfl
  | child :: rest =>
    match child with
    | .Var v =>
      simp only [ssa_children_prim]
      rcases hr : ssa_children_prim isPrim rest d res cons bound with ⟨ns, d2, r2, c2, b2⟩
      have h := ssa_children_prim_ncid isPrim rest d res cons bound
      rw [hr] at h
      simpa using h
    | .Lit l =>
      simp only [ssa_children_prim]
      rcases he : expr_to_ssa isPrim d.get_fresh.1 (.Lit l) d.get_fresh.2 res cons bound
        with ⟨d1, r1, c1, b1⟩
      have h1 := expr_to_ssa_ncid isPrim d.get_fresh.1 (.Lit l) d.get_fresh.2 res cons bound
      rw [he] at h1
      rcases hr : ssa_children_prim isPrim rest d1 r1 c1 b1 with ⟨ns, d2, r2, c2, b2⟩
      have h2 := ssa_children_prim_ncid isPrim rest d1 r1 c1 b1
      rw [hr] at h2
      simp only [he, hr]
      simp only at h1 h2
      rw [h2, h1]
      rfl
    | .Call g cs =>
      simp only [ssa_children_prim]
      rcases he : expr_to_ssa isPrim d.get_fresh.1 (.Call g cs) d.get_fresh.2 res cons bound
        with ⟨d1, r1, c1, b1⟩
      have h1 := expr_to_ssa_ncid isPrim d.get_fresh.1 (.Call g cs) d.get_fresh.2 res cons bound
      rw [he] at h1
      rcases hr : ssa_children_prim isPrim rest d1 r1 c1 b1 with ⟨ns, d2, r2, c2, b2⟩
      have h2 := ssa_children_prim_ncid isPrim rest d1 r1 c1 b1
      rw [hr] at h2
      simp only [he, hr]
      simp only at h1 h2
      rw [h2, h1]
      rfl

theorem ssa_children_fn_ncid (isPrim : Symbol → Bool) (children : List Expr)
    (d : Desugar) (res : List NormFact) (cons : List (Symbol × Symbol))
    (bound : List Symbol) :
    (ssa_children_fn isPrim children d res cons bound).2.1.next_command_id =
      d.next_command_id := by
  match children with
  | [] => rfl
  | child :: rest =>
    match child with
    | .Var v =>
      rcases hh : hsInsert bound v with ⟨isNew, bound2⟩
      cases isNew <;>
        simp only [ssa_children_fn, hh, ite_true, ite_false, Bool.false_eq_true,
          Bool.true_eq_false, if_true, if_false]
      · rcases hr : ssa_children_fn isPrim rest d.get_fresh.2 res
          (cons ++ [(d.get_fresh.1, v)]) bound2 with ⟨ns, d2, r2, c2, b2⟩
        have h := ssa_children_fn_ncid isPrim rest d.get_fresh.2 res
          (cons ++ [(d.get_fresh.1, v)]) bound2
        rw [hr] at h
        simpa using h
      · rcases hr : ssa_children_fn isPrim rest d res cons bound2 with ⟨ns, d2, r2, c2, b2⟩
        have h := ssa_children_fn_ncid isPrim rest d res cons bound2
        rw [hr] at h
        simpa using h
    | .Lit l =>
      simp only [ssa_children_fn]
      rcases hb : hsInsert bound d.get_fresh.1 with ⟨isNew2, bound2⟩
      rcases he : expr_to_ssa isPrim d.get_fresh.1 (.Lit l) d.get_fresh.2 res cons bound2
        with ⟨d1, r1, c1, b1⟩
      have h1 := expr_to_ssa_ncid isPrim d.get_fresh.1 (.Lit l) d.get_fresh.2 res cons bound2
      rw [he] at h1
      rcases hr : ssa_children_fn isPrim rest d1 r1 c1 b1 with ⟨ns, d2, r2, c2, b2⟩
      have h2 := ssa_children_fn_ncid isPrim rest d1 r1 c1 b1
      rw [hr] at h2
      simp only [hb, he, hr]
      simp only at h1 h2
      rw [h2, h1]
      rfl
    | .Call g cs =>
      simp only [ssa_children_fn]
      rcases hb : hsInsert bound d.get_fresh.1 with ⟨isNew2, bound2⟩
      rcases he : expr_to_ssa isPrim d.get_fresh.1 (.Call g cs) d.get_fresh.2 res cons bound2
        with ⟨d1, r1, c1, b1⟩
      have h1 := expr_to_ssa_ncid isPrim d.get_fresh.1 (.Call g cs) d.get_fresh.2 res cons bound2
      rw [he] at h1
      rcases hr : ssa_children_fn isPrim rest d1 r1 c1 b1 with ⟨ns, d2, r2, c2, b2⟩
      have h2 := ssa_children_fn_ncid isPrim rest d1 r1 c1 b1
      rw [hr] at h2
      simp only [hb, he, hr]
      simp only at h1 h2
      rw [h2, h1]
      rfl

end

theorem flatten_equalities_go_ncid (isPrim : Symbol → Bool) (eqs : List (Symbol × Expr))
    (d : Desugar) (res : List NormFact) (cons : List (Symbol × Symbol))
    (bound : List Symbol) :
    (flatten_equalities_go isPrim eqs d res cons bound).1.next_command_id =
      d.next_command_id := by
  induction eqs generalizing d res cons bound with
  | nil => rfl
  | cons p rest ih =>
    rcases p with ⟨lhs, rhs⟩
    simp only [flatten_equalities_go]
    by_cases hc : lhs ∈ d.global_variables ∨ (lhs ∈ bound ∧ ¬ rhs.is_var)
    · rw [if_pos hc]
      rcases he : expr_to_ssa isPrim d.get_fresh.1 rhs d.get_fresh.2 res cons bound
        with ⟨d1, r1, c1, b1⟩
      have h1 := expr_to_ssa_ncid isPrim d.get_fresh.1 rhs d.get_fresh.2 res cons bound
      rw [he] at h1
      simp only [he]
      rw [ih d1 r1 (c1 ++ [(d.get_fresh.1, lhs)]) b1]
      simp only at h1
      rw [h1]
      rfl
    · rw [if_neg hc]
      rcases he : expr_to_ssa isPrim lhs rhs d res cons bound with ⟨d1, r1, c1, b1⟩
      have h1 := expr_to_ssa_ncid isPrim lhs rhs d res cons bound
      rw [he] at h1
      simp only [he]
      rw [ih d1 r1 c1 b1]
      simpa using h1

theorem flatten_equalities_ncid (isPrim : Symbol → Bool) (eqs : List (Symbol × Expr))
    (d : Desugar) :
    (flatten_equalities isPrim eqs d).2.next_command_id = d.next_command_id := by
  unfold flatten_equalities
  rcases hg : flatten_equalities_go isPrim eqs d [] [] [] with ⟨d1, r1, c1, b1⟩
  have h := flatten_equalities_go_ncid isPrim eqs d [] [] []
  rw [hg] at h
  simpa using h

theorem facts_to_equalities_ncid (facts : List Fact) (d : Desugar)
    (eqs : List (Symbol × Expr)) (d' : Desugar)
    (h : facts_to_equalities facts d = some (eqs, d')) :
    d'.next_command_id = d.next_command_id := by
  induction facts generalizing d eqs d' with
  | nil =>
    simp only [facts_to_equalities, Option.some.injEq] at h
    obtain ⟨h1, h2⟩ := Prod.mk.injEq .. ▸ h
    rw [← h2]
  | cons fact rest ih =>
    match fact with
    | Fact.Eq args =>
      match args with
      | [] =>
        simp only [facts_to_equalities] at h
        exact Option.noConfusion h
      | [a] =>
        simp only [facts_to_equalities] at h
        exact Option.noConfusion h
      | [lhs, rhs] =>
        match lhs, rhs with
        | .Var v, rhs =>
          simp only [facts_to_equalities] at h
          obtain ⟨⟨eqs1, d1⟩, hr, hf⟩ := Option.map_eq_some'.mp h
          obtain ⟨h1, h2⟩ := Prod.mk.injEq .. ▸ hf
          rw [← h2]
          exact ih d eqs1 d1 hr
        | .Lit l1, .Var v =>
          simp only [facts_to_equalities] at h
          obtain ⟨⟨eqs1, d1⟩, hr, hf⟩ := Option.map_eq_some'.mp h
          obtain ⟨h1, h2⟩ := Prod.mk.injEq .. ▸ hf
          rw [← h2]
          exact ih d eqs1 d1 hr
        | .Call g cs, .Var v =>
          simp only [facts_to_equalities] at h
          obtain ⟨⟨eqs1, d1⟩, hr, hf⟩ := Option.map_eq_some'.mp h
          obtain ⟨h1, h2⟩ := Prod.mk.injEq .. ▸ hf
          rw [← h2]
          exact ih d eqs1 d1 hr
        | .Lit l1, .Lit l2 =>
          simp only [facts_to_equalities] at h
          obtain ⟨⟨eqs1, d1⟩, hr, hf⟩ := Option.map_eq_some'.mp h
          obtain ⟨h1, h2⟩ := Prod.mk.injEq .. ▸ hf
          rw [← h2]
          exact ih d.get_fresh.2 eqs1 d1 hr
        | .Lit l1, .Call g cs =>
          simp only [facts_to_equalities] at h
          obtain ⟨⟨eqs1, d1⟩, hr, hf⟩ := Option.map_eq_some'.mp h
          obtain ⟨h1, h2⟩ := Prod.mk.injEq .. ▸ hf
          rw [← h2]
          exact ih d.get_fresh.2 eqs1 d1 hr
        | .Call g cs, .Lit l2 =>
          simp only [facts_to_equalities] at h
          obtain ⟨⟨eqs1, d1⟩, hr, hf⟩ := Option.map_eq_some'.mp h
          obtain ⟨h1, h2⟩ := Prod.mk.injEq .. ▸ hf
          rw [← h2]
          exact ih d.get_fresh.2 eqs1 d1 hr
        | .Call g1 cs1, .Call g2 cs2 =>
          simp only [facts_to_equalities] at h
          obtain ⟨⟨eqs1, d1⟩, hr, hf⟩ := Option.map_eq_some'.mp h
          obtain ⟨h1, h2⟩ := Prod.mk.injEq .. ▸ hf
          rw [← h2]
          exact ih d.get_fresh.2 eqs1 d1 hr
      | a :: b :: c :: rest2 =>
        simp only [facts_to_equalities] at h
        exact Option.noConfusion h
    | Fact.Fact e =>
      simp only [facts_to_equalities] at h
      obtain ⟨⟨eqs1, d1⟩, hr, hf⟩ := Option.map_eq_some'.mp h
      obtain ⟨h1, h2⟩ := Prod.mk.injEq .. ▸ hf
      rw [← h2]
      exact ih d.get_fresh.2 eqs1 d1 hr

theorem flatten_facts_ncid (isPrim : Symbol → Bool) (facts : List Fact) (d : Desugar)
    (nf : List NormFact) (d' : Desugar)
    (h : flatten_facts isPrim facts d = some (nf, d')) :
    d'.next_command_id = d.next_command_id := by
  unfold flatten_facts at h
  obtain ⟨⟨eqs1, d1⟩, hr, hf⟩ := Option.map_eq_some'.mp h
  have h1 := facts_to_equalities_ncid facts d eqs1 d1 hr
  have h2 := flatten_equalities_ncid isPrim eqs1 d1
  have hsnd : (flatten_equalities isPrim eqs1 d1).2 = d' := congrArg Prod.snd hf
  rw [← hsnd, h2, h1]

theorem gunStep_ncid (var : Symbol) (is_def : Bool) (s : GUNState) :
    ((gunStep var is_def s).2).d.next_command_id = s.d.next_command_id := by
  unfold gunStep
  cases is_def with
  | false => rfl
  | true =>
    by_cases h1 : var ∈ s.name_used
    · rw [if_pos rfl, if_pos h1]
      rcases hg : s.d.get_fresh with ⟨fresh, d1⟩
      have hgn := get_fresh_ncid s.d
      rw [hg] at hgn
      simp only [hg]
      by_cases h2 : var ∈ s.immediately
      · rw [if_pos h2]
        exact hgn
      · rw [if_neg h2]
        exact hgn
    · rw [if_pos rfl, if_neg h1]

theorem give_unique_names_go_ncid (d : Desugar) (name_used : List Symbol)
    (cons_after : List NormFact) (res : List NormFact) (facts : List NormFact) :
    (give_unique_names_go d name_used cons_after res facts).2.next_command_id =
      d.next_command_id := by
  induction facts generalizing d name_used cons_after res with
  | nil => rfl
  | cons fact rest ih =>
    simp only [give_unique_names_go, map_def_use_gunStep_eq]
    rw [ih]
    exact gunStep_ncid fact.defSym true _

theorem give_unique_names_ncid (d : Desugar) (facts : List NormFact) :
    (give_unique_names d facts).2.next_command_id = d.next_command_id :=
  give_unique_names_go_ncid d [] [] [] facts

mutual

theorem expr_to_flat_actions_ncid (e : Expr) (d : Desugar) (res : List NormAction)
    (memo : List (Expr × Symbol)) :
    (expr_to_flat_actions e d res memo).2.1.next_command_id = d.next_command_id := by
  cases hfind : memoFind memo e with
  | some s => rw [expr_to_flat_actions_hit e d res memo s hfind]
  | none =>
    match e with
    | .Lit l =>
      simp only [expr_to_flat_actions, hfind]
      rcases hg : d.get_fresh with ⟨a1, d1⟩
      simp only [hg]
      have := get_fresh_ncid d
      rw [hg] at this
      exact this
    | .Var v => simp only [expr_to_flat_actions, hfind]
    | .Call f children =>
      simp only [expr_to_flat_actions, hfind]
      rcases hg : d.get_fresh with ⟨a1, d1⟩
      simp only [hg]
      have hgn := get_fresh_ncid d
      rw [hg] at hgn
      have hchild := flat_children_ncid children d1 res memo
      rcases hc : flat_children children d1 res memo with ⟨nc, d2, r2, m2⟩
      rw [hc] at hchild
      simp only [hc]
      cases hfind2 : memoFind m2 (NormExpr.Call f nc).to_expr with
      | some existing =>
        simp only [hfind2]
        simp only at hchild
        rw [hchild, hgn]
      | none =>
        simp only [hfind2]
        simp only at hchild
        rw [hchild, hgn]

theorem flat_children_ncid (children : List Expr) (d : Desugar)
    (res : List NormAction) (memo : List (Expr × Symbol)) :
    (flat_children children d res memo).2.1.next_command_id = d.next_command_id := by
  match children with
  | [] => rfl
  | child :: rest =>
    match child with
    | .Var v =>
      simp only [flat_children]
      have hr := flat_children_ncid rest d res memo
      rcases hc : flat_children rest d res memo with ⟨ns, d2, r2, m2⟩
      rw [hc] at hr
      simp only [hc]
      simpa using hr
    | .Lit l =>
      simp only [flat_children]
      have he := expr_to_flat_actions_ncid (.Lit l) d res memo
      rcases h1 : expr_to_flat_actions (.Lit l) d res memo with ⟨n1, d1, r1, m1⟩
      rw [h1] at he
      simp only [h1]
      have hr := flat_children_ncid rest d1 r1 m1
      rcases h2 : flat_children rest d1 r1 m1 with ⟨ns, d2, r2, m2⟩
      rw [h2] at hr
      simp only [h2]
      simp only at he hr
      rw [hr, he]
    | .Call g cs =>
      simp only [flat_children]
      have he := expr_to_flat_actions_ncid (.Call g cs) d res memo
      rcases h1 : expr_to_flat_actions (.Call g cs) d res memo with ⟨n1, d1, r1, m1⟩
      rw [h1] at he
      simp only [h1]
      have hr := flat_children_ncid rest d1 r1 m1
      rcases h2 : flat_children rest d1 r1 m1 with ⟨ns, d2, r2, m2⟩
      rw [h2] at hr
      simp only [h2]
      simp only at he hr
      rw [hr, he]

end

theorem flat_actions_args_ncid (args : List Expr) (d : Desugar)
    (res : List NormAction) (memo : List (Expr × Symbol)) :
    (flat_actions_args args d res memo).2.1.next_command_id = d.next_command_id := by
  induction args generalizing d res memo with
  | nil => rfl
  | cons arg rest ih =>
    simp only [flat_actions_args]
    have he := expr_to_flat_actions_ncid arg d res memo
    rcases h1 : expr_to_flat_actions arg d res memo with ⟨n1, d1, r1, m1⟩
    rw [h1] at he
    simp only [h1]
    have hr := ih d1 r1 m1
    rcases h2 : flat_actions_args rest d1 r1 m1 with ⟨ns, d2, r2, m2⟩
    rw [h2] at hr
    simp only [h2]
    simp only at he hr
    rw [hr, he]

theorem flatten_actions_go_ncid (actions : List Action) (d : Desugar)
    (res : List NormAction) (memo : List (Expr × Symbol)) (res' : List NormAction)
    (d' : Desugar) (h : flatten_actions_go actions d res memo = some (res', d')) :
    d'.next_command_id = d.next_command_id := by
  induction actions generalizing d res memo with
  | nil =>
    simp only [flatten_actions_go, Option.some.injEq] at h
    obtain ⟨h1, h2⟩ := Prod.mk.injEq .. ▸ h
    rw [← h2]
  | cons action rest ih =>
    match action with
    | .Let symbol e =>
      simp only [flatten_actions_go] at h
      have he := expr_to_flat_actions_ncid e d res memo
      rcases h1 : expr_to_flat_actions e d res memo with ⟨added, d1, r1, m1⟩
      rw [h1] at he h
      simp only at h he
      by_cases hs : symbol = added
      · rw [if_pos hs] at h
        exact Option.noConfusion h
      · rw [if_neg hs] at h
        rw [ih d1 (r1 ++ [NormAction.LetVar symbol added]) m1 h, he]
    | .Set f args rhs =>
      simp only [flatten_actions_go] at h
      have ha := flat_actions_args_ncid args d res memo
      rcases h1 : flat_actions_args args d res memo with ⟨an, d1, r1, m1⟩
      rw [h1] at ha h
      simp only at h ha
      have he := expr_to_flat_actions_ncid rhs d1 r1 m1
      rcases h2 : expr_to_flat_actions rhs d1 r1 m1 with ⟨rn, d2, r2, m2⟩
      rw [h2] at he h
      simp only at h he
      rw [ih d2 (r2 ++ [NormAction.Set (NormExpr.Call f an) rn]) m2 h, he, ha]
    | .SetNoTrack f args rhs =>
      simp only [flatten_actions_go] at h
      have ha := flat_actions_args_ncid args d res memo
      rcases h1 : flat_actions_args args d res memo with ⟨an, d1, r1, m1⟩
      rw [h1] at ha h
      simp only at h ha
      have he := expr_to_flat_actions_ncid rhs d1 r1 m1
      rcases h2 : expr_to_flat_actions rhs d1 r1 m1 with ⟨rn, d2, r2, m2⟩
      rw [h2] at he h
      simp only at h he
      rw [ih d2 (r2 ++ [NormAction.Set (NormExpr.Call f an) rn]) m2 h, he, ha]
    | .Delete f args =>
      simp only [flatten_actions_go] at h
      have ha := flat_actions_args_ncid args d res memo
      rcases h1 : flat_actions_args args d res memo with ⟨an, d1, r1, m1⟩
      rw [h1] at ha h
      simp only at h ha
      rw [ih d1 (r1 ++ [NormAction.Delete (NormExpr.Call f an)]) m1 h, ha]
    | .Union lhs rhs =>
      simp only [flatten_actions_go] at h
      have hl := expr_to_flat_actions_ncid lhs d res memo
      rcases h1 : expr_to_flat_actions lhs d res memo with ⟨ln, d1, r1, m1⟩
      rw [h1] at hl h
      simp only at h hl
      have hr := expr_to_flat_actions_ncid rhs d1 r1 m1
      rcases h2 : expr_to_flat_actions rhs d1 r1 m1 with ⟨rn, d2, r2, m2⟩
      rw [h2] at hr h
      simp only at h hr
      rw [ih d2 (r2 ++ [NormAction.Union ln rn]) m2 h, hr, hl]
    | .Panic msg =>
      simp only [flatten_actions_go] at h
      exact ih d (res ++ [NormAction.Panic msg]) memo h
    | .Expr e =>
      simp only [flatten_actions_go] at h
      have he := expr_to_flat_actions_ncid e d res memo
      rcases h1 : expr_to_flat_actions e d res memo with ⟨n1, d1, r1, m1⟩
      rw [h1] at he h
      simp only at h he
      rw [ih d1 r1 m1 h, he]

theorem flatten_actions_ncid (actions : List Action) (d : Desugar)
    (res' : List NormAction) (d' : Desugar)
    (h : flatten_actions actions d = some (res', d')) :
    d'.next_command_id = d.next_command_id :=
  flatten_actions_go_ncid actions d [] [] res' d' h

theorem flatten_rule_ncid (isPrim : Symbol → Bool) (rule : Rule) (d : Desugar)
    (nr : NormRule) (d' : Desugar) (h : flatten_rule isPrim rule d = some (nr, d')) :
    d'.next_command_id = d.next_command_id := by
  unfold flatten_rule at h
  rcases hf : flatten_facts isPrim rule.body d with _ | ⟨ff, d1⟩
  · rw [hf] at h
    exact Option.noConfusion h
  · rw [hf] at h
    have h1 := flatten_facts_ncid isPrim rule.body d ff d1 hf
    rcases hg : give_unique_names d1 ff with ⟨wun, d2⟩
    have h2 := give_unique_names_ncid d1 ff
    rw [hg] at h2
    simp only [hg] at h
    rcases ha : flatten_actions rule.head d2 with _ | ⟨head, d3⟩
    · rw [ha] at h
      exact Option.noConfusion h
    · rw [ha] at h
      have h3 := flatten_actions_ncid rule.head d2 head d3 ha
      simp only [Option.some.injEq] at h
      obtain ⟨hx, hy⟩ := Prod.mk.injEq .. ▸ h
      rw [← hy, h3]
      simp only at h2
      rw [h2, h1]

theorem semi_naive_go_ncid (head : List Action) (d : Desugar) :
    (semi_naive_go head d).2.2.2.next_command_id = d.next_command_id := by
  induction head generalizing d with
  | nil => rfl
  | cons a rest ih =>
    match a with
    | .Set f args (.Call g cs) =>
      rcases hr : semi_naive_go rest d.get_fresh.2 with ⟨rh, ra, rf, d2⟩
      have h := ih d.get_fresh.2
      rw [hr] at h
      simp only [semi_naive_go, hr]
      simpa using h
    | .Set f args (.Var w) =>
      rcases hr : semi_naive_go rest d with ⟨rh, ra, rf, d2⟩
      have h := ih d
      rw [hr] at h
      simp only [semi_naive_go, hr]
      simpa using h
    | .Set f args (.Lit l) =>
      rcases hr : semi_naive_go rest d with ⟨rh, ra, rf, d2⟩
      have h := ih d
      rw [hr] at h
      simp only [semi_naive_go, hr]
      simpa using h
    | .Let x0 e0 =>
      rcases hr : semi_naive_go rest d with ⟨rh, ra, rf, d2⟩
      have h := ih d
      rw [hr] at h
      simp only [semi_naive_go, hr]
      simpa using h
    | .SetNoTrack f args value =>
      rcases hr : semi_naive_go rest d with ⟨rh, ra, rf, d2⟩
      have h := ih d
      rw [hr] at h
      simp only [semi_naive_go, hr]
      simpa using h
    | .Delete f args =>
      rcases hr : semi_naive_go rest d with ⟨rh, ra, rf, d2⟩
      have h := ih d
      rw [hr] at h
      simp only [semi_naive_go, hr]
      simpa using h
    | .Union x y =>
      rcases hr : semi_naive_go rest d with ⟨rh, ra, rf, d2⟩
      have h := ih d
      rw [hr] at h
      simp only [semi_naive_go, hr]
      simpa using h
    | .Panic msg =>
      rcases hr : semi_naive_go rest d with ⟨rh, ra, rf, d2⟩
      have h := ih d
      rw [hr] at h
      simp only [semi_naive_go, hr]
      simpa using h
    | .Expr e0 =>
      rcases hr : semi_naive_go rest d with ⟨rh, ra, rf, d2⟩
      have h := ih d
      rw [hr] at h
      simp only [semi_naive_go, hr]
      simpa using h

theorem add_semi_naive_rule_ncid (d : Desugar) (rule : Rule) (r' : Rule) (d' : Desugar)
    (h : add_semi_naive_rule d rule = some (r', d')) :
    d'.next_command_id = d.next_command_id := by
  unfold add_semi_naive_rule at h
  rcases hr : semi_naive_go rule.head d with ⟨rh, ra, rf, d2⟩
  have hn := semi_naive_go_ncid rule.head d
  rw [hr] at hn
  rw [hr] at h
  simp only at hn
  rcases rf with _ | _
  · simp only [ite_false, if_false] at h
    exact absurd h (by simp)
  · simp only [ite_true, if_true, Option.some.injEq] at h
    obtain ⟨h1, h2⟩ := Prod.mk.injEq .. ▸ h
    rw [← h2]
    exact hn

theorem desugar_run_config_ncid (isPrim : Symbol → Bool) (rc : RunConfig) (d : Desugar)
    (nrc : NormRunConfig) (d' : Desugar)
    (h : desugar_run_config isPrim rc d = some (nrc, d')) :
    d'.next_command_id = d.next_command_id := by
  unfold desugar_run_config at h
  match huntil : rc.until_ with
  | none =>
    rw [huntil] at h
    simp only [Option.some.injEq] at h
    obtain ⟨h1, h2⟩ := Prod.mk.injEq .. ▸ h
    rw [← h2]
  | some facts =>
    rw [huntil] at h
    obtain ⟨⟨nf, d1⟩, hf, hmap⟩ := Option.map_eq_some'.mp h
    obtain ⟨h1, h2⟩ := Prod.mk.injEq .. ▸ hmap
    rw [← h2]
    exact flatten_facts_ncid isPrim facts d nf d1 hf

mutual

theorem desugar_schedule_ncid (isPrim : Symbol → Bool) (s : Schedule) (d : Desugar)
    (ns : NormSchedule) (d' : Desugar)
    (h : desugar_schedule isPrim s d = some (ns, d')) :
    d'.next_command_id = d.next_command_id := by
  match s with
  | .Repeat num inner =>
    simp only [desugar_schedule] at h
    obtain ⟨⟨ni, d1⟩, hi, hmap⟩ := Option.map_eq_some'.mp h
    obtain ⟨h1, h2⟩ := Prod.mk.injEq .. ▸ hmap
    rw [← h2]
    exact desugar_schedule_ncid isPrim inner d ni d1 hi
  | .Saturate inner =>
    simp only [desugar_schedule] at h
    obtain ⟨⟨ni, d1⟩, hi, hmap⟩ := Option.map_eq_some'.mp h
    obtain ⟨h1, h2⟩ := Prod.mk.injEq .. ▸ hmap
    rw [← h2]
    exact desugar_schedule_ncid isPrim inner d ni d1 hi
  | .Run rc =>
    simp only [desugar_schedule] at h
    obtain ⟨⟨nrc, d1⟩, hi, hmap⟩ := Option.map_eq_some'.mp h
    obtain ⟨h1, h2⟩ := Prod.mk.injEq .. ▸ hmap
    rw [← h2]
    exact desugar_run_config_ncid isPrim rc d nrc d1 hi
  | .Sequence ss =>
    simp only [desugar_schedule] at h
    obtain ⟨⟨nss, d1⟩, hi, hmap⟩ := Option.map_eq_some'.mp h
    obtain ⟨h1, h2⟩ := Prod.mk.injEq .. ▸ hmap
    rw [← h2]
    exact desugar_schedule_list_ncid isPrim ss d nss d1 hi

theorem desugar_schedule_list_ncid (isPrim : Symbol → Bool) (ss : List Schedule)
    (d : Desugar) (nss : List NormSchedule) (d' : Desugar)
    (h : desugar_schedule_list isPrim ss d = some (nss, d')) :
    d'.next_command_id = d.next_command_id := by
  match ss with
  | [] =>
    simp only [desugar_schedule_list, Option.some.injEq] at h
    obtain ⟨h1, h2⟩ := Prod.mk.injEq .. ▸ h
    rw [← h2]
  | s :: rest =>
    simp only [desugar_schedule_list] at h
    rcases hs : desugar_schedule isPrim s d with _ | ⟨ns1, d1⟩
    · rw [hs] at h
      exact Option.noConfusion h
    · rw [hs] at h
      obtain ⟨⟨nss2, d2⟩, hr, hmap⟩ := Option.map_eq_some'.mp h
      obtain ⟨h1, h2⟩ := Prod.mk.injEq .. ▸ hmap
      rw [← h2]
      rw [desugar_schedule_list_ncid isPrim rest d1 nss2 d2 hr]
      exact desugar_schedule_ncid isPrim s d ns1 d1 hs

end

theorem declare_ncid (d : Desugar) (name sort : Symbol) :
    (d.declare name sort).2.next_command_id = d.next_command_id := rfl

theorem insertGlobal_ncid (d : Desugar) (name : Symbol) :
    (d.insertGlobal name).next_command_id = d.next_command_id := rfl

theorem declare_idents_ncid (idents : List IdentSort) (d : Desugar) :
    (declare_idents idents d).2.next_command_id = d.next_command_id := by
  induction idents generalizing d with
  | nil => rfl
  | cons is rest ih =>
    simp only [declare_idents]
    rcases hd : d.declare is.ident is.sort with ⟨cmds, d1⟩
    have h1 := declare_ncid d is.ident is.sort
    rw [hd] at h1
    rcases hr : declare_idents rest d1 with ⟨cmds2, d2⟩
    have h2 := ih d1
    rw [hr] at h2
    simp only [hd, hr]
    simp only at h1 h2
    rw [h2, h1]

theorem desugar_rewrite_ncid (isPrim : Symbol → Bool) (ruleset name : Symbol)
    (rw0 : Rewrite) (d : Desugar) (cmds : List NCommand) (d' : Desugar)
    (h : desugar_rewrite isPrim ruleset name rw0 d = some (cmds, d')) :
    d'.next_command_id = d.next_command_id := by
  unfold desugar_rewrite at h
  obtain ⟨⟨nr, d1⟩, hf, hmap⟩ := Option.map_eq_some'.mp h
  obtain ⟨h1, h2⟩ := Prod.mk.injEq .. ▸ hmap
  rw [← h2]
  exact flatten_rule_ncid isPrim _ d nr d1 hf

theorem desugar_birewrite_ncid (isPrim : Symbol → Bool) (ruleset name : Symbol)
    (rw0 : Rewrite) (d : Desugar) (cmds : List NCommand) (d' : Desugar)
    (h : desugar_birewrite isPrim ruleset name rw0 d = some (cmds, d')) :
    d'.next_command_id = d.next_command_id := by
  unfold desugar_birewrite at h
  rcases h1 : desugar_rewrite isPrim ruleset (name ++ "=>") rw0 d with _ | ⟨cmds1, d1⟩
  · rw [h1] at h
    exact Option.noConfusion h
  · rw [h1] at h
    obtain ⟨⟨cmds2, d2⟩, h2, hmap⟩ := Option.map_eq_some'.mp h
    obtain ⟨hx, hy⟩ := Prod.mk.injEq .. ▸ hmap
    rw [← hy]
    rw [desugar_rewrite_ncid isPrim ruleset _ _ d1 cmds2 d2 h2]
    exact desugar_rewrite_ncid isPrim ruleset _ rw0 d cmds1 d1 h1

/-- Well-formed id lists: strictly increasing, all within `[lo, hi)`. -/
def IdsOk (lo hi : Nat) (l : List Nat) : Prop :=
  List.Chain' (· < ·) l ∧ ∀ i ∈ l, lo ≤ i ∧ i < hi

theorem IdsOk.nil (lo hi : Nat) : IdsOk lo hi [] :=
  ⟨List.chain'_nil, fun i hi' => absurd hi' (List.not_mem_nil i)⟩

theorem IdsOk.widen {lo hi lo' hi' : Nat} {l : List Nat} (h : IdsOk lo hi l)
    (h1 : lo' ≤ lo) (h2 : hi ≤ hi') : IdsOk lo' hi' l :=
  ⟨h.1, fun i hm => ⟨le_trans h1 (h.2 i hm).1, lt_of_lt_of_le (h.2 i hm).2 h2⟩⟩

theorem IdsOk.append {lo mid hi : Nat} {l1 l2 : List Nat}
    (h1 : IdsOk lo mid l1) (h2 : IdsOk mid hi l2)
    (hlo : lo ≤ mid) (hhi : mid ≤ hi) : IdsOk lo hi (l1 ++ l2) := by
  refine ⟨?_, ?_⟩
  · rw [List.chain'_append]
    refine ⟨h1.1, h2.1, ?_⟩
    intro x hx y hy
    have hx1 : x ∈ l1 := List.mem_of_mem_getLast? hx
    have hy1 : y ∈ l2 := List.mem_of_mem_head? hy
    have hb1 := (h1.2 x hx1).2
    have hb2 := (h2.2 y hy1).1
    omega
  · intro i hm
    rcases List.mem_append.mp hm with hm | hm
    · have := h1.2 i hm
      exact ⟨this.1, lt_of_lt_of_le this.2 hhi⟩
    · have := h2.2 i hm
      exact ⟨le_trans hlo this.1, this.2⟩

theorem idsOk_range' (s n : Nat) : IdsOk s (s + n) (List.range' s n) := by
  refine ⟨?_, ?_⟩
  · exact (List.pairwise_lt_range' s n 1 (by omega)).chain'
  · intro i hm
    have := List.mem_range'_1.mp hm
    omega

theorem assign_ids_spec (cmds : List NCommand) (d : Desugar) :
    (assign_ids cmds d).1.map (fun c => c.metadata.id) =
      List.range' d.next_command_id cmds.length ∧
    (assign_ids cmds d).2.next_command_id = d.next_command_id + cmds.length ∧
    (assign_ids cmds d).1.map (fun c => c.command) = cmds := by
  induction cmds generalizing d with
  | nil => simp [assign_ids, List.range']
  | cons c rest ih =>
    simp only [assign_ids, Desugar.get_new_id]
    rcases ha : assign_ids rest { d with next_command_id := d.next_command_id + 1 }
      with ⟨rest', d2⟩
    have h := ih { d with next_command_id := d.next_command_id + 1 }
    rw [ha] at h
    simp only at h
    simp only [ha, List.map_cons, List.length_cons]
    refine ⟨?_, ?_, ?_⟩
    · rw [h.1, List.range'_succ]
    · rw [h.2.1]
      omega
    · rw [h.2.2]

theorem map_dropLast_fail (des : List NormCommand) (last : NormCommand)
    (hlast : des.getLast? = some last) :
    ((des.dropLast ++
        [{ metadata := last.metadata, command := NCommand.Fail last.command }] :
        List NormCommand).map (fun c => c.metadata.id)) =
      des.map (fun c => c.metadata.id) := by
  have hne : des ≠ [] := by
    intro h
    rw [h] at hlast
    exact Option.noConfusion hlast
  have hsplit : des.dropLast ++ [des.getLast hne] = des :=
    List.dropLast_append_getLast hne
  have hlast2 : des.getLast hne = last := by
    rw [List.getLast?_eq_getLast des hne] at hlast
    exact Option.some.injEq .. ▸ hlast
  conv_rhs => rw [← hsplit]
  rw [List.map_append, List.map_append, hlast2]
  rfl

mutual

/-- `desugar_command` only moves `next_command_id` forward, and the emitted
ids are strictly increasing within `[before, after)`. -/
theorem desugar_command_ids (isPrim : Symbol → Bool) (command : Command)
    (d : Desugar) (gap sem : Bool) (cmds : List NormCommand) (d' : Desugar)
    (h : desugar_command isPrim command d gap sem = some (cmds, d')) :
    d.next_command_id ≤ d'.next_command_id ∧
    IdsOk d.next_command_id d'.next_command_id
      (cmds.map fun c => c.metadata.id) := by
  unfold desugar_command at h
  split at h
  · rename_i cmd
    rcases hin : desugar_command isPrim cmd d false sem with _ | ⟨des, d1⟩
    · rw [hin] at h
      simp only at h
      exact Option.noConfusion h
    · rw [hin] at h
      simp only at h
      have hrec := desugar_command_ids isPrim cmd d false sem des d1 hin
      cases hlast : des.getLast? with
      | none =>
        rw [hlast] at h
        exact Option.noConfusion h
      | some last =>
        rw [hlast] at h
        simp only [Option.some.injEq] at h
        obtain ⟨h1, h2⟩ := Prod.mk.injEq .. ▸ h
        subst h1
        subst h2
        refine ⟨hrec.1, ?_⟩
        rw [map_dropLast_fail des last hlast]
        exact hrec.2
  · rename_i c hne
    rcases haux : desugar_command_aux isPrim command d gap sem with _ | ⟨res, d1⟩
    · rw [haux] at h
      simp only at h
      exact Option.noConfusion h
    · rw [haux] at h
      simp only [Option.some.injEq] at h
      rcases hai : assign_ids res d1 with ⟨cmds2, d2⟩
      rw [hai] at h
      obtain ⟨h1, h2⟩ := Prod.mk.injEq .. ▸ h
      subst h1
      subst h2
      have hle := desugar_command_aux_le isPrim command d gap sem res d1 haux
      have hspec := assign_ids_spec res d1
      rw [hai] at hspec
      simp only at hspec
      refine ⟨by omega, ?_⟩
      rw [hspec.1]
      exact (idsOk_range' d1.next_command_id res.length).widen hle
        (le_of_eq hspec.2.1.symm)
termination_by 2 * csize command + 1
decreasing_by
  all_goals subst_vars
  all_goals first
    | omega
    | (simp only [csize]; omega)

theorem desugar_command_aux_le (isPrim : Symbol → Bool) (command : Command)
    (d : Desugar) (gap sem : Bool) (res : List NCommand) (d' : Desugar)
    (h : desugar_command_aux isPrim command d gap sem = some (res, d')) :
    d.next_command_id ≤ d'.next_command_id := by
  match command with
  | .SetOption name value =>
    simp only [desugar_command_aux, Option.some.injEq] at h
    obtain ⟨h1, h2⟩ := Prod.mk.injEq .. ▸ h
    rw [← h2]
  | .Function fdecl =>
    simp only [desugar_command_aux, Option.some.injEq] at h
    obtain ⟨h1, h2⟩ := Prod.mk.injEq .. ▸ h
    rw [← h2]
  | .Run config =>
    simp only [desugar_command_aux] at h
    obtain ⟨⟨nrc, d1⟩, hrc, hmap⟩ := Option.map_eq_some'.mp h
    have h2 := congrArg Prod.snd hmap
    simp only at h2
    have h3 := desugar_run_config_ncid isPrim config d nrc d1 hrc
    rw [← h2]
    omega
  | .Declare name sort =>
    simp only [desugar_command_aux, Option.some.injEq] at h
    have h2 := congrArg Prod.snd h
    simp only at h2
    have h3 : d'.next_command_id = d.next_command_id := by
      rw [← h2, declare_ncid, insertGlobal_ncid]
    omega
  | .Datatype name variants =>
    simp only [desugar_command_aux, Option.some.injEq] at h
    obtain ⟨h1, h2⟩ := Prod.mk.injEq .. ▸ h
    rw [← h2]
  | .Rewrite ruleset rw0 =>
    simp only [desugar_command_aux] at h
    exact le_of_eq (desugar_rewrite_ncid isPrim ruleset _ rw0 d res d' h).symm
  | .BiRewrite ruleset rw0 =>
    simp only [desugar_command_aux] at h
    exact le_of_eq (desugar_birewrite_ncid isPrim ruleset _ rw0 d res d' h).symm
  | .Rule ruleset name rule =>
    simp only [desugar_command_aux] at h
    rcases hfr : flatten_rule isPrim rule d with _ | ⟨nr, d1⟩
    · rw [hfr] at h
      exact Option.noConfusion h
    · rw [hfr] at h
      have hn1 := flatten_rule_ncid isPrim rule d nr d1 hfr
      cases sem with
      | false =>
        simp only [Bool.false_eq_true, if_false, ite_false, Option.some.injEq] at h
        obtain ⟨h1, h2⟩ := Prod.mk.injEq .. ▸ h
        rw [← h2]
        omega
      | true =>
        simp only [if_true, ite_true] at h
        rcases hasn : add_semi_naive_rule d1 rule with _ | ⟨new_rule, d2⟩
        · rw [hasn] at h
          simp only [Option.some.injEq] at h
          obtain ⟨h1, h2⟩ := Prod.mk.injEq .. ▸ h
          rw [← h2]
          omega
        · rw [hasn] at h
          simp only at h
          have hn2 := add_semi_naive_rule_ncid d1 rule new_rule d2 hasn
          rcases hfr2 : flatten_rule isPrim new_rule d2 with _ | ⟨nr2, d3⟩
          · rw [hfr2] at h
            exact Option.noConfusion h
          · rw [hfr2] at h
            have hn3 := flatten_rule_ncid isPrim new_rule d2 nr2 d3 hfr2
            simp only [Option.some.injEq] at h
            obtain ⟨h1, h2⟩ := Prod.mk.injEq .. ▸ h
            rw [← h2]
            omega
  | .SortDecl sort option =>
    simp only [desugar_command_aux, Option.some.injEq] at h
    obtain ⟨h1, h2⟩ := Prod.mk.injEq .. ▸ h
    rw [← h2]
  | .Define name e cost =>
    simp only [desugar_command_aux] at h
    rcases he : expr_to_flat_actions e (d.insertGlobal name) [] [] with ⟨fresh, d1, acts, m⟩
    have hn := expr_to_flat_actions_ncid e (d.insertGlobal name) [] []
    rw [he] at hn h
    simp only at hn h
    rw [insertGlobal_ncid] at hn
    simp only [Option.some.injEq] at h
    obtain ⟨h1, h2⟩ := Prod.mk.injEq .. ▸ h
    rw [← h2]
    omega
  | .AddRuleset name =>
    simp only [desugar_command_aux, Option.some.injEq] at h
    obtain ⟨h1, h2⟩ := Prod.mk.injEq .. ▸ h
    rw [← h2]
  | .Action action =>
    cases action <;>
      · simp only [desugar_command_aux] at h
        obtain ⟨⟨acts, d1⟩, hfa, hmap⟩ := Option.map_eq_some'.mp h
        have h2 := congrArg Prod.snd hmap
        simp only at h2
        have h3 := flatten_actions_ncid _ _ acts d1 hfa
        rw [← h2]
        exact le_of_eq h3.symm
  | .Simplify e config =>
    simp only [desugar_command_aux] at h
    rcases hg : d.get_fresh with ⟨fresh, d1⟩
    have hgn := get_fresh_ncid d
    rw [hg] at hgn h
    simp only at hgn h
    rcases hfa : flatten_actions [Action.Let fresh e] d1 with _ | ⟨acts, d2⟩
    · rw [hfa] at h
      exact Option.noConfusion h
    · rw [hfa] at h
      have h3 := flatten_actions_ncid _ _ acts d2 hfa
      obtain ⟨⟨nrc, d3⟩, hrc, hmap⟩ := Option.map_eq_some'.mp h
      have h4 := desugar_run_config_ncid isPrim config d2 nrc d3 hrc
      have h5 := congrArg Prod.snd hmap
      simp only at h5
      rw [← h5]
      omega
  | .Calc idents exprs =>
    simp only [desugar_command_aux] at h
    exact desugar_calc_le isPrim idents exprs sem d res d' h
  | .RunSchedule sched =>
    simp only [desugar_command_aux] at h
    obtain ⟨⟨ns, d1⟩, hs, hmap⟩ := Option.map_eq_some'.mp h
    have h2 := congrArg Prod.snd hmap
    simp only at h2
    have h3 := desugar_schedule_ncid isPrim sched d ns d1 hs
    rw [← h2]
    omega
  | .Extract variants e =>
    simp only [desugar_command_aux] at h
    rcases hg : d.get_fresh with ⟨fresh, d1⟩
    have hgn := get_fresh_ncid d
    rw [hg] at hgn h
    simp only at hgn h
    obtain ⟨⟨acts, d2⟩, hfa, hmap⟩ := Option.map_eq_some'.mp h
    have h3 := flatten_actions_ncid _ _ acts d2 hfa
    have h4 := congrArg Prod.snd hmap
    simp only at h4
    rw [← h4]
    omega
  | .Check facts =>
    simp only [desugar_command_aux] at h
    obtain ⟨⟨nf, d1⟩, hff, hmap⟩ := Option.map_eq_some'.mp h
    have h2 := congrArg Prod.snd hmap
    simp only at h2
    have h3 := flatten_facts_ncid isPrim facts d nf d1 hff
    rw [← h2]
    omega
  | .Print sym n =>
    simp only [desugar_command_aux, Option.some.injEq] at h
    obtain ⟨h1, h2⟩ := Prod.mk.injEq .. ▸ h
    rw [← h2]
  | .PrintSize sym =>
    simp only [desugar_command_aux, Option.some.injEq] at h
    obtain ⟨h1, h2⟩ := Prod.mk.injEq .. ▸ h
    rw [← h2]
  | .Output file exprs =>
    simp only [desugar_command_aux, Option.some.injEq] at h
    obtain ⟨h1, h2⟩ := Prod.mk.injEq .. ▸ h
    rw [← h2]
  | .Push n =>
    simp only [desugar_command_aux, Option.some.injEq] at h
    obtain ⟨h1, h2⟩ := Prod.mk.injEq .. ▸ h
    rw [← h2]
  | .Pop n =>
    simp only [desugar_command_aux, Option.some.injEq] at h
    obtain ⟨h1, h2⟩ := Prod.mk.injEq .. ▸ h
    rw [← h2]
  | .Fail cmd =>
    simp only [desugar_command_aux] at h
    exact Option.noConfusion h
  | .Input name file =>
    simp only [desugar_command_aux, Option.some.injEq] at h
    obtain ⟨h1, h2⟩ := Prod.mk.injEq .. ▸ h
    rw [← h2]
  | .Visualize file =>
    simp only [desugar_command_aux, Option.some.injEq] at h
    obtain ⟨h1, h2⟩ := Prod.mk.injEq .. ▸ h
    rw [← h2]
termination_by 2 * csize command
decreasing_by
  all_goals first
    | omega
    | (simp only [csize]; omega)

theorem desugar_calc_le (isPrim : Symbol → Bool) (idents : List IdentSort)
    (exprs : List Expr) (sem : Bool) (d : Desugar) (res : List NCommand)
    (d' : Desugar) (h : desugar_calc isPrim idents exprs sem d = some (res, d')) :
    d.next_command_id ≤ d'.next_command_id := by
  unfold desugar_calc at h
  rcases hdi : declare_idents idents d with ⟨declCmds, d1⟩
  have hn1 := declare_idents_ncid idents d
  rw [hdi] at hn1 h
  simp only at hn1 h
  obtain ⟨⟨rest, d2⟩, hp, hmap⟩ := Option.map_eq_some'.mp h
  have h2 := congrArg Prod.snd hmap
  simp only at h2
  have h3 := desugar_calc_pairs_le isPrim (windows2 exprs) sem d1 rest d2 hp
  rw [← h2]
  omega
termination_by 11 + 12 * exprs.length + 4 * esizeList exprs
decreasing_by
  have h := windows2_measure_le exprs
  omega

theorem desugar_calc_pairs_le (isPrim : Symbol → Bool) (pairs : List (Expr × Expr))
    (sem : Bool) (d : Desugar) (res : List NCommand) (d' : Desugar)
    (h : desugar_calc_pairs isPrim pairs sem d = some (res, d')) :
    d.next_command_id ≤ d'.next_command_id := by
  match pairs with
  | [] =>
    simp only [desugar_calc_pairs, Option.some.injEq] at h
    obtain ⟨h1, h2⟩ := Prod.mk.injEq .. ▸ h
    rw [← h2]
  | (e1, e2) :: rest =>
    simp only [desugar_calc_pairs] at h
    rcases ha1 : expr_to_flat_actions e1 d [] [] with ⟨v1, d1, acts1, m1⟩
    have hn1 := expr_to_flat_actions_ncid e1 d [] []
    rw [ha1] at hn1 h
    simp only at hn1 h
    rcases ha2 : expr_to_flat_actions e2 d1 acts1 m1 with ⟨v2, d2, acts2, m2⟩
    have hn2 := expr_to_flat_actions_ncid e2 d1 acts1 m1
    rw [ha2] at hn2 h
    simp only at hn2 h
    rcases hdc : desugar_command isPrim
        (.RunSchedule (.Saturate (.Run
          { ruleset := "", until_ := some [Fact.Eq [e1, e2]], limit := 1 })))
        d2 false sem with _ | ⟨cmds1, d3⟩
    · rw [hdc] at h
      exact Option.noConfusion h
    · rw [hdc] at h
      have hrec := (desugar_command_ids isPrim
        (.RunSchedule (.Saturate (.Run
          { ruleset := "", until_ := some [Fact.Eq [e1, e2]], limit := 1 })))
        d2 false sem cmds1 d3 hdc).1
      obtain ⟨⟨restCmds, d4⟩, hp, hmap⟩ := Option.map_eq_some'.mp h
      have hrec2 := desugar_calc_pairs_le isPrim rest sem d3 restCmds d4 hp
      have h5 := congrArg Prod.snd hmap
      simp only at h5
      rw [← h5]
      omega
termination_by 2 * ((pairs.map (fun p => 5 + esize p.1 + esize p.2)).sum)
decreasing_by
  all_goals first
    | omega
    | (simp only [csize, ssize, fsize, fsizeList, esizeList, esize,
        List.map_cons, List.sum_cons]; omega)

end

/-- `desugar_commands`: emitted ids are strictly increasing and lie in the
id interval the session consumed. -/
theorem desugar_commands_ids (isPrim : Symbol → Bool) (program : List Command)
    (d : Desugar) (gap sem : Bool) (cmds : List NormCommand) (d' : Desugar)
    (h : desugar_commands isPrim program d gap sem = some (cmds, d')) :
    d.next_command_id ≤ d'.next_command_id ∧
    IdsOk d.next_command_id d'.next_command_id
      (cmds.map fun c => c.metadata.id) := by
  induction program generalizing d cmds d' with
  | nil =>
    simp only [desugar_commands, Option.some.injEq] at h
    obtain ⟨h1, h2⟩ := Prod.mk.injEq .. ▸ h
    subst h1
    subst h2
    exact ⟨le_refl _, IdsOk.nil _ _⟩
  | cons command rest ih =>
    simp only [desugar_commands] at h
    rcases hc : desugar_command isPrim command d gap sem with _ | ⟨cmds1, d1⟩
    · rw [hc] at h
      exact Option.noConfusion h
    · rw [hc] at h
      simp only at h
      have h1 := desugar_command_ids isPrim command d gap sem cmds1 d1 hc
      obtain ⟨⟨restCmds, d2⟩, hr, hmap⟩ := Option.map_eq_some'.mp h
      have h2 := ih d1 restCmds d2 hr
      obtain ⟨hx, hy⟩ := Prod.mk.injEq .. ▸ hmap
      subst hx
      subst hy
      refine ⟨le_trans h1.1 h2.1, ?_⟩
      rw [List.map_append]
      exact h1.2.append h2.2 h1.1 h2.1

/-- Claim C5 counterexample: desugaring the one-command program
`Calc([], [a, b])` from the default state emits four normalized commands with
ids `[1, 2, 3, 4]`, not `[0, 1, 2, 3]`: `desugar_calc` recursively desugars an
inner `RunSchedule` command and discards its wrapper (`.map(|c| c.command)`),
burning id 0, so the ids are not densely numbered from 0. -/
theorem claim_c5_counterexample :
    (desugar_commands (fun _ => false)
        [Command.Calc [] [Expr.Var "a", Expr.Var "b"]] Desugar.default false false).map
      (fun p => p.1.map (fun c => c.metadata.id)) = some [1, 2, 3, 4] ∧
    [1, 2, 3, 4] ≠ List.range 4 := by
  refine ⟨?_, by decide⟩
  simp only [desugar_commands, desugar_command, desugar_command_aux, desugar_calc,
    desugar_calc_pairs, declare_idents, windows2, desugar_schedule, desugar_run_config]
  rfl

/-- Claim C5 (amended): the normalized commands of one desugaring session
carry ids that are strictly increasing in emission order (hence unique), all
inside the id interval the session consumed; they are not densely numbered
from 0 in general, since `desugar_calc` consumes ids whose commands it
discards. -/
theorem claim_c5_amended (isPrim : Symbol → Bool) (program : List Command)
    (d : Desugar) (gap sem : Bool) (cmds : List NormCommand) (d' : Desugar)
    (h : desugar_commands isPrim program d gap sem = some (cmds, d')) :
    List.Chain' (· < ·) (cmds.map fun c => c.metadata.id) ∧
    (cmds.map fun c => c.metadata.id).Nodup ∧
    (∀ i ∈ cmds.map fun c => c.metadata.id,
      d.next_command_id ≤ i ∧ i < d'.next_command_id) := by
  have hids := desugar_commands_ids isPrim program d gap sem cmds d' h
  refine ⟨hids.2.1, ?_, hids.2.2⟩
  have hp : (cmds.map fun c => c.metadata.id).Pairwise (· < ·) :=
    List.chain'_iff_pairwise.mp hids.2.1
  exact hp.imp Nat.ne_of_lt

theorem claim_c5_amended_witness :
    List.Chain' (· < ·)
      (([{ metadata := { id := 0 }, command := NCommand.Push 1 }] :
        List NormCommand).map fun c => c.metadata.id) ∧
    (([{ metadata := { id := 0 }, command := NCommand.Push 1 }] :
        List NormCommand).map fun c => c.metadata.id).Nodup ∧
    (∀ i ∈ ([{ metadata := { id := 0 }, command := NCommand.Push 1 }] :
        List NormCommand).map fun c => c.metadata.id,
      Desugar.default.next_command_id ≤ i ∧
        i < ({ next_fresh := 0, next_command_id := 1, number_underscores := 3,
               global_variables := [] } : Desugar).next_command_id) :=
  claim_c5_amended (fun _ => false) [Command.Push 1] Desugar.default false false
    [{ metadata := { id := 0 }, command := NCommand.Push 1 }]
    { next_fresh := 0, next_command_id := 1, number_underscores := 3,
      global_variables := [] }
    (by
      simp only [desugar_commands, desugar_command, desugar_command_aux]
      rfl)

end EggSmol
